import Mathlib

/-!
Verification development for the RMPP MessagePack codec.

The Rust sources (`src/types.rs`, `src/decode.rs`, `src/encode.rs`) are
shallowly embedded below:

* byte buffers are `List Nat` whose elements are intended to be `< 256`
  (hypotheses state this bound where a result depends on it);
* Rust `u8/u16/u32/u64` values are `Nat`, `i8/i16/i32/i64` are `Int`,
  and `f32/f64` are carried as their IEEE-754 bit patterns (`Nat`) since
  the codec only moves their bytes;
* Rust `String` payloads are carried as their UTF-8 byte lists, together
  with the same UTF-8 validity check `String::from_utf8` performs;
* fallible code returns `Except`; the `unimplemented!()` / `unreachable!()`
  panics of `decode.rs` are modelled as the distinguished `DecErr.diverged`
  outcome (a panic is not an `Err` return);
* the recursive decoder is written with an explicit fuel parameter so that
  it is structurally recursive; `read_value` instantiates the fuel at
  `3 * |input| + 1`, and the totality lemma below shows this fuel is never
  exhausted, so the fuel is invisible in the observable behaviour.
-/

namespace RMPP

/-- The coarse categorical tag of `types.rs` (`BasicTypes`). -/
inductive BasicTypes where
  | Null | Bool | Number | String | Bin | Array | Map
  deriving DecidableEq, Repr

/-- Alias so that the `MsgPackValue.Bool` constructor can refer to the
built-in `Bool` unambiguously. -/
abbrev BoolT := Bool

mutual
/-- `types.rs` `MsgPackEntry`: raw marker byte, derived coarse tag, payload. -/
inductive MsgPackEntry where
  | mk (raw_marker : Nat) (basic_type : BasicTypes) (data : MsgPackValue)
/-- `types.rs` `MsgPackValue`: one case per supported MessagePack wire format.
Strings are carried as UTF-8 byte lists, floats as IEEE-754 bit patterns. -/
inductive MsgPackValue where
  | Null
  | Bool (b : BoolT)
  | FixPos (n : Nat)
  | FixNeg (n : Int)
  | U8 (n : Nat) | U16 (n : Nat) | U32 (n : Nat) | U64 (n : Nat)
  | I8 (n : Int) | I16 (n : Int) | I32 (n : Int) | I64 (n : Int)
  | F32 (bits : Nat) | F64 (bits : Nat)
  | FixStr (s : List Nat) | Str8 (s : List Nat) | Str16 (s : List Nat) | Str32 (s : List Nat)
  | Bin8 (b : List Nat) | Bin16 (b : List Nat) | Bin32 (b : List Nat)
  | FixArray (xs : List MsgPackEntry) | Array16 (xs : List MsgPackEntry) | Array32 (xs : List MsgPackEntry)
  | FixMap (xs : List (MsgPackEntry × MsgPackEntry)) | Map16 (xs : List (MsgPackEntry × MsgPackEntry)) | Map32 (xs : List (MsgPackEntry × MsgPackEntry))
end

/-- Field accessor for `MsgPackEntry.raw_marker`. -/
def MsgPackEntry.raw_marker : MsgPackEntry → Nat
  | .mk m _ _ => m

/-- Field accessor for `MsgPackEntry.basic_type`. -/
def MsgPackEntry.basic_type : MsgPackEntry → BasicTypes
  | .mk _ t _ => t

/-- Field accessor for `MsgPackEntry.data`. -/
def MsgPackEntry.data : MsgPackEntry → MsgPackValue
  | .mk _ _ v => v

/-- `types.rs` `value2type`: the deterministic coarse classification. -/
def value2type : MsgPackValue → BasicTypes
  | .Null => .Null
  | .Bool _ => .Bool
  | .FixPos _ | .FixNeg _
  | .U8 _ | .U16 _ | .U32 _ | .U64 _
  | .I8 _ | .I16 _ | .I32 _ | .I64 _
  | .F32 _ | .F64 _ => .Number
  | .FixStr _ | .Str8 _ | .Str16 _ | .Str32 _ => .String
  | .Bin8 _ | .Bin16 _ | .Bin32 _ => .Bin
  | .FixArray _ | .Array16 _ | .Array32 _ => .Array
  | .FixMap _ | .Map16 _ | .Map32 _ => .Map

/-- `types.rs` `MsgPackEntry::new`: the public constructor, deriving
`basic_type` from the value. -/
def MsgPackEntry.new (raw_marker : Nat) (value : MsgPackValue) : MsgPackEntry :=
  .mk raw_marker (value2type value) value

/-- Decoder outcomes.  `io` and `custom` model the two `MsgPackError`
variants returned through `Result`; `diverged` models a panic
(`unimplemented!()` / `unreachable!()`), which is not an error return;
`outOfFuel` is the fuel sentinel of the embedding (shown unreachable for
the fuel used by `read_value`). -/
inductive DecErr where
  | io : DecErr
  | custom (msg : String) : DecErr
  | diverged (msg : String) : DecErr
  | outOfFuel : DecErr
  deriving DecidableEq, Repr

/-- Does this decode outcome correspond to `unpack` returning
`Err(MsgPackError)` to its caller (as opposed to succeeding or panicking)? -/
def isErrorReturn : Except DecErr MsgPackEntry → Bool
  | .error .io => true
  | .error (.custom _) => true
  | _ => false

/-- The error type of the encoder's sink (`std::io::Result`).  Writing into
an in-memory `Vec<u8>` never produces it. -/
inductive WriteError where
  | ioErr
  deriving DecidableEq, Repr

/-- The `rmp::Marker` enum used by `decode.rs` for marker dispatch. -/
inductive Marker where
  | FixPos (n : Nat) | FixMap (n : Nat) | FixArray (n : Nat) | FixStr (n : Nat)
  | Null | Reserved
  | False | True
  | Bin8 | Bin16 | Bin32
  | Ext8 | Ext16 | Ext32
  | F32 | F64
  | U8 | U16 | U32 | U64
  | I8 | I16 | I32 | I64
  | FixExt1 | FixExt2 | FixExt4 | FixExt8 | FixExt16
  | Str8 | Str16 | Str32
  | Array16 | Array32
  | Map16 | Map32
  | FixNeg (n : Int)
  deriving DecidableEq, Repr

/-- `rmp::Marker::from_u8`: the standard MessagePack marker table. -/
def markerFromU8 (n : Nat) : Marker :=
  if n ≤ 0x7F then .FixPos n
  else if n ≤ 0x8F then .FixMap (n &&& 0x0F)
  else if n ≤ 0x9F then .FixArray (n &&& 0x0F)
  else if n ≤ 0xBF then .FixStr (n &&& 0x1F)
  else if n = 0xC0 then .Null
  else if n = 0xC1 then .Reserved
  else if n = 0xC2 then .False
  else if n = 0xC3 then .True
  else if n = 0xC4 then .Bin8
  else if n = 0xC5 then .Bin16
  else if n = 0xC6 then .Bin32
  else if n = 0xC7 then .Ext8
  else if n = 0xC8 then .Ext16
  else if n = 0xC9 then .Ext32
  else if n = 0xCA then .F32
  else if n = 0xCB then .F64
  else if n = 0xCC then .U8
  else if n = 0xCD then .U16
  else if n = 0xCE then .U32
  else if n = 0xCF then .U64
  else if n = 0xD0 then .I8
  else if n = 0xD1 then .I16
  else if n = 0xD2 then .I32
  else if n = 0xD3 then .I64
  else if n = 0xD4 then .FixExt1
  else if n = 0xD5 then .FixExt2
  else if n = 0xD6 then .FixExt4
  else if n = 0xD7 then .FixExt8
  else if n = 0xD8 then .FixExt16
  else if n = 0xD9 then .Str8
  else if n = 0xDA then .Str16
  else if n = 0xDB then .Str32
  else if n = 0xDC then .Array16
  else if n = 0xDD then .Array32
  else if n = 0xDE then .Map16
  else if n = 0xDF then .Map32
  else .FixNeg ((n : Int) - 256)

/-- Decidable inversion table for `markerFromU8`, used to recover the
marker byte (and its range) from the dispatched `Marker` value. -/
def mfuInvChk (m : Nat) : Bool :=
  match markerFromU8 m with
  | .FixPos val => decide (m ≤ 0x7F ∧ val = m)
  | .FixMap val => decide (0x7F < m ∧ m ≤ 0x8F ∧ val = m &&& 0x0F)
  | .FixArray val => decide (0x8F < m ∧ m ≤ 0x9F ∧ val = m &&& 0x0F)
  | .FixStr val => decide (0x9F < m ∧ m ≤ 0xBF ∧ val = m &&& 0x1F)
  | .Null => decide (m = 0xC0)
  | .Reserved => decide (m = 0xC1)
  | .False => decide (m = 0xC2)
  | .True => decide (m = 0xC3)
  | .Bin8 => decide (m = 0xC4)
  | .Bin16 => decide (m = 0xC5)
  | .Bin32 => decide (m = 0xC6)
  | .Ext8 => decide (m = 0xC7)
  | .Ext16 => decide (m = 0xC8)
  | .Ext32 => decide (m = 0xC9)
  | .F32 => decide (m = 0xCA)
  | .F64 => decide (m = 0xCB)
  | .U8 => decide (m = 0xCC)
  | .U16 => decide (m = 0xCD)
  | .U32 => decide (m = 0xCE)
  | .U64 => decide (m = 0xCF)
  | .I8 => decide (m = 0xD0)
  | .I16 => decide (m = 0xD1)
  | .I32 => decide (m = 0xD2)
  | .I64 => decide (m = 0xD3)
  | .FixExt1 => decide (m = 0xD4)
  | .FixExt2 => decide (m = 0xD5)
  | .FixExt4 => decide (m = 0xD6)
  | .FixExt8 => decide (m = 0xD7)
  | .FixExt16 => decide (m = 0xD8)
  | .Str8 => decide (m = 0xD9)
  | .Str16 => decide (m = 0xDA)
  | .Str32 => decide (m = 0xDB)
  | .Array16 => decide (m = 0xDC)
  | .Array32 => decide (m = 0xDD)
  | .Map16 => decide (m = 0xDE)
  | .Map32 => decide (m = 0xDF)
  | .FixNeg val => decide (0xDF < m ∧ val = (m : Int) - 256)

/-- Big-endian byte list of the low `w` bytes of `n` (`to_be_bytes`). -/
def beBytes : Nat → Nat → List Nat
  | 0, _ => []
  | w + 1, n => beBytes w (n / 256) ++ [n % 256]

/-- Big-endian value of a byte list (how `byteorder` reads a `uN`). -/
def beVal (l : List Nat) : Nat := l.foldl (fun a x => a * 256 + x) 0

/-- Two's-complement reinterpretation of a `bits`-wide unsigned value as a
signed integer (`as i8`, `read_i16`, ...). -/
def toSigned (bits : Nat) (x : Nat) : Int :=
  if x < 2 ^ (bits - 1) then (x : Int) else (x : Int) - 2 ^ bits

/-- The `as u8` cast of a Rust signed integer (low 8 bits). -/
def intCast8 (n : Int) : Nat := (n % 256).toNat

/-- Low 16 bits of a signed integer (`i16::to_be_bytes` payload). -/
def intCast16 (n : Int) : Nat := (n % 65536).toNat

/-- Low 32 bits of a signed integer (`i32::to_be_bytes` payload). -/
def intCast32 (n : Int) : Nat := (n % 4294967296).toNat

/-- Low 64 bits of a signed integer (`i64::to_be_bytes` payload). -/
def intCast64 (n : Int) : Nat := (n % 18446744073709551616).toNat

/-- `read_u8`: one byte from the cursor, `UnexpectedEof` otherwise. -/
def readU8 : List Nat → Except DecErr (Nat × List Nat)
  | [] => .error .io
  | x :: r => .ok (x, r)

/-- `read_exact` into a buffer of length `n`. -/
def readExact (n : Nat) (b : List Nat) : Except DecErr (List Nat × List Nat) :=
  if n ≤ b.length then .ok (b.take n, b.drop n) else .error .io

/-- `read_uN::<BigEndian>`: `w` bytes, big-endian. -/
def readBE (w : Nat) (b : List Nat) : Except DecErr (Nat × List Nat) :=
  match readExact w b with
  | .error e => .error e
  | .ok (bs, r) => .ok (beVal bs, r)

/-- UTF-8 continuation byte (`0x80..=0xBF`). -/
def isCont (c : Nat) : Bool := 0x80 ≤ c && c ≤ 0xBF

/-- The UTF-8 validity check performed by `String::from_utf8`
(RFC 3629: no overlong forms, no surrogates, maximum U+10FFFF). -/
def utf8Valid : List Nat → Bool
  | [] => true
  | c :: rest =>
    if c < 0x80 then utf8Valid rest
    else if c < 0xC2 then false
    else if c ≤ 0xDF then
      match rest with
      | c2 :: r => isCont c2 && utf8Valid r
      | [] => false
    else if c ≤ 0xEF then
      match rest with
      | c2 :: c3 :: r =>
        (if c = 0xE0 then 0xA0 ≤ c2 && c2 ≤ 0xBF
         else if c = 0xED then 0x80 ≤ c2 && c2 ≤ 0x9F
         else isCont c2) && isCont c3 && utf8Valid r
      | _ => false
    else if c ≤ 0xF4 then
      match rest with
      | c2 :: c3 :: c4 :: r =>
        (if c = 0xF0 then 0x90 ≤ c2 && c2 ≤ 0xBF
         else if c = 0xF4 then 0x80 ≤ c2 && c2 ≤ 0x8F
         else isCont c2) && isCont c3 && isCont c4 && utf8Valid r
      | _ => false
    else false

/-- `decode.rs` `read_str`: length from the marker (masked low 5 bits for
`FixStr`) or a following 1/2/4-byte big-endian field, then that many raw
bytes, validated as UTF-8. -/
def read_str (b : List Nat) (marker : Marker) : Except DecErr (MsgPackValue × List Nat) :=
  match (match marker with
         | .FixStr val => .ok (val &&& 0x1F, b)
         | .Str8 => readU8 b
         | .Str16 => readBE 2 b
         | .Str32 => readBE 4 b
         | _ => .error (.diverged "internal error: entered unreachable code")
         : Except DecErr (Nat × List Nat)) with
  | .error e => .error e
  | .ok (len, b) =>
    match readExact len b with
    | .error e => .error e
    | .ok (buf, b) =>
      if utf8Valid buf then
        match marker with
        | .FixStr _ => .ok (.FixStr buf, b)
        | .Str8 => .ok (.Str8 buf, b)
        | .Str16 => .ok (.Str16 buf, b)
        | .Str32 => .ok (.Str32 buf, b)
        | _ => .error (.diverged "internal error: entered unreachable code")
      else .error (.custom "Invalid UTF-8")

/-- `decode.rs` `read_bin`: 1/2/4-byte big-endian length, then raw bytes. -/
def read_bin (b : List Nat) (marker : Marker) : Except DecErr (MsgPackValue × List Nat) :=
  match (match marker with
         | .Bin8 => readU8 b
         | .Bin16 => readBE 2 b
         | .Bin32 => readBE 4 b
         | _ => .error (.diverged "internal error: entered unreachable code")
         : Except DecErr (Nat × List Nat)) with
  | .error e => .error e
  | .ok (len, b) =>
    match readExact len b with
    | .error e => .error e
    | .ok (buf, b) =>
      match marker with
      | .Bin8 => .ok (.Bin8 buf, b)
      | .Bin16 => .ok (.Bin16 buf, b)
      | .Bin32 => .ok (.Bin32 buf, b)
      | _ => .error (.diverged "internal error: entered unreachable code")

mutual
/-- `decode.rs` `read_value`, with explicit fuel (first argument): read one
marker byte, dispatch on the marker family, read the payload, and wrap the
result through `MsgPackEntry::new`. -/
def read_valueF : Nat → List Nat → Except DecErr (MsgPackEntry × List Nat)
  | 0, _ => .error .outOfFuel
  | f + 1, b =>
    match readU8 b with
    | .error e => .error e
    | .ok (raw_marker, b) =>
      match markerFromU8 raw_marker with
      | .Null => .ok (MsgPackEntry.new raw_marker .Null, b)
      | .False => .ok (MsgPackEntry.new raw_marker (.Bool false), b)
      | .True => .ok (MsgPackEntry.new raw_marker (.Bool true), b)
      | .FixPos val => .ok (MsgPackEntry.new raw_marker (.FixPos val), b)
      | .FixNeg val => .ok (MsgPackEntry.new raw_marker (.FixNeg val), b)
      | .U8 =>
        (match readU8 b with
         | .error e => .error e
         | .ok (n, b) => .ok (MsgPackEntry.new raw_marker (.U8 n), b))
      | .U16 =>
        (match readBE 2 b with
         | .error e => .error e
         | .ok (n, b) => .ok (MsgPackEntry.new raw_marker (.U16 n), b))
      | .U32 =>
        (match readBE 4 b with
         | .error e => .error e
         | .ok (n, b) => .ok (MsgPackEntry.new raw_marker (.U32 n), b))
      | .U64 =>
        (match readBE 8 b with
         | .error e => .error e
         | .ok (n, b) => .ok (MsgPackEntry.new raw_marker (.U64 n), b))
      | .I8 =>
        (match readU8 b with
         | .error e => .error e
         | .ok (n, b) => .ok (MsgPackEntry.new raw_marker (.I8 (toSigned 8 n)), b))
      | .I16 =>
        (match readBE 2 b with
         | .error e => .error e
         | .ok (n, b) => .ok (MsgPackEntry.new raw_marker (.I16 (toSigned 16 n)), b))
      | .I32 =>
        (match readBE 4 b with
         | .error e => .error e
         | .ok (n, b) => .ok (MsgPackEntry.new raw_marker (.I32 (toSigned 32 n)), b))
      | .I64 =>
        (match readBE 8 b with
         | .error e => .error e
         | .ok (n, b) => .ok (MsgPackEntry.new raw_marker (.I64 (toSigned 64 n)), b))
      | .F32 =>
        (match readBE 4 b with
         | .error e => .error e
         | .ok (n, b) => .ok (MsgPackEntry.new raw_marker (.F32 n), b))
      | .F64 =>
        (match readBE 8 b with
         | .error e => .error e
         | .ok (n, b) => .ok (MsgPackEntry.new raw_marker (.F64 n), b))
      | .FixStr v =>
        (match read_str b (.FixStr v) with
         | .error e => .error e
         | .ok (value, b) => .ok (MsgPackEntry.new raw_marker value, b))
      | .Str8 =>
        (match read_str b .Str8 with
         | .error e => .error e
         | .ok (value, b) => .ok (MsgPackEntry.new raw_marker value, b))
      | .Str16 =>
        (match read_str b .Str16 with
         | .error e => .error e
         | .ok (value, b) => .ok (MsgPackEntry.new raw_marker value, b))
      | .Str32 =>
        (match read_str b .Str32 with
         | .error e => .error e
         | .ok (value, b) => .ok (MsgPackEntry.new raw_marker value, b))
      | .Bin8 =>
        (match read_bin b .Bin8 with
         | .error e => .error e
         | .ok (value, b) => .ok (MsgPackEntry.new raw_marker value, b))
      | .Bin16 =>
        (match read_bin b .Bin16 with
         | .error e => .error e
         | .ok (value, b) => .ok (MsgPackEntry.new raw_marker value, b))
      | .Bin32 =>
        (match read_bin b .Bin32 with
         | .error e => .error e
         | .ok (value, b) => .ok (MsgPackEntry.new raw_marker value, b))
      | .FixArray v =>
        (match read_arrayF f b (.FixArray v) with
         | .error e => .error e
         | .ok (value, b) => .ok (MsgPackEntry.new raw_marker value, b))
      | .Array16 =>
        (match read_arrayF f b .Array16 with
         | .error e => .error e
         | .ok (value, b) => .ok (MsgPackEntry.new raw_marker value, b))
      | .Array32 =>
        (match read_arrayF f b .Array32 with
         | .error e => .error e
         | .ok (value, b) => .ok (MsgPackEntry.new raw_marker value, b))
      | .FixMap v =>
        (match read_mapF f b (.FixMap v) with
         | .error e => .error e
         | .ok (value, b) => .ok (MsgPackEntry.new raw_marker value, b))
      | .Map16 =>
        (match read_mapF f b .Map16 with
         | .error e => .error e
         | .ok (value, b) => .ok (MsgPackEntry.new raw_marker value, b))
      | .Map32 =>
        (match read_mapF f b .Map32 with
         | .error e => .error e
         | .ok (value, b) => .ok (MsgPackEntry.new raw_marker value, b))
      | .Ext8 | .Ext16 | .Ext32
      | .FixExt1 | .FixExt2 | .FixExt4 | .FixExt8 | .FixExt16 =>
        .error (.diverged "not implemented")
      | .Reserved =>
        .error (.diverged "internal error: entered unreachable code")
/-- `decode.rs` `read_array`: element count from the marker (masked low
4 bits for `FixArray`) or a 2/4-byte field, then that many recursively
decoded elements. -/
def read_arrayF : Nat → List Nat → Marker → Except DecErr (MsgPackValue × List Nat)
  | 0, _, _ => .error .outOfFuel
  | f + 1, b, marker =>
    match (match marker with
           | .FixArray val => .ok (val &&& 0x0F, b)
           | .Array16 => readBE 2 b
           | .Array32 => readBE 4 b
           | _ => .error (.diverged "internal error: entered unreachable code")
           : Except DecErr (Nat × List Nat)) with
    | .error e => .error e
    | .ok (len, b) =>
      match read_elemsF f len b with
      | .error e => .error e
      | .ok (array, b) =>
        match marker with
        | .FixArray _ => .ok (.FixArray array, b)
        | .Array16 => .ok (.Array16 array, b)
        | .Array32 => .ok (.Array32 array, b)
        | _ => .error (.diverged "internal error: entered unreachable code")
/-- `decode.rs` `read_map`: pair count, then that many recursively decoded
key/value pairs, key first, preserving order. -/
def read_mapF : Nat → List Nat → Marker → Except DecErr (MsgPackValue × List Nat)
  | 0, _, _ => .error .outOfFuel
  | f + 1, b, marker =>
    match (match marker with
           | .FixMap val => .ok (val &&& 0x0F, b)
           | .Map16 => readBE 2 b
           | .Map32 => readBE 4 b
           | _ => .error (.diverged "internal error: entered unreachable code")
           : Except DecErr (Nat × List Nat)) with
    | .error e => .error e
    | .ok (len, b) =>
      match read_pairsF f len b with
      | .error e => .error e
      | .ok (map, b) =>
        match marker with
        | .FixMap _ => .ok (.FixMap map, b)
        | .Map16 => .ok (.Map16 map, b)
        | .Map32 => .ok (.Map32 map, b)
        | _ => .error (.diverged "internal error: entered unreachable code")
/-- The element loop of `read_array` (`for _ in 0..len { read_value }`). -/
def read_elemsF : Nat → Nat → List Nat → Except DecErr (List MsgPackEntry × List Nat)
  | 0, _, _ => .error .outOfFuel
  | _ + 1, 0, b => .ok ([], b)
  | f + 1, n + 1, b =>
    match read_valueF f b with
    | .error e => .error e
    | .ok (e, b) =>
      match read_elemsF f n b with
      | .error e => .error e
      | .ok (es, b) => .ok (e :: es, b)
/-- The pair loop of `read_map` (key then value, `len` times). -/
def read_pairsF : Nat → Nat → List Nat → Except DecErr (List (MsgPackEntry × MsgPackEntry) × List Nat)
  | 0, _, _ => .error .outOfFuel
  | _ + 1, 0, b => .ok ([], b)
  | f + 1, n + 1, b =>
    match read_valueF f b with
    | .error e => .error e
    | .ok (k, b) =>
      match read_valueF f b with
      | .error e => .error e
      | .ok (v, b) =>
        match read_pairsF f n b with
        | .error e => .error e
        | .ok (map, b) => .ok ((k, v) :: map, b)
end

/-- `read_value` on a fresh cursor over `b`.  The fuel `3 * |b| + 1` is
enough for any input (totality lemma below), so this is the total reading
function of `decode.rs`; the returned list is the unconsumed remainder of
the cursor. -/
def read_value (b : List Nat) : Except DecErr (MsgPackEntry × List Nat) :=
  read_valueF (3 * b.length + 1) b

/-- `decode.rs` `unpack`: decode one value from the front of the buffer. -/
def unpack (data : List Nat) : Except DecErr MsgPackEntry :=
  (read_value data).map (fun p => p.1)

/-- `Write::write_all` into a `Vec<u8>` sink: always succeeds, appending. -/
def writeAll (writer : List Nat) (buf : List Nat) : Except WriteError (List Nat) :=
  .ok (writer ++ buf)

mutual
/-- `encode.rs` `write_value`: marker byte, then length field if any, then
payload, recursing into children.  The writer state is the accumulated
`Vec<u8>`. -/
def write_value (writer : List Nat) : MsgPackValue → Except WriteError (List Nat)
  | .Null => writeAll writer [0xC0]
  | .Bool b => writeAll writer [if !b then 0xC2 else 0xC3]
  | .FixPos n => writeAll writer [n &&& 0x7F]
  | .FixNeg n => writeAll writer [intCast8 n &&& 0x1F ||| 0xE0]
  | .U8 n =>
    (match writeAll writer [0xCC] with
     | .error e => .error e
     | .ok w => writeAll w [n])
  | .U16 n =>
    (match writeAll writer [0xCD] with
     | .error e => .error e
     | .ok w => writeAll w (beBytes 2 n))
  | .U32 n =>
    (match writeAll writer [0xCE] with
     | .error e => .error e
     | .ok w => writeAll w (beBytes 4 n))
  | .U64 n =>
    (match writeAll writer [0xCF] with
     | .error e => .error e
     | .ok w => writeAll w (beBytes 8 n))
  | .I8 n =>
    (match writeAll writer [0xD0] with
     | .error e => .error e
     | .ok w => writeAll w [intCast8 n])
  | .I16 n =>
    (match writeAll writer [0xD1] with
     | .error e => .error e
     | .ok w => writeAll w (beBytes 2 (intCast16 n)))
  | .I32 n =>
    (match writeAll writer [0xD2] with
     | .error e => .error e
     | .ok w => writeAll w (beBytes 4 (intCast32 n)))
  | .I64 n =>
    (match writeAll writer [0xD3] with
     | .error e => .error e
     | .ok w => writeAll w (beBytes 8 (intCast64 n)))
  | .F32 bits =>
    (match writeAll writer [0xCA] with
     | .error e => .error e
     | .ok w => writeAll w (beBytes 4 bits))
  | .F64 bits =>
    (match writeAll writer [0xCB] with
     | .error e => .error e
     | .ok w => writeAll w (beBytes 8 bits))
  | .FixStr s =>
    (match writeAll writer [(s.length % 256) &&& 0x1F ||| 0xA0] with
     | .error e => .error e
     | .ok w => writeAll w s)
  | .Str8 s =>
    (match writeAll writer [0xD9] with
     | .error e => .error e
     | .ok w =>
       match writeAll w [s.length % 256] with
       | .error e => .error e
       | .ok w => writeAll w s)
  | .Str16 s =>
    (match writeAll writer [0xDA] with
     | .error e => .error e
     | .ok w =>
       match writeAll w (beBytes 2 (s.length % 65536)) with
       | .error e => .error e
       | .ok w => writeAll w s)
  | .Str32 s =>
    (match writeAll writer [0xDB] with
     | .error e => .error e
     | .ok w =>
       match writeAll w (beBytes 4 (s.length % 4294967296)) with
       | .error e => .error e
       | .ok w => writeAll w s)
  | .Bin8 bin =>
    (match writeAll writer [0xC4] with
     | .error e => .error e
     | .ok w =>
       match writeAll w [bin.length % 256] with
       | .error e => .error e
       | .ok w => writeAll w bin)
  | .Bin16 bin =>
    (match writeAll writer [0xC5] with
     | .error e => .error e
     | .ok w =>
       match writeAll w (beBytes 2 (bin.length % 65536)) with
       | .error e => .error e
       | .ok w => writeAll w bin)
  | .Bin32 bin =>
    (match writeAll writer [0xC6] with
     | .error e => .error e
     | .ok w =>
       match writeAll w (beBytes 4 (bin.length % 4294967296)) with
       | .error e => .error e
       | .ok w => writeAll w bin)
  | .FixArray values =>
    (match writeAll writer [(values.length % 256) &&& 0x0F ||| 0x90] with
     | .error e => .error e
     | .ok w => write_entries w values)
  | .Array16 values =>
    (match writeAll writer [0xDC] with
     | .error e => .error e
     | .ok w =>
       match writeAll w (beBytes 2 (values.length % 65536)) with
       | .error e => .error e
       | .ok w => write_entries w values)
  | .Array32 values =>
    (match writeAll writer [0xDD] with
     | .error e => .error e
     | .ok w =>
       match writeAll w (beBytes 4 (values.length % 4294967296)) with
       | .error e => .error e
       | .ok w => write_entries w values)
  | .FixMap values =>
    (match writeAll writer [(values.length % 256) &&& 0x0F ||| 0x80] with
     | .error e => .error e
     | .ok w => write_pairs w values)
  | .Map16 values =>
    (match writeAll writer [0xDE] with
     | .error e => .error e
     | .ok w =>
       match writeAll w (beBytes 2 (values.length % 65536)) with
       | .error e => .error e
       | .ok w => write_pairs w values)
  | .Map32 values =>
    (match writeAll writer [0xDF] with
     | .error e => .error e
     | .ok w =>
       match writeAll w (beBytes 4 (values.length % 4294967296)) with
       | .error e => .error e
       | .ok w => write_pairs w values)
/-- The child loop of the array cases (`write_value(writer, &v.data)`). -/
def write_entries (writer : List Nat) : List MsgPackEntry → Except WriteError (List Nat)
  | [] => .ok writer
  | .mk _ _ data :: vs =>
    match write_value writer data with
    | .error e => .error e
    | .ok w => write_entries w vs
/-- The pair loop of the map cases (key then value). -/
def write_pairs (writer : List Nat) : List (MsgPackEntry × MsgPackEntry) → Except WriteError (List Nat)
  | [] => .ok writer
  | (.mk _ _ kdata, .mk _ _ vdata) :: vs =>
    match write_value writer kdata with
    | .error e => .error e
    | .ok w =>
      match write_value w vdata with
      | .error e => .error e
      | .ok w => write_pairs w vs
end

/-- `encode.rs` `pack`: write into a fresh buffer and `unwrap()`.  The
`error` branch models the panic of the unwrap; the no-failure theorem
below shows it is never taken. -/
def pack (entry : MsgPackEntry) : List Nat :=
  match write_value [] entry.data with
  | .ok buffer => buffer
  | .error _ => []

mutual
/-- Pure normal form of the byte sequence `write_value` appends for an
entry (the encoder reads only the `data` field). -/
def encEntry : MsgPackEntry → List Nat
  | .mk _ _ v => encValue v
/-- Pure normal form of the byte sequence `write_value` appends for a
value: exactly the bytes of the corresponding `write_value` case. -/
def encValue : MsgPackValue → List Nat
  | .Null => [0xC0]
  | .Bool b => [if !b then 0xC2 else 0xC3]
  | .FixPos n => [n &&& 0x7F]
  | .FixNeg n => [intCast8 n &&& 0x1F ||| 0xE0]
  | .U8 n => [0xCC, n]
  | .U16 n => 0xCD :: beBytes 2 n
  | .U32 n => 0xCE :: beBytes 4 n
  | .U64 n => 0xCF :: beBytes 8 n
  | .I8 n => [0xD0, intCast8 n]
  | .I16 n => 0xD1 :: beBytes 2 (intCast16 n)
  | .I32 n => 0xD2 :: beBytes 4 (intCast32 n)
  | .I64 n => 0xD3 :: beBytes 8 (intCast64 n)
  | .F32 bits => 0xCA :: beBytes 4 bits
  | .F64 bits => 0xCB :: beBytes 8 bits
  | .FixStr s => ((s.length % 256) &&& 0x1F ||| 0xA0) :: s
  | .Str8 s => 0xD9 :: (s.length % 256) :: s
  | .Str16 s => 0xDA :: (beBytes 2 (s.length % 65536) ++ s)
  | .Str32 s => 0xDB :: (beBytes 4 (s.length % 4294967296) ++ s)
  | .Bin8 bin => 0xC4 :: (bin.length % 256) :: bin
  | .Bin16 bin => 0xC5 :: (beBytes 2 (bin.length % 65536) ++ bin)
  | .Bin32 bin => 0xC6 :: (beBytes 4 (bin.length % 4294967296) ++ bin)
  | .FixArray xs => ((xs.length % 256) &&& 0x0F ||| 0x90) :: encList xs
  | .Array16 xs => 0xDC :: (beBytes 2 (xs.length % 65536) ++ encList xs)
  | .Array32 xs => 0xDD :: (beBytes 4 (xs.length % 4294967296) ++ encList xs)
  | .FixMap xs => ((xs.length % 256) &&& 0x0F ||| 0x80) :: encPairs xs
  | .Map16 xs => 0xDE :: (beBytes 2 (xs.length % 65536) ++ encPairs xs)
  | .Map32 xs => 0xDF :: (beBytes 4 (xs.length % 4294967296) ++ encPairs xs)
/-- Concatenated encodings of array children. -/
def encList : List MsgPackEntry → List Nat
  | [] => []
  | e :: es => encEntry e ++ encList es
/-- Concatenated encodings of map pairs, key before value. -/
def encPairs : List (MsgPackEntry × MsgPackEntry) → List Nat
  | [] => []
  | (k, v) :: ps => encEntry k ++ (encEntry v ++ encPairs ps)
end

/-- The marker byte `write_value` emits for a value (head of `encValue`). -/
def canonicalMarker : MsgPackValue → Nat
  | .Null => 0xC0
  | .Bool b => if !b then 0xC2 else 0xC3
  | .FixPos n => n &&& 0x7F
  | .FixNeg n => intCast8 n &&& 0x1F ||| 0xE0
  | .U8 _ => 0xCC
  | .U16 _ => 0xCD
  | .U32 _ => 0xCE
  | .U64 _ => 0xCF
  | .I8 _ => 0xD0
  | .I16 _ => 0xD1
  | .I32 _ => 0xD2
  | .I64 _ => 0xD3
  | .F32 _ => 0xCA
  | .F64 _ => 0xCB
  | .FixStr s => (s.length % 256) &&& 0x1F ||| 0xA0
  | .Str8 _ => 0xD9
  | .Str16 _ => 0xDA
  | .Str32 _ => 0xDB
  | .Bin8 _ => 0xC4
  | .Bin16 _ => 0xC5
  | .Bin32 _ => 0xC6
  | .FixArray xs => (xs.length % 256) &&& 0x0F ||| 0x90
  | .Array16 _ => 0xDC
  | .Array32 _ => 0xDD
  | .FixMap xs => (xs.length % 256) &&& 0x0F ||| 0x80
  | .Map16 _ => 0xDE
  | .Map32 _ => 0xDF

/-- Byte-list well-formedness: every element below 256 (a Rust `Vec<u8>`). -/
def isBytes (l : List Nat) : Bool := l.all (fun x => decide (x < 256))

mutual
/-- The payload-range side conditions under which an entry tree denotes a
well-formed Rust value (each numeric payload within its machine-integer
range, string payloads valid UTF-8, length/count payloads within the width
the variant's wire format can carry), applied recursively.  This is the
validity notion quantified over by the round-trip claim. -/
def payloadValidE : MsgPackEntry → Bool
  | .mk _ _ v => payloadValidV v
/-- Payload-range side conditions for a value (see `payloadValidE`). -/
def payloadValidV : MsgPackValue → Bool
  | .Null => true
  | .Bool _ => true
  | .FixPos n => decide (n < 128)
  | .FixNeg n => decide (-32 ≤ n ∧ n ≤ -1)
  | .U8 n => decide (n < 256)
  | .U16 n => decide (n < 65536)
  | .U32 n => decide (n < 4294967296)
  | .U64 n => decide (n < 18446744073709551616)
  | .I8 n => decide (-128 ≤ n ∧ n < 128)
  | .I16 n => decide (-32768 ≤ n ∧ n < 32768)
  | .I32 n => decide (-2147483648 ≤ n ∧ n < 2147483648)
  | .I64 n => decide (-9223372036854775808 ≤ n ∧ n < 9223372036854775808)
  | .F32 bits => decide (bits < 4294967296)
  | .F64 bits => decide (bits < 18446744073709551616)
  | .FixStr s => decide (s.length < 32) && utf8Valid s
  | .Str8 s => decide (s.length < 256) && utf8Valid s
  | .Str16 s => decide (s.length < 65536) && utf8Valid s
  | .Str32 s => decide (s.length < 4294967296) && utf8Valid s
  | .Bin8 bin => decide (bin.length < 256) && isBytes bin
  | .Bin16 bin => decide (bin.length < 65536) && isBytes bin
  | .Bin32 bin => decide (bin.length < 4294967296) && isBytes bin
  | .FixArray xs => decide (xs.length < 16) && payloadListE xs
  | .Array16 xs => decide (xs.length < 65536) && payloadListE xs
  | .Array32 xs => decide (xs.length < 4294967296) && payloadListE xs
  | .FixMap xs => decide (xs.length < 16) && payloadListP xs
  | .Map16 xs => decide (xs.length < 65536) && payloadListP xs
  | .Map32 xs => decide (xs.length < 4294967296) && payloadListP xs
/-- `payloadValidE` over array children. -/
def payloadListE : List MsgPackEntry → Bool
  | [] => true
  | e :: es => payloadValidE e && payloadListE es
/-- `payloadValidE` over map pairs. -/
def payloadListP : List (MsgPackEntry × MsgPackEntry) → Bool
  | [] => true
  | (k, v) :: ps => payloadValidE k && (payloadValidE v && payloadListP ps)
end

mutual
/-- Full validity of an entry tree: payload ranges as in `payloadValidE`,
and additionally at every node the stored `raw_marker` is the marker byte
the encoder emits for the node's value and `basic_type` is the derived
classification (as every decoder- or constructor-produced entry has). -/
def validEntry : MsgPackEntry → Bool
  | .mk m t v => (m == canonicalMarker v) && ((t == value2type v) && validValue v)
/-- Value part of `validEntry`: payload ranges plus recursively valid
children. -/
def validValue : MsgPackValue → Bool
  | .Null => true
  | .Bool _ => true
  | .FixPos n => decide (n < 128)
  | .FixNeg n => decide (-32 ≤ n ∧ n ≤ -1)
  | .U8 n => decide (n < 256)
  | .U16 n => decide (n < 65536)
  | .U32 n => decide (n < 4294967296)
  | .U64 n => decide (n < 18446744073709551616)
  | .I8 n => decide (-128 ≤ n ∧ n < 128)
  | .I16 n => decide (-32768 ≤ n ∧ n < 32768)
  | .I32 n => decide (-2147483648 ≤ n ∧ n < 2147483648)
  | .I64 n => decide (-9223372036854775808 ≤ n ∧ n < 9223372036854775808)
  | .F32 bits => decide (bits < 4294967296)
  | .F64 bits => decide (bits < 18446744073709551616)
  | .FixStr s => decide (s.length < 32) && utf8Valid s
  | .Str8 s => decide (s.length < 256) && utf8Valid s
  | .Str16 s => decide (s.length < 65536) && utf8Valid s
  | .Str32 s => decide (s.length < 4294967296) && utf8Valid s
  | .Bin8 bin => decide (bin.length < 256) && isBytes bin
  | .Bin16 bin => decide (bin.length < 65536) && isBytes bin
  | .Bin32 bin => decide (bin.length < 4294967296) && isBytes bin
  | .FixArray xs => decide (xs.length < 16) && validListE xs
  | .Array16 xs => decide (xs.length < 65536) && validListE xs
  | .Array32 xs => decide (xs.length < 4294967296) && validListE xs
  | .FixMap xs => decide (xs.length < 16) && validListP xs
  | .Map16 xs => decide (xs.length < 65536) && validListP xs
  | .Map32 xs => decide (xs.length < 4294967296) && validListP xs
/-- `validEntry` over array children. -/
def validListE : List MsgPackEntry → Bool
  | [] => true
  | e :: es => validEntry e && validListE es
/-- `validEntry` over map pairs. -/
def validListP : List (MsgPackEntry × MsgPackEntry) → Bool
  | [] => true
  | (k, v) :: ps => validEntry k && (validEntry v && validListP ps)
end

mutual
/-- `basic_type` coherence at every node: the stored tag equals
`value2type` of the stored value (the §4.1 classification table). -/
def wellTypedE : MsgPackEntry → Bool
  | .mk _ t v => (t == value2type v) && wellTypedV v
/-- `wellTypedE` pushed through a value's children. -/
def wellTypedV : MsgPackValue → Bool
  | .FixArray xs | .Array16 xs | .Array32 xs => wellTypedListE xs
  | .FixMap xs | .Map16 xs | .Map32 xs => wellTypedListP xs
  | _ => true
/-- `wellTypedE` over array children. -/
def wellTypedListE : List MsgPackEntry → Bool
  | [] => true
  | e :: es => wellTypedE e && wellTypedListE es
/-- `wellTypedE` over map pairs. -/
def wellTypedListP : List (MsgPackEntry × MsgPackEntry) → Bool
  | [] => true
  | (k, v) :: ps => wellTypedE k && (wellTypedE v && wellTypedListP ps)
end

/-! ### Primitive reader lemmas -/

theorem readU8_ok {b : List Nat} {x : Nat} {r : List Nat}
    (h : readU8 b = .ok (x, r)) : b = x :: r := by
  cases b with
  | nil => simp [readU8] at h
  | cons y ys => simp [readU8] at h; simp [h.1, h.2]

theorem readU8_replay (x : Nat) (r' : List Nat) : readU8 (x :: r') = .ok (x, r') := rfl

theorem readExact_ok {n : Nat} {b v r : List Nat}
    (h : readExact n b = .ok (v, r)) : b = v ++ r ∧ v.length = n := by
  unfold readExact at h
  split at h
  · next hle =>
    simp only [Except.ok.injEq, Prod.mk.injEq] at h
    constructor
    · rw [← h.1, ← h.2]; simp
    · rw [← h.1]; simp [List.length_take]; omega
  · exact absurd h (by simp)

theorem readExact_replay {n : Nat} {v : List Nat} (h : v.length = n) (r' : List Nat) :
    readExact n (v ++ r') = .ok (v, r') := by
  unfold readExact
  have hle : n ≤ (v ++ r').length := by simp [← h]
  rw [if_pos hle]
  rw [← h]
  simp [List.take_left, List.drop_left]

theorem readExact_trunc {n : Nat} {b v r : List Nat}
    (h : readExact n b = .ok (v, r)) {k : Nat} (hk : k < n) :
    readExact n (b.take k) = .error .io := by
  unfold readExact at h ⊢
  split at h
  · next hle =>
    rw [if_neg]
    simp only [List.length_take]
    omega
  · exact absurd h (by simp)

theorem readBE_ok {w : Nat} {b : List Nat} {x : Nat} {r : List Nat}
    (h : readBE w b = .ok (x, r)) :
    ∃ c, b = c ++ r ∧ c.length = w ∧ beVal c = x := by
  unfold readBE at h
  cases he : readExact w b with
  | error e => rw [he] at h; exact absurd h (by simp)
  | ok p =>
    obtain ⟨bs, r0⟩ := p
    rw [he] at h
    simp only [Except.ok.injEq, Prod.mk.injEq] at h
    obtain ⟨hok, hlen⟩ := readExact_ok he
    exact ⟨bs, by rw [hok, h.2], hlen, h.1⟩

theorem readBE_replay {w : Nat} {c : List Nat} (h : c.length = w) (r' : List Nat) :
    readBE w (c ++ r') = .ok (beVal c, r') := by
  unfold readBE
  rw [readExact_replay h]

theorem readBE_trunc {w : Nat} {b : List Nat} {x : Nat} {r : List Nat}
    (h : readBE w b = .ok (x, r)) {k : Nat} (hk : k < w) :
    readBE w (b.take k) = .error .io := by
  unfold readBE at h ⊢
  cases he : readExact w b with
  | error e => rw [he] at h; exact absurd h (by simp)
  | ok p => rw [readExact_trunc he hk]

theorem readExact_short {n : Nat} {l : List Nat} (h : l.length < n) :
    readExact n l = .error .io := by
  unfold readExact
  rw [if_neg]
  omega

theorem readBE_short {w : Nat} {l : List Nat} (h : l.length < w) :
    readBE w l = .error .io := by
  unfold readBE
  rw [readExact_short h]

/-- Locality, consumed-prefix decomposition and truncation behaviour of
`read_str`: a successful read consumed `c`, replays identically on any
suffix after `c`, and fails with the propagated end-of-input error on any
strict prefix of `c`. -/
theorem read_str_combo {b : List Nat} {marker : Marker} {v : MsgPackValue} {rest : List Nat}
    (h : read_str b marker = .ok (v, rest)) :
    ∃ c, b = c ++ rest ∧
      (∀ r', read_str (c ++ r') marker = .ok (v, r')) ∧
      (∀ k, k < c.length → read_str (c.take k) marker = .error .io) := by
  cases marker
  case FixStr val =>
    simp only [read_str] at h
    split at h
    next heq => exact absurd h (by simp)
    next buf b2 heq =>
      obtain ⟨hb, hlen⟩ := readExact_ok heq
      split at h
      next hu =>
        simp only [Except.ok.injEq, Prod.mk.injEq] at h
        obtain ⟨hv, hrest⟩ := h
        refine ⟨buf, by rw [hb, hrest], ?_, ?_⟩
        · intro r'
          simp only [read_str]
          rw [readExact_replay hlen]
          simp [hu, hv]
        · intro k hk
          simp only [read_str]
          rw [readExact_short (by simp only [List.length_take]; omega)]
      next hu => exact absurd h (by simp)
  case Str8 =>
    simp only [read_str] at h
    split at h
    next heq => exact absurd h (by simp)
    next len b2 heq =>
      have hb := readU8_ok heq
      split at h
      next heq2 => exact absurd h (by simp)
      next buf b3 heq2 =>
        obtain ⟨hb2, hlen⟩ := readExact_ok heq2
        split at h
        next hu =>
          simp only [Except.ok.injEq, Prod.mk.injEq] at h
          obtain ⟨hv, hrest⟩ := h
          refine ⟨len :: buf, by rw [hb, hb2, hrest]; simp, ?_, ?_⟩
          · intro r'
            simp only [read_str, List.cons_append, readU8_replay]
            rw [readExact_replay hlen]
            simp [hu, hv]
          · intro k hk
            match k, hk with
            | 0, _ => simp [read_str, readU8]
            | j + 1, hk =>
              simp only [List.take_succ_cons, read_str, readU8_replay]
              rw [readExact_short (by simp only [List.length_take]; simp at hk; omega)]
        next hu => exact absurd h (by simp)
  case Str16 =>
    simp only [read_str] at h
    split at h
    next heq => exact absurd h (by simp)
    next len b2 heq =>
      obtain ⟨cbe, hb, hclen, hcval⟩ := readBE_ok heq
      split at h
      next heq2 => exact absurd h (by simp)
      next buf b3 heq2 =>
        obtain ⟨hb2, hlen⟩ := readExact_ok heq2
        split at h
        next hu =>
          simp only [Except.ok.injEq, Prod.mk.injEq] at h
          obtain ⟨hv, hrest⟩ := h
          refine ⟨cbe ++ buf, by rw [hb, hb2, hrest]; simp, ?_, ?_⟩
          · intro r'
            simp only [read_str, List.append_assoc]
            simp [readBE_replay hclen, hcval, readExact_replay hlen, hu, hv]
          · intro k hk
            simp only [read_str, List.take_append_eq_append_take]
            rcases Nat.lt_or_ge k cbe.length with hlt | hge
            · rw [readBE_short (by simp only [List.length_append, List.length_take]; omega)]
            · rw [List.take_of_length_le (show cbe.length ≤ k by omega)]
              have hshort : (List.take (k - cbe.length) buf).length < len := by
                simp only [List.length_take, List.length_append] at hk ⊢
                omega
              simp [readBE_replay hclen, hcval, readExact_short hshort]
        next hu => exact absurd h (by simp)
  case Str32 =>
    simp only [read_str] at h
    split at h
    next heq => exact absurd h (by simp)
    next len b2 heq =>
      obtain ⟨cbe, hb, hclen, hcval⟩ := readBE_ok heq
      split at h
      next heq2 => exact absurd h (by simp)
      next buf b3 heq2 =>
        obtain ⟨hb2, hlen⟩ := readExact_ok heq2
        split at h
        next hu =>
          simp only [Except.ok.injEq, Prod.mk.injEq] at h
          obtain ⟨hv, hrest⟩ := h
          refine ⟨cbe ++ buf, by rw [hb, hb2, hrest]; simp, ?_, ?_⟩
          · intro r'
            simp only [read_str, List.append_assoc]
            simp [readBE_replay hclen, hcval, readExact_replay hlen, hu, hv]
          · intro k hk
            simp only [read_str, List.take_append_eq_append_take]
            rcases Nat.lt_or_ge k cbe.length with hlt | hge
            · rw [readBE_short (by simp only [List.length_append, List.length_take]; omega)]
            · rw [List.take_of_length_le (show cbe.length ≤ k by omega)]
              have hshort : (List.take (k - cbe.length) buf).length < len := by
                simp only [List.length_take, List.length_append] at hk ⊢
                omega
              simp [readBE_replay hclen, hcval, readExact_short hshort]
        next hu => exact absurd h (by simp)
  all_goals simp [read_str] at h

/-- Same locality / truncation package for `read_bin`. -/
theorem read_bin_combo {b : List Nat} {marker : Marker} {v : MsgPackValue} {rest : List Nat}
    (h : read_bin b marker = .ok (v, rest)) :
    ∃ c, b = c ++ rest ∧
      (∀ r', read_bin (c ++ r') marker = .ok (v, r')) ∧
      (∀ k, k < c.length → read_bin (c.take k) marker = .error .io) := by
  cases marker
  case Bin8 =>
    simp only [read_bin] at h
    split at h
    next heq => exact absurd h (by simp)
    next len b2 heq =>
      have hb := readU8_ok heq
      split at h
      next heq2 => exact absurd h (by simp)
      next buf b3 heq2 =>
        obtain ⟨hb2, hlen⟩ := readExact_ok heq2
        simp only [Except.ok.injEq, Prod.mk.injEq] at h
        obtain ⟨hv, hrest⟩ := h
        refine ⟨len :: buf, by rw [hb, hb2, hrest]; simp, ?_, ?_⟩
        · intro r'
          simp only [read_bin, List.cons_append, readU8_replay]
          rw [readExact_replay hlen]
          simp [hv]
        · intro k hk
          match k, hk with
          | 0, _ => simp [read_bin, readU8]
          | j + 1, hk =>
            simp only [List.take_succ_cons, read_bin, readU8_replay]
            rw [readExact_short (by simp only [List.length_take]; simp at hk; omega)]
  case Bin16 =>
    simp only [read_bin] at h
    split at h
    next heq => exact absurd h (by simp)
    next len b2 heq =>
      obtain ⟨cbe, hb, hclen, hcval⟩ := readBE_ok heq
      split at h
      next heq2 => exact absurd h (by simp)
      next buf b3 heq2 =>
        obtain ⟨hb2, hlen⟩ := readExact_ok heq2
        simp only [Except.ok.injEq, Prod.mk.injEq] at h
        obtain ⟨hv, hrest⟩ := h
        refine ⟨cbe ++ buf, by rw [hb, hb2, hrest]; simp, ?_, ?_⟩
        · intro r'
          simp only [read_bin, List.append_assoc]
          simp [readBE_replay hclen, hcval, readExact_replay hlen, hv]
        · intro k hk
          simp only [read_bin, List.take_append_eq_append_take]
          rcases Nat.lt_or_ge k cbe.length with hlt | hge
          · rw [readBE_short (by simp only [List.length_append, List.length_take]; omega)]
          · rw [List.take_of_length_le (show cbe.length ≤ k by omega)]
            have hshort : (List.take (k - cbe.length) buf).length < len := by
              simp only [List.length_take, List.length_append] at hk ⊢
              omega
            simp [readBE_replay hclen, hcval, readExact_short hshort]
  case Bin32 =>
    simp only [read_bin] at h
    split at h
    next heq => exact absurd h (by simp)
    next len b2 heq =>
      obtain ⟨cbe, hb, hclen, hcval⟩ := readBE_ok heq
      split at h
      next heq2 => exact absurd h (by simp)
      next buf b3 heq2 =>
        obtain ⟨hb2, hlen⟩ := readExact_ok heq2
        simp only [Except.ok.injEq, Prod.mk.injEq] at h
        obtain ⟨hv, hrest⟩ := h
        refine ⟨cbe ++ buf, by rw [hb, hb2, hrest]; simp, ?_, ?_⟩
        · intro r'
          simp only [read_bin, List.append_assoc]
          simp [readBE_replay hclen, hcval, readExact_replay hlen, hv]
        · intro k hk
          simp only [read_bin, List.take_append_eq_append_take]
          rcases Nat.lt_or_ge k cbe.length with hlt | hge
          · rw [readBE_short (by simp only [List.length_append, List.length_take]; omega)]
          · rw [List.take_of_length_le (show cbe.length ≤ k by omega)]
            have hshort : (List.take (k - cbe.length) buf).length < len := by
              simp only [List.length_take, List.length_append] at hk ⊢
              omega
            simp [readBE_replay hclen, hcval, readExact_short hshort]
  all_goals simp [read_bin] at h

/-- Master structural lemma for the decoder, by induction on fuel: every
successful read consumed a nonempty prefix `c` of its input, replays
identically when the bytes after `c` are replaced, and fails with the
propagated end-of-input error on every strict prefix of `c`.  Stated
simultaneously for the five mutually recursive reading functions. -/
theorem decode_combo : ∀ f : Nat,
    (∀ b e rest, read_valueF f b = .ok (e, rest) →
      ∃ c, c ≠ [] ∧ b = c ++ rest ∧
        (∀ r', read_valueF f (c ++ r') = .ok (e, r')) ∧
        (∀ k, k < c.length → read_valueF f (c.take k) = .error .io)) ∧
    (∀ b marker v rest, read_arrayF f b marker = .ok (v, rest) →
      ∃ c, b = c ++ rest ∧
        (∀ r', read_arrayF f (c ++ r') marker = .ok (v, r')) ∧
        (∀ k, k < c.length → read_arrayF f (c.take k) marker = .error .io)) ∧
    (∀ b marker v rest, read_mapF f b marker = .ok (v, rest) →
      ∃ c, b = c ++ rest ∧
        (∀ r', read_mapF f (c ++ r') marker = .ok (v, r')) ∧
        (∀ k, k < c.length → read_mapF f (c.take k) marker = .error .io)) ∧
    (∀ n b es rest, read_elemsF f n b = .ok (es, rest) →
      ∃ c, b = c ++ rest ∧
        (∀ r', read_elemsF f n (c ++ r') = .ok (es, r')) ∧
        (∀ k, k < c.length → read_elemsF f n (c.take k) = .error .io)) ∧
    (∀ n b ps rest, read_pairsF f n b = .ok (ps, rest) →
      ∃ c, b = c ++ rest ∧
        (∀ r', read_pairsF f n (c ++ r') = .ok (ps, r')) ∧
        (∀ k, k < c.length → read_pairsF f n (c.take k) = .error .io)) := by
  intro f
  induction f with
  | zero =>
    refine ⟨fun b e rest h => ?_, fun b mk v rest h => ?_, fun b mk v rest h => ?_,
      fun n b es rest h => ?_, fun n b ps rest h => ?_⟩ <;>
      simp [read_valueF, read_arrayF, read_mapF, read_elemsF, read_pairsF] at h
  | succ f ih =>
    obtain ⟨ihv, iha, ihm, ihe, ihp⟩ := ih
    refine ⟨?_, ?_, ?_, ?_, ?_⟩
    · -- read_valueF
      intro b e rest h
      simp only [read_valueF] at h
      split at h
      next heqU => exact absurd h (by simp)
      next m b1 heqU =>
        have hb : b = m :: b1 := readU8_ok heqU
        split at h
        -- Null
        next hm =>
          simp only [Except.ok.injEq, Prod.mk.injEq] at h
          obtain ⟨he, hrest⟩ := h
          refine ⟨[m], by simp, by rw [hb, hrest]; rfl, ?_, ?_⟩
          · intro r'
            simp [read_valueF, readU8, hm, he]
          · intro k hk
            match k, hk with
            | 0, _ => simp [read_valueF, readU8]
        -- False
        next hm =>
          simp only [Except.ok.injEq, Prod.mk.injEq] at h
          obtain ⟨he, hrest⟩ := h
          refine ⟨[m], by simp, by rw [hb, hrest]; rfl, ?_, ?_⟩
          · intro r'
            simp [read_valueF, readU8, hm, he]
          · intro k hk
            match k, hk with
            | 0, _ => simp [read_valueF, readU8]
        -- True
        next hm =>
          simp only [Except.ok.injEq, Prod.mk.injEq] at h
          obtain ⟨he, hrest⟩ := h
          refine ⟨[m], by simp, by rw [hb, hrest]; rfl, ?_, ?_⟩
          · intro r'
            simp [read_valueF, readU8, hm, he]
          · intro k hk
            match k, hk with
            | 0, _ => simp [read_valueF, readU8]
        -- FixPos
        next val hm =>
          simp only [Except.ok.injEq, Prod.mk.injEq] at h
          obtain ⟨he, hrest⟩ := h
          refine ⟨[m], by simp, by rw [hb, hrest]; rfl, ?_, ?_⟩
          · intro r'
            simp [read_valueF, readU8, hm, he]
          · intro k hk
            match k, hk with
            | 0, _ => simp [read_valueF, readU8]
        -- FixNeg
        next val hm =>
          simp only [Except.ok.injEq, Prod.mk.injEq] at h
          obtain ⟨he, hrest⟩ := h
          refine ⟨[m], by simp, by rw [hb, hrest]; rfl, ?_, ?_⟩
          · intro r'
            simp [read_valueF, readU8, hm, he]
          · intro k hk
            match k, hk with
            | 0, _ => simp [read_valueF, readU8]
        -- U8
        next hm =>
          split at h
          next heq2 => exact absurd h (by simp)
          next n b2 heq2 =>
            have hb1 : b1 = n :: b2 := readU8_ok heq2
            simp only [Except.ok.injEq, Prod.mk.injEq] at h
            obtain ⟨he, hrest⟩ := h
            refine ⟨[m, n], by simp, by rw [hb, hb1, hrest]; rfl, ?_, ?_⟩
            · intro r'
              simp [read_valueF, readU8, hm, he]
            · intro k hk
              match k, hk with
              | 0, _ => simp [read_valueF, readU8]
              | 1, _ => simp [read_valueF, readU8, hm]
        -- U16
        next hm =>
          split at h
          next heq2 => exact absurd h (by simp)
          next n b2 heq2 =>
            obtain ⟨cbe, hb1, hclen, hcval⟩ := readBE_ok heq2
            simp only [Except.ok.injEq, Prod.mk.injEq] at h
            obtain ⟨he, hrest⟩ := h
            refine ⟨m :: cbe, by simp, by rw [hb, hb1, hrest]; rfl, ?_, ?_⟩
            · intro r'
              simp only [List.cons_append, read_valueF, readU8_replay]
              simp [hm, readBE_replay hclen, hcval, he]
            · intro k hk
              match k, hk with
              | 0, _ => simp [read_valueF, readU8]
              | j + 1, hk =>
                simp only [List.take_succ_cons, read_valueF, readU8_replay]
                simp only [List.length_cons] at hk
                have hshort : readBE 2 (List.take j cbe) = .error .io :=
                  readBE_short (by simp only [List.length_take]; omega)
                simp [hm, hshort]
        -- U32
        next hm =>
          split at h
          next heq2 => exact absurd h (by simp)
          next n b2 heq2 =>
            obtain ⟨cbe, hb1, hclen, hcval⟩ := readBE_ok heq2
            simp only [Except.ok.injEq, Prod.mk.injEq] at h
            obtain ⟨he, hrest⟩ := h
            refine ⟨m :: cbe, by simp, by rw [hb, hb1, hrest]; rfl, ?_, ?_⟩
            · intro r'
              simp only [List.cons_append, read_valueF, readU8_replay]
              simp [hm, readBE_replay hclen, hcval, he]
            · intro k hk
              match k, hk with
              | 0, _ => simp [read_valueF, readU8]
              | j + 1, hk =>
                simp only [List.take_succ_cons, read_valueF, readU8_replay]
                simp only [List.length_cons] at hk
                have hshort : readBE 4 (List.take j cbe) = .error .io :=
                  readBE_short (by simp only [List.length_take]; omega)
                simp [hm, hshort]
        -- U64
        next hm =>
          split at h
          next heq2 => exact absurd h (by simp)
          next n b2 heq2 =>
            obtain ⟨cbe, hb1, hclen, hcval⟩ := readBE_ok heq2
            simp only [Except.ok.injEq, Prod.mk.injEq] at h
            obtain ⟨he, hrest⟩ := h
            refine ⟨m :: cbe, by simp, by rw [hb, hb1, hrest]; rfl, ?_, ?_⟩
            · intro r'
              simp only [List.cons_append, read_valueF, readU8_replay]
              simp [hm, readBE_replay hclen, hcval, he]
            · intro k hk
              match k, hk with
              | 0, _ => simp [read_valueF, readU8]
              | j + 1, hk =>
                simp only [List.take_succ_cons, read_valueF, readU8_replay]
                simp only [List.length_cons] at hk
                have hshort : readBE 8 (List.take j cbe) = .error .io :=
                  readBE_short (by simp only [List.length_take]; omega)
                simp [hm, hshort]
        -- I8
        next hm =>
          split at h
          next heq2 => exact absurd h (by simp)
          next n b2 heq2 =>
            have hb1 : b1 = n :: b2 := readU8_ok heq2
            simp only [Except.ok.injEq, Prod.mk.injEq] at h
            obtain ⟨he, hrest⟩ := h
            refine ⟨[m, n], by simp, by rw [hb, hb1, hrest]; rfl, ?_, ?_⟩
            · intro r'
              simp [read_valueF, readU8, hm, he]
            · intro k hk
              match k, hk with
              | 0, _ => simp [read_valueF, readU8]
              | 1, _ => simp [read_valueF, readU8, hm]
        -- I16
        next hm =>
          split at h
          next heq2 => exact absurd h (by simp)
          next n b2 heq2 =>
            obtain ⟨cbe, hb1, hclen, hcval⟩ := readBE_ok heq2
            simp only [Except.ok.injEq, Prod.mk.injEq] at h
            obtain ⟨he, hrest⟩ := h
            refine ⟨m :: cbe, by simp, by rw [hb, hb1, hrest]; rfl, ?_, ?_⟩
            · intro r'
              simp only [List.cons_append, read_valueF, readU8_replay]
              simp [hm, readBE_replay hclen, hcval, he]
            · intro k hk
              match k, hk with
              | 0, _ => simp [read_valueF, readU8]
              | j + 1, hk =>
                simp only [List.take_succ_cons, read_valueF, readU8_replay]
                simp only [List.length_cons] at hk
                have hshort : readBE 2 (List.take j cbe) = .error .io :=
                  readBE_short (by simp only [List.length_take]; omega)
                simp [hm, hshort]
        -- I32
        next hm =>
          split at h
          next heq2 => exact absurd h (by simp)
          next n b2 heq2 =>
            obtain ⟨cbe, hb1, hclen, hcval⟩ := readBE_ok heq2
            simp only [Except.ok.injEq, Prod.mk.injEq] at h
            obtain ⟨he, hrest⟩ := h
            refine ⟨m :: cbe, by simp, by rw [hb, hb1, hrest]; rfl, ?_, ?_⟩
            · intro r'
              simp only [List.cons_append, read_valueF, readU8_replay]
              simp [hm, readBE_replay hclen, hcval, he]
            · intro k hk
              match k, hk with
              | 0, _ => simp [read_valueF, readU8]
              | j + 1, hk =>
                simp only [List.take_succ_cons, read_valueF, readU8_replay]
                simp only [List.length_cons] at hk
                have hshort : readBE 4 (List.take j cbe) = .error .io :=
                  readBE_short (by simp only [List.length_take]; omega)
                simp [hm, hshort]
        -- I64
        next hm =>
          split at h
          next heq2 => exact absurd h (by simp)
          next n b2 heq2 =>
            obtain ⟨cbe, hb1, hclen, hcval⟩ := readBE_ok heq2
            simp only [Except.ok.injEq, Prod.mk.injEq] at h
            obtain ⟨he, hrest⟩ := h
            refine ⟨m :: cbe, by simp, by rw [hb, hb1, hrest]; rfl, ?_, ?_⟩
            · intro r'
              simp only [List.cons_append, read_valueF, readU8_replay]
              simp [hm, readBE_replay hclen, hcval, he]
            · intro k hk
              match k, hk with
              | 0, _ => simp [read_valueF, readU8]
              | j + 1, hk =>
                simp only [List.take_succ_cons, read_valueF, readU8_replay]
                simp only [List.length_cons] at hk
                have hshort : readBE 8 (List.take j cbe) = .error .io :=
                  readBE_short (by simp only [List.length_take]; omega)
                simp [hm, hshort]
        -- F32
        next hm =>
          split at h
          next heq2 => exact absurd h (by simp)
          next n b2 heq2 =>
            obtain ⟨cbe, hb1, hclen, hcval⟩ := readBE_ok heq2
            simp only [Except.ok.injEq, Prod.mk.injEq] at h
            obtain ⟨he, hrest⟩ := h
            refine ⟨m :: cbe, by simp, by rw [hb, hb1, hrest]; rfl, ?_, ?_⟩
            · intro r'
              simp only [List.cons_append, read_valueF, readU8_replay]
              simp [hm, readBE_replay hclen, hcval, he]
            · intro k hk
              match k, hk with
              | 0, _ => simp [read_valueF, readU8]
              | j + 1, hk =>
                simp only [List.take_succ_cons, read_valueF, readU8_replay]
                simp only [List.length_cons] at hk
                have hshort : readBE 4 (List.take j cbe) = .error .io :=
                  readBE_short (by simp only [List.length_take]; omega)
                simp [hm, hshort]
        -- F64
        next hm =>
          split at h
          next heq2 => exact absurd h (by simp)
          next n b2 heq2 =>
            obtain ⟨cbe, hb1, hclen, hcval⟩ := readBE_ok heq2
            simp only [Except.ok.injEq, Prod.mk.injEq] at h
            obtain ⟨he, hrest⟩ := h
            refine ⟨m :: cbe, by simp, by rw [hb, hb1, hrest]; rfl, ?_, ?_⟩
            · intro r'
              simp only [List.cons_append, read_valueF, readU8_replay]
              simp [hm, readBE_replay hclen, hcval, he]
            · intro k hk
              match k, hk with
              | 0, _ => simp [read_valueF, readU8]
              | j + 1, hk =>
                simp only [List.take_succ_cons, read_valueF, readU8_replay]
                simp only [List.length_cons] at hk
                have hshort : readBE 8 (List.take j cbe) = .error .io :=
                  readBE_short (by simp only [List.length_take]; omega)
                simp [hm, hshort]
        -- FixStr
        next val hm =>
          split at h
          next heq2 => exact absurd h (by simp)
          next value b2 heq2 =>
            obtain ⟨cs, hb1, hreplay, htrunc⟩ := read_str_combo heq2
            simp only [Except.ok.injEq, Prod.mk.injEq] at h
            obtain ⟨he, hrest⟩ := h
            refine ⟨m :: cs, by simp, by rw [hb, hb1, hrest]; rfl, ?_, ?_⟩
            · intro r'
              simp only [List.cons_append, read_valueF, readU8_replay]
              simp [hm, hreplay r', he]
            · intro k hk
              match k, hk with
              | 0, _ => simp [read_valueF, readU8]
              | j + 1, hk =>
                simp only [List.take_succ_cons, read_valueF, readU8_replay]
                simp only [List.length_cons] at hk
                simp [hm, htrunc j (by omega)]
        -- Str8
        next hm =>
          split at h
          next heq2 => exact absurd h (by simp)
          next value b2 heq2 =>
            obtain ⟨cs, hb1, hreplay, htrunc⟩ := read_str_combo heq2
            simp only [Except.ok.injEq, Prod.mk.injEq] at h
            obtain ⟨he, hrest⟩ := h
            refine ⟨m :: cs, by simp, by rw [hb, hb1, hrest]; rfl, ?_, ?_⟩
            · intro r'
              simp only [List.cons_append, read_valueF, readU8_replay]
              simp [hm, hreplay r', he]
            · intro k hk
              match k, hk with
              | 0, _ => simp [read_valueF, readU8]
              | j + 1, hk =>
                simp only [List.take_succ_cons, read_valueF, readU8_replay]
                simp only [List.length_cons] at hk
                simp [hm, htrunc j (by omega)]
        -- Str16
        next hm =>
          split at h
          next heq2 => exact absurd h (by simp)
          next value b2 heq2 =>
            obtain ⟨cs, hb1, hreplay, htrunc⟩ := read_str_combo heq2
            simp only [Except.ok.injEq, Prod.mk.injEq] at h
            obtain ⟨he, hrest⟩ := h
            refine ⟨m :: cs, by simp, by rw [hb, hb1, hrest]; rfl, ?_, ?_⟩
            · intro r'
              simp only [List.cons_append, read_valueF, readU8_replay]
              simp [hm, hreplay r', he]
            · intro k hk
              match k, hk with
              | 0, _ => simp [read_valueF, readU8]
              | j + 1, hk =>
                simp only [List.take_succ_cons, read_valueF, readU8_replay]
                simp only [List.length_cons] at hk
                simp [hm, htrunc j (by omega)]
        -- Str32
        next hm =>
          split at h
          next heq2 => exact absurd h (by simp)
          next value b2 heq2 =>
            obtain ⟨cs, hb1, hreplay, htrunc⟩ := read_str_combo heq2
            simp only [Except.ok.injEq, Prod.mk.injEq] at h
            obtain ⟨he, hrest⟩ := h
            refine ⟨m :: cs, by simp, by rw [hb, hb1, hrest]; rfl, ?_, ?_⟩
            · intro r'
              simp only [List.cons_append, read_valueF, readU8_replay]
              simp [hm, hreplay r', he]
            · intro k hk
              match k, hk with
              | 0, _ => simp [read_valueF, readU8]
              | j + 1, hk =>
                simp only [List.take_succ_cons, read_valueF, readU8_replay]
                simp only [List.length_cons] at hk
                simp [hm, htrunc j (by omega)]
        -- Bin8
        next hm =>
          split at h
          next heq2 => exact absurd h (by simp)
          next value b2 heq2 =>
            obtain ⟨cs, hb1, hreplay, htrunc⟩ := read_bin_combo heq2
            simp only [Except.ok.injEq, Prod.mk.injEq] at h
            obtain ⟨he, hrest⟩ := h
            refine ⟨m :: cs, by simp, by rw [hb, hb1, hrest]; rfl, ?_, ?_⟩
            · intro r'
              simp only [List.cons_append, read_valueF, readU8_replay]
              simp [hm, hreplay r', he]
            · intro k hk
              match k, hk with
              | 0, _ => simp [read_valueF, readU8]
              | j + 1, hk =>
                simp only [List.take_succ_cons, read_valueF, readU8_replay]
                simp only [List.length_cons] at hk
                simp [hm, htrunc j (by omega)]
        -- Bin16
        next hm =>
          split at h
          next heq2 => exact absurd h (by simp)
          next value b2 heq2 =>
            obtain ⟨cs, hb1, hreplay, htrunc⟩ := read_bin_combo heq2
            simp only [Except.ok.injEq, Prod.mk.injEq] at h
            obtain ⟨he, hrest⟩ := h
            refine ⟨m :: cs, by simp, by rw [hb, hb1, hrest]; rfl, ?_, ?_⟩
            · intro r'
              simp only [List.cons_append, read_valueF, readU8_replay]
              simp [hm, hreplay r', he]
            · intro k hk
              match k, hk with
              | 0, _ => simp [read_valueF, readU8]
              | j + 1, hk =>
                simp only [List.take_succ_cons, read_valueF, readU8_replay]
                simp only [List.length_cons] at hk
                simp [hm, htrunc j (by omega)]
        -- Bin32
        next hm =>
          split at h
          next heq2 => exact absurd h (by simp)
          next value b2 heq2 =>
            obtain ⟨cs, hb1, hreplay, htrunc⟩ := read_bin_combo heq2
            simp only [Except.ok.injEq, Prod.mk.injEq] at h
            obtain ⟨he, hrest⟩ := h
            refine ⟨m :: cs, by simp, by rw [hb, hb1, hrest]; rfl, ?_, ?_⟩
            · intro r'
              simp only [List.cons_append, read_valueF, readU8_replay]
              simp [hm, hreplay r', he]
            · intro k hk
              match k, hk with
              | 0, _ => simp [read_valueF, readU8]
              | j + 1, hk =>
                simp only [List.take_succ_cons, read_valueF, readU8_replay]
                simp only [List.length_cons] at hk
                simp [hm, htrunc j (by omega)]
        -- FixArray
        next val hm =>
          split at h
          next heq2 => exact absurd h (by simp)
          next value b2 heq2 =>
            obtain ⟨cs, hb1, hreplay, htrunc⟩ := iha b1 (.FixArray val) value b2 heq2
            simp only [Except.ok.injEq, Prod.mk.injEq] at h
            obtain ⟨he, hrest⟩ := h
            refine ⟨m :: cs, by simp, by rw [hb, hb1, hrest]; rfl, ?_, ?_⟩
            · intro r'
              simp only [List.cons_append, read_valueF, readU8_replay]
              simp [hm, hreplay r', he]
            · intro k hk
              match k, hk with
              | 0, _ => simp [read_valueF, readU8]
              | j + 1, hk =>
                simp only [List.take_succ_cons, read_valueF, readU8_replay]
                simp only [List.length_cons] at hk
                simp [hm, htrunc j (by omega)]
        -- Array16
        next hm =>
          split at h
          next heq2 => exact absurd h (by simp)
          next value b2 heq2 =>
            obtain ⟨cs, hb1, hreplay, htrunc⟩ := iha b1 .Array16 value b2 heq2
            simp only [Except.ok.injEq, Prod.mk.injEq] at h
            obtain ⟨he, hrest⟩ := h
            refine ⟨m :: cs, by simp, by rw [hb, hb1, hrest]; rfl, ?_, ?_⟩
            · intro r'
              simp only [List.cons_append, read_valueF, readU8_replay]
              simp [hm, hreplay r', he]
            · intro k hk
              match k, hk with
              | 0, _ => simp [read_valueF, readU8]
              | j + 1, hk =>
                simp only [List.take_succ_cons, read_valueF, readU8_replay]
                simp only [List.length_cons] at hk
                simp [hm, htrunc j (by omega)]
        -- Array32
        next hm =>
          split at h
          next heq2 => exact absurd h (by simp)
          next value b2 heq2 =>
            obtain ⟨cs, hb1, hreplay, htrunc⟩ := iha b1 .Array32 value b2 heq2
            simp only [Except.ok.injEq, Prod.mk.injEq] at h
            obtain ⟨he, hrest⟩ := h
            refine ⟨m :: cs, by simp, by rw [hb, hb1, hrest]; rfl, ?_, ?_⟩
            · intro r'
              simp only [List.cons_append, read_valueF, readU8_replay]
              simp [hm, hreplay r', he]
            · intro k hk
              match k, hk with
              | 0, _ => simp [read_valueF, readU8]
              | j + 1, hk =>
                simp only [List.take_succ_cons, read_valueF, readU8_replay]
                simp only [List.length_cons] at hk
                simp [hm, htrunc j (by omega)]
        -- FixMap
        next val hm =>
          split at h
          next heq2 => exact absurd h (by simp)
          next value b2 heq2 =>
            obtain ⟨cs, hb1, hreplay, htrunc⟩ := ihm b1 (.FixMap val) value b2 heq2
            simp only [Except.ok.injEq, Prod.mk.injEq] at h
            obtain ⟨he, hrest⟩ := h
            refine ⟨m :: cs, by simp, by rw [hb, hb1, hrest]; rfl, ?_, ?_⟩
            · intro r'
              simp only [List.cons_append, read_valueF, readU8_replay]
              simp [hm, hreplay r', he]
            · intro k hk
              match k, hk with
              | 0, _ => simp [read_valueF, readU8]
              | j + 1, hk =>
                simp only [List.take_succ_cons, read_valueF, readU8_replay]
                simp only [List.length_cons] at hk
                simp [hm, htrunc j (by omega)]
        -- Map16
        next hm =>
          split at h
          next heq2 => exact absurd h (by simp)
          next value b2 heq2 =>
            obtain ⟨cs, hb1, hreplay, htrunc⟩ := ihm b1 .Map16 value b2 heq2
            simp only [Except.ok.injEq, Prod.mk.injEq] at h
            obtain ⟨he, hrest⟩ := h
            refine ⟨m :: cs, by simp, by rw [hb, hb1, hrest]; rfl, ?_, ?_⟩
            · intro r'
              simp only [List.cons_append, read_valueF, readU8_replay]
              simp [hm, hreplay r', he]
            · intro k hk
              match k, hk with
              | 0, _ => simp [read_valueF, readU8]
              | j + 1, hk =>
                simp only [List.take_succ_cons, read_valueF, readU8_replay]
                simp only [List.length_cons] at hk
                simp [hm, htrunc j (by omega)]
        -- Map32
        next hm =>
          split at h
          next heq2 => exact absurd h (by simp)
          next value b2 heq2 =>
            obtain ⟨cs, hb1, hreplay, htrunc⟩ := ihm b1 .Map32 value b2 heq2
            simp only [Except.ok.injEq, Prod.mk.injEq] at h
            obtain ⟨he, hrest⟩ := h
            refine ⟨m :: cs, by simp, by rw [hb, hb1, hrest]; rfl, ?_, ?_⟩
            · intro r'
              simp only [List.cons_append, read_valueF, readU8_replay]
              simp [hm, hreplay r', he]
            · intro k hk
              match k, hk with
              | 0, _ => simp [read_valueF, readU8]
              | j + 1, hk =>
                simp only [List.take_succ_cons, read_valueF, readU8_replay]
                simp only [List.length_cons] at hk
                simp [hm, htrunc j (by omega)]
        -- extension markers (eight arms) and Reserved
        next hm => exact absurd h (by simp)
        next hm => exact absurd h (by simp)
        next hm => exact absurd h (by simp)
        next hm => exact absurd h (by simp)
        next hm => exact absurd h (by simp)
        next hm => exact absurd h (by simp)
        next hm => exact absurd h (by simp)
        next hm => exact absurd h (by simp)
        next hm => exact absurd h (by simp)
    · -- read_arrayF
      intro b marker v rest h
      cases marker
      case FixArray val =>
        simp only [read_arrayF] at h
        split at h
        next heqe => exact absurd h (by simp)
        next array b2 heqe =>
          obtain ⟨ce, hb, hreplay, htrunc⟩ := ihe (val &&& 0x0F) b array b2 heqe
          simp only [Except.ok.injEq, Prod.mk.injEq] at h
          obtain ⟨hv, hrest⟩ := h
          refine ⟨ce, by rw [hb, hrest], ?_, ?_⟩
          · intro r'
            simp only [read_arrayF]
            simp [hreplay r', hv]
          · intro k hk
            simp only [read_arrayF]
            simp [htrunc k hk]
      case Array16 =>
        simp only [read_arrayF] at h
        split at h
        next heq => exact absurd h (by simp)
        next len b1 heq =>
          obtain ⟨cbe, hb, hclen, hcval⟩ := readBE_ok heq
          split at h
          next heqe => exact absurd h (by simp)
          next array b2 heqe =>
            obtain ⟨ce, hb1, hreplay, htrunc⟩ := ihe len b1 array b2 heqe
            simp only [Except.ok.injEq, Prod.mk.injEq] at h
            obtain ⟨hv, hrest⟩ := h
            refine ⟨cbe ++ ce, by rw [hb, hb1, hrest]; simp, ?_, ?_⟩
            · intro r'
              simp only [read_arrayF, List.append_assoc]
              simp [readBE_replay hclen, hcval, hreplay r', hv]
            · intro k hk
              simp only [read_arrayF, List.take_append_eq_append_take]
              rcases Nat.lt_or_ge k cbe.length with hlt | hge
              · rw [readBE_short (by simp only [List.length_append, List.length_take]; omega)]
              · rw [List.take_of_length_le (show cbe.length ≤ k by omega)]
                have hk2 : k - cbe.length < ce.length := by
                  simp only [List.length_append] at hk; omega
                simp [readBE_replay hclen, hcval, htrunc _ hk2]
      case Array32 =>
        simp only [read_arrayF] at h
        split at h
        next heq => exact absurd h (by simp)
        next len b1 heq =>
          obtain ⟨cbe, hb, hclen, hcval⟩ := readBE_ok heq
          split at h
          next heqe => exact absurd h (by simp)
          next array b2 heqe =>
            obtain ⟨ce, hb1, hreplay, htrunc⟩ := ihe len b1 array b2 heqe
            simp only [Except.ok.injEq, Prod.mk.injEq] at h
            obtain ⟨hv, hrest⟩ := h
            refine ⟨cbe ++ ce, by rw [hb, hb1, hrest]; simp, ?_, ?_⟩
            · intro r'
              simp only [read_arrayF, List.append_assoc]
              simp [readBE_replay hclen, hcval, hreplay r', hv]
            · intro k hk
              simp only [read_arrayF, List.take_append_eq_append_take]
              rcases Nat.lt_or_ge k cbe.length with hlt | hge
              · rw [readBE_short (by simp only [List.length_append, List.length_take]; omega)]
              · rw [List.take_of_length_le (show cbe.length ≤ k by omega)]
                have hk2 : k - cbe.length < ce.length := by
                  simp only [List.length_append] at hk; omega
                simp [readBE_replay hclen, hcval, htrunc _ hk2]
      all_goals simp [read_arrayF] at h
    · -- read_mapF
      intro b marker v rest h
      cases marker
      case FixMap val =>
        simp only [read_mapF] at h
        split at h
        next heqe => exact absurd h (by simp)
        next map b2 heqe =>
          obtain ⟨ce, hb, hreplay, htrunc⟩ := ihp (val &&& 0x0F) b map b2 heqe
          simp only [Except.ok.injEq, Prod.mk.injEq] at h
          obtain ⟨hv, hrest⟩ := h
          refine ⟨ce, by rw [hb, hrest], ?_, ?_⟩
          · intro r'
            simp only [read_mapF]
            simp [hreplay r', hv]
          · intro k hk
            simp only [read_mapF]
            simp [htrunc k hk]
      case Map16 =>
        simp only [read_mapF] at h
        split at h
        next heq => exact absurd h (by simp)
        next len b1 heq =>
          obtain ⟨cbe, hb, hclen, hcval⟩ := readBE_ok heq
          split at h
          next heqe => exact absurd h (by simp)
          next map b2 heqe =>
            obtain ⟨ce, hb1, hreplay, htrunc⟩ := ihp len b1 map b2 heqe
            simp only [Except.ok.injEq, Prod.mk.injEq] at h
            obtain ⟨hv, hrest⟩ := h
            refine ⟨cbe ++ ce, by rw [hb, hb1, hrest]; simp, ?_, ?_⟩
            · intro r'
              simp only [read_mapF, List.append_assoc]
              simp [readBE_replay hclen, hcval, hreplay r', hv]
            · intro k hk
              simp only [read_mapF, List.take_append_eq_append_take]
              rcases Nat.lt_or_ge k cbe.length with hlt | hge
              · rw [readBE_short (by simp only [List.length_append, List.length_take]; omega)]
              · rw [List.take_of_length_le (show cbe.length ≤ k by omega)]
                have hk2 : k - cbe.length < ce.length := by
                  simp only [List.length_append] at hk; omega
                simp [readBE_replay hclen, hcval, htrunc _ hk2]
      case Map32 =>
        simp only [read_mapF] at h
        split at h
        next heq => exact absurd h (by simp)
        next len b1 heq =>
          obtain ⟨cbe, hb, hclen, hcval⟩ := readBE_ok heq
          split at h
          next heqe => exact absurd h (by simp)
          next map b2 heqe =>
            obtain ⟨ce, hb1, hreplay, htrunc⟩ := ihp len b1 map b2 heqe
            simp only [Except.ok.injEq, Prod.mk.injEq] at h
            obtain ⟨hv, hrest⟩ := h
            refine ⟨cbe ++ ce, by rw [hb, hb1, hrest]; simp, ?_, ?_⟩
            · intro r'
              simp only [read_mapF, List.append_assoc]
              simp [readBE_replay hclen, hcval, hreplay r', hv]
            · intro k hk
              simp only [read_mapF, List.take_append_eq_append_take]
              rcases Nat.lt_or_ge k cbe.length with hlt | hge
              · rw [readBE_short (by simp only [List.length_append, List.length_take]; omega)]
              · rw [List.take_of_length_le (show cbe.length ≤ k by omega)]
                have hk2 : k - cbe.length < ce.length := by
                  simp only [List.length_append] at hk; omega
                simp [readBE_replay hclen, hcval, htrunc _ hk2]
      all_goals simp [read_mapF] at h
    · -- read_elemsF
      intro n b es rest h
      cases n with
      | zero =>
        simp only [read_elemsF, Except.ok.injEq, Prod.mk.injEq] at h
        obtain ⟨hes, hrest⟩ := h
        refine ⟨[], by simp [hrest], ?_, ?_⟩
        · intro r'
          simp [read_elemsF, hes]
        · intro k hk
          simp at hk
      | succ n =>
        simp only [read_elemsF] at h
        split at h
        next heq1 => exact absurd h (by simp)
        next e1 b1 heq1 =>
          obtain ⟨c1, hc1ne, hb, hreplay1, htrunc1⟩ := ihv b e1 b1 heq1
          split at h
          next heq2 => exact absurd h (by simp)
          next es1 b2 heq2 =>
            obtain ⟨ce, hb1, hreplay2, htrunc2⟩ := ihe n b1 es1 b2 heq2
            simp only [Except.ok.injEq, Prod.mk.injEq] at h
            obtain ⟨hes, hrest⟩ := h
            refine ⟨c1 ++ ce, by rw [hb, hb1, hrest]; simp, ?_, ?_⟩
            · intro r'
              simp only [read_elemsF, List.append_assoc]
              simp [hreplay1, hreplay2, hes]
            · intro k hk
              simp only [read_elemsF, List.take_append_eq_append_take]
              rcases Nat.lt_or_ge k c1.length with hlt | hge
              · have h0 : k - c1.length = 0 := by omega
                rw [h0]
                simp [htrunc1 k hlt]
              · rw [List.take_of_length_le (show c1.length ≤ k by omega)]
                have hk2 : k - c1.length < ce.length := by
                  simp only [List.length_append] at hk; omega
                simp [hreplay1, htrunc2 _ hk2]
    · -- read_pairsF
      intro n b ps rest h
      cases n with
      | zero =>
        simp only [read_pairsF, Except.ok.injEq, Prod.mk.injEq] at h
        obtain ⟨hps, hrest⟩ := h
        refine ⟨[], by simp [hrest], ?_, ?_⟩
        · intro r'
          simp [read_pairsF, hps]
        · intro k hk
          simp at hk
      | succ n =>
        simp only [read_pairsF] at h
        split at h
        next heq1 => exact absurd h (by simp)
        next k1 b1 heq1 =>
          obtain ⟨c1, hc1ne, hb, hreplay1, htrunc1⟩ := ihv b k1 b1 heq1
          split at h
          next heq2 => exact absurd h (by simp)
          next v1 b2 heq2 =>
            obtain ⟨c2, hc2ne, hb1, hreplay2, htrunc2⟩ := ihv b1 v1 b2 heq2
            split at h
            next heq3 => exact absurd h (by simp)
            next ps1 b3 heq3 =>
              obtain ⟨cp, hb2, hreplay3, htrunc3⟩ := ihp n b2 ps1 b3 heq3
              simp only [Except.ok.injEq, Prod.mk.injEq] at h
              obtain ⟨hps, hrest⟩ := h
              refine ⟨c1 ++ (c2 ++ cp), by rw [hb, hb1, hb2, hrest]; simp, ?_, ?_⟩
              · intro r'
                simp only [read_pairsF, List.append_assoc]
                simp [hreplay1, hreplay2, hreplay3, hps]
              · intro k hk
                simp only [read_pairsF, List.take_append_eq_append_take]
                rcases Nat.lt_or_ge k c1.length with hlt1 | hge1
                · have h0 : k - c1.length = 0 := by omega
                  rw [h0]
                  simp [htrunc1 k hlt1]
                · rw [List.take_of_length_le (show c1.length ≤ k by omega)]
                  rcases Nat.lt_or_ge (k - c1.length) c2.length with hlt2 | hge2
                  · have h0 : k - c1.length - c2.length = 0 := by omega
                    rw [h0]
                    simp [hreplay1, htrunc2 _ hlt2]
                  · rw [List.take_of_length_le (show c2.length ≤ k - c1.length by omega)]
                    have hk3 : k - c1.length - c2.length < cp.length := by
                      simp only [List.length_append] at hk; omega
                    simp [hreplay1, hreplay2, htrunc3 _ hk3]

/-- Fuel monotonicity: a result other than the fuel sentinel is stable
under adding fuel, for all five reading functions. -/
theorem decode_mono : ∀ f : Nat,
    (∀ d b, read_valueF f b ≠ .error .outOfFuel →
      read_valueF (f + d) b = read_valueF f b) ∧
    (∀ d b marker, read_arrayF f b marker ≠ .error .outOfFuel →
      read_arrayF (f + d) b marker = read_arrayF f b marker) ∧
    (∀ d b marker, read_mapF f b marker ≠ .error .outOfFuel →
      read_mapF (f + d) b marker = read_mapF f b marker) ∧
    (∀ d n b, read_elemsF f n b ≠ .error .outOfFuel →
      read_elemsF (f + d) n b = read_elemsF f n b) ∧
    (∀ d n b, read_pairsF f n b ≠ .error .outOfFuel →
      read_pairsF (f + d) n b = read_pairsF f n b) := by
  intro f
  induction f with
  | zero =>
    refine ⟨fun d b hne => ?_, fun d b mk hne => ?_, fun d b mk hne => ?_,
      fun d n b hne => ?_, fun d n b hne => ?_⟩ <;>
      simp [read_valueF, read_arrayF, read_mapF, read_elemsF, read_pairsF] at hne
  | succ f ih =>
    obtain ⟨ihv, iha, ihm, ihe, ihp⟩ := ih
    have hstep : ∀ d, f + 1 + d = (f + d) + 1 := fun d => by omega
    refine ⟨?_, ?_, ?_, ?_, ?_⟩
    · intro d b hne
      rw [hstep d]
      simp only [read_valueF] at hne ⊢
      cases hU : readU8 b with
      | error e => simp [hU]
      | ok p =>
        obtain ⟨m, b1⟩ := p
        simp only [hU] at hne ⊢
        cases hm : markerFromU8 m <;> simp only [hm] at hne ⊢ <;> try rfl
        case FixArray val =>
          cases ha : read_arrayF f b1 (.FixArray val) with
          | error e =>
            simp only [ha] at hne
            have hne2 : read_arrayF f b1 (.FixArray val) ≠ .error .outOfFuel := by
              rw [ha]; simp only [ne_eq, Except.error.injEq] at hne ⊢; exact hne
            rw [iha d b1 _ hne2, ha]
          | ok p =>
            have hne2 : read_arrayF f b1 (.FixArray val) ≠ .error .outOfFuel := by
              rw [ha]; simp
            rw [iha d b1 _ hne2, ha]
        case Array16 =>
          cases ha : read_arrayF f b1 .Array16 with
          | error e =>
            simp only [ha] at hne
            have hne2 : read_arrayF f b1 .Array16 ≠ .error .outOfFuel := by
              rw [ha]; simp only [ne_eq, Except.error.injEq] at hne ⊢; exact hne
            rw [iha d b1 _ hne2, ha]
          | ok p =>
            have hne2 : read_arrayF f b1 .Array16 ≠ .error .outOfFuel := by
              rw [ha]; simp
            rw [iha d b1 _ hne2, ha]
        case Array32 =>
          cases ha : read_arrayF f b1 .Array32 with
          | error e =>
            simp only [ha] at hne
            have hne2 : read_arrayF f b1 .Array32 ≠ .error .outOfFuel := by
              rw [ha]; simp only [ne_eq, Except.error.injEq] at hne ⊢; exact hne
            rw [iha d b1 _ hne2, ha]
          | ok p =>
            have hne2 : read_arrayF f b1 .Array32 ≠ .error .outOfFuel := by
              rw [ha]; simp
            rw [iha d b1 _ hne2, ha]
        case FixMap val =>
          cases ha : read_mapF f b1 (.FixMap val) with
          | error e =>
            simp only [ha] at hne
            have hne2 : read_mapF f b1 (.FixMap val) ≠ .error .outOfFuel := by
              rw [ha]; simp only [ne_eq, Except.error.injEq] at hne ⊢; exact hne
            rw [ihm d b1 _ hne2, ha]
          | ok p =>
            have hne2 : read_mapF f b1 (.FixMap val) ≠ .error .outOfFuel := by
              rw [ha]; simp
            rw [ihm d b1 _ hne2, ha]
        case Map16 =>
          cases ha : read_mapF f b1 .Map16 with
          | error e =>
            simp only [ha] at hne
            have hne2 : read_mapF f b1 .Map16 ≠ .error .outOfFuel := by
              rw [ha]; simp only [ne_eq, Except.error.injEq] at hne ⊢; exact hne
            rw [ihm d b1 _ hne2, ha]
          | ok p =>
            have hne2 : read_mapF f b1 .Map16 ≠ .error .outOfFuel := by
              rw [ha]; simp
            rw [ihm d b1 _ hne2, ha]
        case Map32 =>
          cases ha : read_mapF f b1 .Map32 with
          | error e =>
            simp only [ha] at hne
            have hne2 : read_mapF f b1 .Map32 ≠ .error .outOfFuel := by
              rw [ha]; simp only [ne_eq, Except.error.injEq] at hne ⊢; exact hne
            rw [ihm d b1 _ hne2, ha]
          | ok p =>
            have hne2 : read_mapF f b1 .Map32 ≠ .error .outOfFuel := by
              rw [ha]; simp
            rw [ihm d b1 _ hne2, ha]
    · intro d b marker hne
      rw [hstep d]
      cases marker <;> try rfl
      case FixArray val =>
        simp only [read_arrayF] at hne ⊢
        cases he : read_elemsF f (val &&& 0x0F) b with
        | error e =>
          simp only [he] at hne
          have hne2 : read_elemsF f (val &&& 0x0F) b ≠ .error .outOfFuel := by
            rw [he]; simp only [ne_eq, Except.error.injEq] at hne ⊢; exact hne
          rw [ihe d _ b hne2, he]
        | ok p =>
          have hne2 : read_elemsF f (val &&& 0x0F) b ≠ .error .outOfFuel := by
            rw [he]; simp
          rw [ihe d _ b hne2, he]
      case Array16 =>
        simp only [read_arrayF] at hne ⊢
        cases hBE : readBE 2 b with
        | error e => simp [hBE]
        | ok p =>
          obtain ⟨len, b1⟩ := p
          simp only [hBE] at hne ⊢
          cases he : read_elemsF f len b1 with
          | error e =>
            simp only [he] at hne
            have hne2 : read_elemsF f len b1 ≠ .error .outOfFuel := by
              rw [he]; simp only [ne_eq, Except.error.injEq] at hne ⊢; exact hne
            rw [ihe d _ _ hne2, he]
          | ok p =>
            have hne2 : read_elemsF f len b1 ≠ .error .outOfFuel := by
              rw [he]; simp
            rw [ihe d _ _ hne2, he]
      case Array32 =>
        simp only [read_arrayF] at hne ⊢
        cases hBE : readBE 4 b with
        | error e => simp [hBE]
        | ok p =>
          obtain ⟨len, b1⟩ := p
          simp only [hBE] at hne ⊢
          cases he : read_elemsF f len b1 with
          | error e =>
            simp only [he] at hne
            have hne2 : read_elemsF f len b1 ≠ .error .outOfFuel := by
              rw [he]; simp only [ne_eq, Except.error.injEq] at hne ⊢; exact hne
            rw [ihe d _ _ hne2, he]
          | ok p =>
            have hne2 : read_elemsF f len b1 ≠ .error .outOfFuel := by
              rw [he]; simp
            rw [ihe d _ _ hne2, he]
    · intro d b marker hne
      rw [hstep d]
      cases marker <;> try rfl
      case FixMap val =>
        simp only [read_mapF] at hne ⊢
        cases he : read_pairsF f (val &&& 0x0F) b with
        | error e =>
          simp only [he] at hne
          have hne2 : read_pairsF f (val &&& 0x0F) b ≠ .error .outOfFuel := by
            rw [he]; simp only [ne_eq, Except.error.injEq] at hne ⊢; exact hne
          rw [ihp d _ b hne2, he]
        | ok p =>
          have hne2 : read_pairsF f (val &&& 0x0F) b ≠ .error .outOfFuel := by
            rw [he]; simp
          rw [ihp d _ b hne2, he]
      case Map16 =>
        simp only [read_mapF] at hne ⊢
        cases hBE : readBE 2 b with
        | error e => simp [hBE]
        | ok p =>
          obtain ⟨len, b1⟩ := p
          simp only [hBE] at hne ⊢
          cases he : read_pairsF f len b1 with
          | error e =>
            simp only [he] at hne
            have hne2 : read_pairsF f len b1 ≠ .error .outOfFuel := by
              rw [he]; simp only [ne_eq, Except.error.injEq] at hne ⊢; exact hne
            rw [ihp d _ _ hne2, he]
          | ok p =>
            have hne2 : read_pairsF f len b1 ≠ .error .outOfFuel := by
              rw [he]; simp
            rw [ihp d _ _ hne2, he]
      case Map32 =>
        simp only [read_mapF] at hne ⊢
        cases hBE : readBE 4 b with
        | error e => simp [hBE]
        | ok p =>
          obtain ⟨len, b1⟩ := p
          simp only [hBE] at hne ⊢
          cases he : read_pairsF f len b1 with
          | error e =>
            simp only [he] at hne
            have hne2 : read_pairsF f len b1 ≠ .error .outOfFuel := by
              rw [he]; simp only [ne_eq, Except.error.injEq] at hne ⊢; exact hne
            rw [ihp d _ _ hne2, he]
          | ok p =>
            have hne2 : read_pairsF f len b1 ≠ .error .outOfFuel := by
              rw [he]; simp
            rw [ihp d _ _ hne2, he]
    · intro d n b hne
      rw [hstep d]
      cases n with
      | zero => simp [read_elemsF]
      | succ n =>
        simp only [read_elemsF] at hne ⊢
        cases hv : read_valueF f b with
        | error e =>
          simp only [hv] at hne
          have hne2 : read_valueF f b ≠ .error .outOfFuel := by
            rw [hv]; simp only [ne_eq, Except.error.injEq] at hne ⊢; exact hne
          rw [ihv d b hne2, hv]
        | ok p =>
          obtain ⟨e1, b1⟩ := p
          have hne2 : read_valueF f b ≠ .error .outOfFuel := by
            rw [hv]; simp
          rw [ihv d b hne2, hv]
          simp only [hv] at hne ⊢
          cases he : read_elemsF f n b1 with
          | error e =>
            simp only [he] at hne
            have hne3 : read_elemsF f n b1 ≠ .error .outOfFuel := by
              rw [he]; simp only [ne_eq, Except.error.injEq] at hne ⊢; exact hne
            rw [ihe d _ _ hne3, he]
          | ok p =>
            have hne3 : read_elemsF f n b1 ≠ .error .outOfFuel := by
              rw [he]; simp
            rw [ihe d _ _ hne3, he]
    · intro d n b hne
      rw [hstep d]
      cases n with
      | zero => simp [read_pairsF]
      | succ n =>
        simp only [read_pairsF] at hne ⊢
        cases hv : read_valueF f b with
        | error e =>
          simp only [hv] at hne
          have hne2 : read_valueF f b ≠ .error .outOfFuel := by
            rw [hv]; simp only [ne_eq, Except.error.injEq] at hne ⊢; exact hne
          rw [ihv d b hne2, hv]
        | ok p =>
          obtain ⟨k1, b1⟩ := p
          have hne2 : read_valueF f b ≠ .error .outOfFuel := by
            rw [hv]; simp
          rw [ihv d b hne2, hv]
          simp only [hv] at hne ⊢
          cases hv2 : read_valueF f b1 with
          | error e =>
            simp only [hv2] at hne
            have hne3 : read_valueF f b1 ≠ .error .outOfFuel := by
              rw [hv2]; simp only [ne_eq, Except.error.injEq] at hne ⊢; exact hne
            rw [ihv d b1 hne3, hv2]
          | ok p =>
            obtain ⟨v1, b2⟩ := p
            have hne3 : read_valueF f b1 ≠ .error .outOfFuel := by
              rw [hv2]; simp
            rw [ihv d b1 hne3, hv2]
            simp only [hv2] at hne ⊢
            cases hp : read_pairsF f n b2 with
            | error e =>
              simp only [hp] at hne
              have hne4 : read_pairsF f n b2 ≠ .error .outOfFuel := by
                rw [hp]; simp only [ne_eq, Except.error.injEq] at hne ⊢; exact hne
              rw [ihp d _ _ hne4, hp]
            | ok p =>
              have hne4 : read_pairsF f n b2 ≠ .error .outOfFuel := by
                rw [hp]; simp
              rw [ihp d _ _ hne4, hp]

theorem readU8_err {b : List Nat} {e : DecErr} (h : readU8 b = .error e) : e = .io := by
  cases b with
  | nil => simp [readU8] at h; exact h.symm
  | cons x r => simp [readU8] at h

theorem readExact_err {n : Nat} {b : List Nat} {e : DecErr}
    (h : readExact n b = .error e) : e = .io := by
  unfold readExact at h
  split at h
  · exact absurd h (by simp)
  · simp at h; exact h.symm

theorem readBE_err {w : Nat} {b : List Nat} {e : DecErr}
    (h : readBE w b = .error e) : e = .io := by
  unfold readBE at h
  cases he : readExact w b with
  | error e2 => rw [he] at h; simp at h; rw [← h]; exact readExact_err he
  | ok p => rw [he] at h; exact absurd h (by simp)

/-- `read_str` never produces the fuel sentinel (it is not fuelled). -/
theorem read_str_nofuel (b : List Nat) (mk : Marker) :
    read_str b mk ≠ .error .outOfFuel := by
  unfold read_str
  split
  next e1 heq =>
    cases mk
    case FixStr val => simp at heq
    case Str8 => simp [readU8_err heq]
    case Str16 => simp [readBE_err heq]
    case Str32 => simp [readBE_err heq]
    all_goals simp only [Except.error.injEq] at heq
    all_goals subst heq
    all_goals simp
  next len b2 heq =>
    split
    next e2 heq2 => simp [readExact_err heq2]
    next buf b3 heq2 =>
      split
      · split <;> simp
      · simp

/-- `read_bin` never produces the fuel sentinel. -/
theorem read_bin_nofuel (b : List Nat) (mk : Marker) :
    read_bin b mk ≠ .error .outOfFuel := by
  unfold read_bin
  split
  next e1 heq =>
    cases mk
    case Bin8 => simp [readU8_err heq]
    case Bin16 => simp [readBE_err heq]
    case Bin32 => simp [readBE_err heq]
    all_goals simp only [Except.error.injEq] at heq
    all_goals subst heq
    all_goals simp
  next len b2 heq =>
    split
    next e2 heq2 => simp [readExact_err heq2]
    next buf b3 heq2 => split <;> simp

/-- The fuel bound `3 * |input| + 1` is sufficient: with it, none of the
reading functions can return the fuel sentinel, so `read_value`'s fuel
choice makes the embedding total on every input. -/
theorem decode_total : ∀ f : Nat,
    (∀ b, 3 * b.length + 1 ≤ f → read_valueF f b ≠ .error .outOfFuel) ∧
    (∀ b marker, 3 * b.length + 3 ≤ f → read_arrayF f b marker ≠ .error .outOfFuel) ∧
    (∀ b marker, 3 * b.length + 3 ≤ f → read_mapF f b marker ≠ .error .outOfFuel) ∧
    (∀ n b, 3 * b.length + 2 ≤ f → read_elemsF f n b ≠ .error .outOfFuel) ∧
    (∀ n b, 3 * b.length + 2 ≤ f → read_pairsF f n b ≠ .error .outOfFuel) := by
  intro f
  induction f with
  | zero =>
    refine ⟨fun b h => ?_, fun b mk h => ?_, fun b mk h => ?_,
      fun n b h => ?_, fun n b h => ?_⟩ <;> omega
  | succ f ih =>
    obtain ⟨ihv, iha, ihm, ihe, ihp⟩ := ih
    refine ⟨?_, ?_, ?_, ?_, ?_⟩
    · intro b hlen
      simp only [read_valueF]
      cases hU : readU8 b with
      | error e => simp [readU8_err hU]
      | ok p =>
        obtain ⟨m, b1⟩ := p
        have hb : b = m :: b1 := readU8_ok hU
        have hlen1 : b.length = b1.length + 1 := by rw [hb]; rfl
        cases hm : markerFromU8 m <;> simp only [hm] <;> try simp
        case U8 =>
          cases hr : readU8 b1 with
          | error e => simp [readU8_err hr]
          | ok p => simp
        case I8 =>
          cases hr : readU8 b1 with
          | error e => simp [readU8_err hr]
          | ok p => simp
        case U16 =>
          cases hr : readBE 2 b1 with
          | error e => simp [readBE_err hr]
          | ok p => simp
        case U32 =>
          cases hr : readBE 4 b1 with
          | error e => simp [readBE_err hr]
          | ok p => simp
        case U64 =>
          cases hr : readBE 8 b1 with
          | error e => simp [readBE_err hr]
          | ok p => simp
        case I16 =>
          cases hr : readBE 2 b1 with
          | error e => simp [readBE_err hr]
          | ok p => simp
        case I32 =>
          cases hr : readBE 4 b1 with
          | error e => simp [readBE_err hr]
          | ok p => simp
        case I64 =>
          cases hr : readBE 8 b1 with
          | error e => simp [readBE_err hr]
          | ok p => simp
        case F32 =>
          cases hr : readBE 4 b1 with
          | error e => simp [readBE_err hr]
          | ok p => simp
        case F64 =>
          cases hr : readBE 8 b1 with
          | error e => simp [readBE_err hr]
          | ok p => simp
        case FixStr val =>
          cases hr : read_str b1 (.FixStr val) with
          | error e =>
            have := read_str_nofuel b1 (.FixStr val)
            rw [hr] at this
            simpa using this
          | ok p => simp
        case Str8 =>
          cases hr : read_str b1 .Str8 with
          | error e =>
            have := read_str_nofuel b1 .Str8
            rw [hr] at this
            simpa using this
          | ok p => simp
        case Str16 =>
          cases hr : read_str b1 .Str16 with
          | error e =>
            have := read_str_nofuel b1 .Str16
            rw [hr] at this
            simpa using this
          | ok p => simp
        case Str32 =>
          cases hr : read_str b1 .Str32 with
          | error e =>
            have := read_str_nofuel b1 .Str32
            rw [hr] at this
            simpa using this
          | ok p => simp
        case Bin8 =>
          cases hr : read_bin b1 .Bin8 with
          | error e =>
            have := read_bin_nofuel b1 .Bin8
            rw [hr] at this
            simpa using this
          | ok p => simp
        case Bin16 =>
          cases hr : read_bin b1 .Bin16 with
          | error e =>
            have := read_bin_nofuel b1 .Bin16
            rw [hr] at this
            simpa using this
          | ok p => simp
        case Bin32 =>
          cases hr : read_bin b1 .Bin32 with
          | error e =>
            have := read_bin_nofuel b1 .Bin32
            rw [hr] at this
            simpa using this
          | ok p => simp
        case FixArray val =>
          cases hr : read_arrayF f b1 (.FixArray val) with
          | error e =>
            have := iha b1 (.FixArray val) (by omega)
            rw [hr] at this
            simpa using this
          | ok p => simp
        case Array16 =>
          cases hr : read_arrayF f b1 .Array16 with
          | error e =>
            have := iha b1 .Array16 (by omega)
            rw [hr] at this
            simpa using this
          | ok p => simp
        case Array32 =>
          cases hr : read_arrayF f b1 .Array32 with
          | error e =>
            have := iha b1 .Array32 (by omega)
            rw [hr] at this
            simpa using this
          | ok p => simp
        case FixMap val =>
          cases hr : read_mapF f b1 (.FixMap val) with
          | error e =>
            have := ihm b1 (.FixMap val) (by omega)
            rw [hr] at this
            simpa using this
          | ok p => simp
        case Map16 =>
          cases hr : read_mapF f b1 .Map16 with
          | error e =>
            have := ihm b1 .Map16 (by omega)
            rw [hr] at this
            simpa using this
          | ok p => simp
        case Map32 =>
          cases hr : read_mapF f b1 .Map32 with
          | error e =>
            have := ihm b1 .Map32 (by omega)
            rw [hr] at this
            simpa using this
          | ok p => simp
    · intro b marker hlen
      cases marker <;> try simp [read_arrayF]
      case FixArray val =>
        cases hr : read_elemsF f (val &&& 0x0F) b with
        | error e =>
          have := ihe (val &&& 0x0F) b (by omega)
          rw [hr] at this
          simp [hr]
          simpa using this
        | ok p => simp [hr]
      case Array16 =>
        cases hBE : readBE 2 b with
        | error e => simp [hBE, readBE_err hBE]
        | ok p =>
          obtain ⟨len, b1⟩ := p
          obtain ⟨cbe, hb, hclen, hcval⟩ := readBE_ok hBE
          have hble : b1.length ≤ b.length := by rw [hb]; simp
          simp only [hBE]
          cases hr : read_elemsF f len b1 with
          | error e =>
            have := ihe len b1 (by omega)
            rw [hr] at this
            simpa using this
          | ok p => simp
      case Array32 =>
        cases hBE : readBE 4 b with
        | error e => simp [hBE, readBE_err hBE]
        | ok p =>
          obtain ⟨len, b1⟩ := p
          obtain ⟨cbe, hb, hclen, hcval⟩ := readBE_ok hBE
          have hble : b1.length ≤ b.length := by rw [hb]; simp
          simp only [hBE]
          cases hr : read_elemsF f len b1 with
          | error e =>
            have := ihe len b1 (by omega)
            rw [hr] at this
            simpa using this
          | ok p => simp
    · intro b marker hlen
      cases marker <;> try simp [read_mapF]
      case FixMap val =>
        cases hr : read_pairsF f (val &&& 0x0F) b with
        | error e =>
          have := ihp (val &&& 0x0F) b (by omega)
          rw [hr] at this
          simp [hr]
          simpa using this
        | ok p => simp [hr]
      case Map16 =>
        cases hBE : readBE 2 b with
        | error e => simp [hBE, readBE_err hBE]
        | ok p =>
          obtain ⟨len, b1⟩ := p
          obtain ⟨cbe, hb, hclen, hcval⟩ := readBE_ok hBE
          have hble : b1.length ≤ b.length := by rw [hb]; simp
          simp only [hBE]
          cases hr : read_pairsF f len b1 with
          | error e =>
            have := ihp len b1 (by omega)
            rw [hr] at this
            simpa using this
          | ok p => simp
      case Map32 =>
        cases hBE : readBE 4 b with
        | error e => simp [hBE, readBE_err hBE]
        | ok p =>
          obtain ⟨len, b1⟩ := p
          obtain ⟨cbe, hb, hclen, hcval⟩ := readBE_ok hBE
          have hble : b1.length ≤ b.length := by rw [hb]; simp
          simp only [hBE]
          cases hr : read_pairsF f len b1 with
          | error e =>
            have := ihp len b1 (by omega)
            rw [hr] at this
            simpa using this
          | ok p => simp
    · intro n b hlen
      cases n with
      | zero => simp [read_elemsF]
      | succ n =>
        simp only [read_elemsF]
        cases hv : read_valueF f b with
        | error e =>
          have := ihv b (by omega)
          rw [hv] at this
          simp only [hv]
          simpa using this
        | ok p =>
          obtain ⟨e1, b1⟩ := p
          obtain ⟨c, hcne, hbc, -, -⟩ := (decode_combo f).1 b e1 b1 hv
          have hlt : b1.length < b.length := by
            rw [hbc]
            simp only [List.length_append]
            have : 0 < c.length := List.length_pos.mpr hcne
            omega
          simp only [hv]
          cases he : read_elemsF f n b1 with
          | error e =>
            have := ihe n b1 (by omega)
            rw [he] at this
            simp only [he]
            simpa using this
          | ok p =>
            obtain ⟨es, b2⟩ := p
            simp [he]
    · intro n b hlen
      cases n with
      | zero => simp [read_pairsF]
      | succ n =>
        simp only [read_pairsF]
        cases hv : read_valueF f b with
        | error e =>
          have := ihv b (by omega)
          rw [hv] at this
          simp only [hv]
          simpa using this
        | ok p =>
          obtain ⟨k1, b1⟩ := p
          obtain ⟨c, hcne, hbc, -, -⟩ := (decode_combo f).1 b k1 b1 hv
          have hlt : b1.length < b.length := by
            rw [hbc]
            simp only [List.length_append]
            have : 0 < c.length := List.length_pos.mpr hcne
            omega
          simp only [hv]
          cases hv2 : read_valueF f b1 with
          | error e =>
            have := ihv b1 (by omega)
            rw [hv2] at this
            simp only [hv2]
            simpa using this
          | ok p =>
            obtain ⟨v1, b2⟩ := p
            obtain ⟨c2, hcne2, hbc2, -, -⟩ := (decode_combo f).1 b1 v1 b2 hv2
            have hlt2 : b2.length < b1.length := by
              rw [hbc2]
              simp only [List.length_append]
              have : 0 < c2.length := List.length_pos.mpr hcne2
              omega
            simp only [hv2]
            cases hp : read_pairsF f n b2 with
            | error e =>
              have := ihp n b2 (by omega)
              rw [hp] at this
              simp only [hp]
              simpa using this
            | ok p =>
              obtain ⟨ps1, b3⟩ := p
              simp [hp]

/-! ### Encoder normal form -/

/-- `write_value` into a `Vec<u8>` sink never fails and appends exactly
the pure normal form `encValue` of the value. -/
theorem write_value_eq (v : MsgPackValue) :
    ∀ w, write_value w v = .ok (w ++ encValue v) := by
  refine encValue.induct
    (fun e => ∀ w, write_value w e.data = .ok (w ++ encEntry e))
    (fun v => ∀ w, write_value w v = .ok (w ++ encValue v))
    (fun ps => ∀ w, write_pairs w ps = .ok (w ++ encPairs ps))
    (fun xs => ∀ w, write_entries w xs = .ok (w ++ encList xs))
    ?mke ?c0 ?c1 ?c2 ?c3 ?c4 ?c5 ?c6 ?c7 ?c8 ?c9 ?c10 ?c11 ?c12 ?c13 ?c14 ?c15
    ?c16 ?c17 ?c18 ?c19 ?c20 ?fa ?a16 ?a32 ?fm ?m16 ?m32 ?enil ?econs ?pnil ?pcons v
  case mke =>
    intro m t d ihd w
    simpa [MsgPackEntry.data, encEntry] using ihd w
  case fa =>
    intro xs ih w
    simp [write_value, writeAll, encValue, ih, List.append_assoc]
  case a16 =>
    intro xs ih w
    simp [write_value, writeAll, encValue, ih, List.append_assoc]
  case a32 =>
    intro xs ih w
    simp [write_value, writeAll, encValue, ih, List.append_assoc]
  case fm =>
    intro xs ih w
    simp [write_value, writeAll, encValue, ih, List.append_assoc]
  case m16 =>
    intro xs ih w
    simp [write_value, writeAll, encValue, ih, List.append_assoc]
  case m32 =>
    intro xs ih w
    simp [write_value, writeAll, encValue, ih, List.append_assoc]
  case enil =>
    intro w
    simp [write_entries, encList]
  case econs =>
    intro e es ihe ihes w
    cases e with
    | mk m t d =>
      have ihe' := ihe
      simp only [MsgPackEntry.data, encEntry] at ihe'
      simp [write_entries, ihe', ihes, encList, encEntry, List.append_assoc]
  case pnil =>
    intro w
    simp [write_pairs, encPairs]
  case pcons =>
    intro k v1 ps ihk ihv ihps w
    cases k with
    | mk mk1 t1 d1 =>
      cases v1 with
      | mk mk2 t2 d2 =>
        have ihk' := ihk
        simp only [MsgPackEntry.data, encEntry] at ihk'
        have ihv' := ihv
        simp only [MsgPackEntry.data, encEntry] at ihv'
        simp [write_pairs, ihk', ihv', ihps, encPairs, encEntry, List.append_assoc]
  all_goals
    first
    | (intro x w; simp [write_value, writeAll, encValue, List.append_assoc])
    | (intro w; simp [write_value, writeAll, encValue])

/-- `pack` is the pure encoding of the entry's `data` field. -/
theorem pack_eq (e : MsgPackEntry) : pack e = encValue e.data := by
  unfold pack
  rw [write_value_eq e.data []]
  simp

/-- Every encoding starts with a marker byte, hence is nonempty. -/
theorem encValue_ne_nil (v : MsgPackValue) : encValue v ≠ [] := by
  cases v <;> simp [encValue]

/-! ### Marker byte and numeric inverse lemmas -/

theorem fixpos_mask {n : Nat} (h : n < 128) : n &&& 0x7F = n := by
  revert h
  revert n
  decide

theorem markerFromU8_fixpos {n : Nat} (h : n < 128) : markerFromU8 n = .FixPos n := by
  unfold markerFromU8
  rw [if_pos (by omega)]

theorem intCast8_neg {v : Int} (h1 : -32 ≤ v) (h2 : v ≤ -1) :
    intCast8 v = (v + 256).toNat := by
  unfold intCast8
  omega

set_option maxRecDepth 4096 in
theorem fixneg_mask : ∀ t, t < 256 → 224 ≤ t → (t &&& 0x1F ||| 0xE0) = t := by
  decide

set_option maxRecDepth 4096 in
theorem markerFromU8_fixneg : ∀ t, t < 256 → 224 ≤ t →
    markerFromU8 t = .FixNeg ((t : Int) - 256) := by
  decide

theorem fixstr_marker : ∀ L, L < 32 →
    ((L % 256) &&& 0x1F ||| 0xA0) = 0xA0 + L ∧
    markerFromU8 (0xA0 + L) = .FixStr L ∧ L &&& 0x1F = L := by
  decide

theorem fixarray_marker : ∀ L, L < 16 →
    ((L % 256) &&& 0x0F ||| 0x90) = 0x90 + L ∧
    markerFromU8 (0x90 + L) = .FixArray L ∧ L &&& 0x0F = L := by
  decide

theorem fixmap_marker : ∀ L, L < 16 →
    ((L % 256) &&& 0x0F ||| 0x80) = 0x80 + L ∧
    markerFromU8 (0x80 + L) = .FixMap L ∧ L &&& 0x0F = L := by
  decide

theorem toSigned_intCast8 {v : Int} (h1 : -128 ≤ v) (h2 : v < 128) :
    toSigned 8 (intCast8 v) = v := by
  unfold toSigned intCast8
  norm_num
  split <;> omega

theorem toSigned_intCast16 {v : Int} (h1 : -32768 ≤ v) (h2 : v < 32768) :
    toSigned 16 (intCast16 v) = v := by
  unfold toSigned intCast16
  norm_num
  split <;> omega

theorem toSigned_intCast32 {v : Int} (h1 : -2147483648 ≤ v) (h2 : v < 2147483648) :
    toSigned 32 (intCast32 v) = v := by
  unfold toSigned intCast32
  norm_num
  split <;> omega

theorem toSigned_intCast64 {v : Int}
    (h1 : -9223372036854775808 ≤ v) (h2 : v < 9223372036854775808) :
    toSigned 64 (intCast64 v) = v := by
  unfold toSigned intCast64
  norm_num
  split <;> omega

theorem intCast8_toSigned {x : Nat} (h : x < 256) : intCast8 (toSigned 8 x) = x := by
  unfold toSigned intCast8
  norm_num
  split <;> omega

theorem intCast16_toSigned {x : Nat} (h : x < 65536) : intCast16 (toSigned 16 x) = x := by
  unfold toSigned intCast16
  norm_num
  split <;> omega

theorem intCast32_toSigned {x : Nat} (h : x < 4294967296) :
    intCast32 (toSigned 32 x) = x := by
  unfold toSigned intCast32
  norm_num
  split <;> omega

theorem intCast64_toSigned {x : Nat} (h : x < 18446744073709551616) :
    intCast64 (toSigned 64 x) = x := by
  unfold toSigned intCast64
  norm_num
  split <;> omega

theorem beBytes_length (w n : Nat) : (beBytes w n).length = w := by
  induction w generalizing n with
  | zero => rfl
  | succ w ih => simp [beBytes, ih]

theorem beBytes_lt (w n : Nat) : ∀ x ∈ beBytes w n, x < 256 := by
  induction w generalizing n with
  | zero => simp [beBytes]
  | succ w ih =>
    intro x hx
    simp only [beBytes, List.mem_append, List.mem_singleton] at hx
    rcases hx with hx | hx
    · exact ih _ x hx
    · omega

theorem beVal_append_singleton (l : List Nat) (a : Nat) :
    beVal (l ++ [a]) = beVal l * 256 + a := by
  simp [beVal, List.foldl_append]

theorem beVal_beBytes {w n : Nat} (h : n < 256 ^ w) : beVal (beBytes w n) = n := by
  induction w generalizing n with
  | zero =>
    simp [beBytes, beVal]
    omega
  | succ w ih =>
    rw [beBytes, beVal_append_singleton, ih (by
      have : 256 ^ (w + 1) = 256 * 256 ^ w := by ring
      rw [this] at h
      exact Nat.div_lt_of_lt_mul h)]
    omega

theorem beBytes_beVal {l : List Nat} {w : Nat} (hw : l.length = w)
    (hb : ∀ x ∈ l, x < 256) : beBytes w (beVal l) = l := by
  induction l using List.reverseRecOn generalizing w with
  | nil =>
    subst hw
    rfl
  | append_singleton l a ih =>
    simp only [List.length_append, List.length_singleton] at hw
    subst hw
    rw [beVal_append_singleton, beBytes]
    have ha : a < 256 := hb a (by simp)
    have hdiv : (beVal l * 256 + a) / 256 = beVal l := by omega
    have hmod : (beVal l * 256 + a) % 256 = a := by omega
    rw [hdiv, hmod, ih rfl (fun x hx => hb x (by simp [hx]))]

theorem beVal_beBytes2 {n : Nat} (h : n < 65536) : beVal (beBytes 2 n) = n :=
  beVal_beBytes (by norm_num; omega)

theorem beVal_beBytes4 {n : Nat} (h : n < 4294967296) : beVal (beBytes 4 n) = n :=
  beVal_beBytes (by norm_num; omega)

theorem beVal_beBytes8 {n : Nat} (h : n < 18446744073709551616) : beVal (beBytes 8 n) = n :=
  beVal_beBytes (by norm_num; omega)

theorem intCast16_lt (n : Int) : intCast16 n < 65536 := by unfold intCast16; omega

theorem intCast32_lt (n : Int) : intCast32 n < 4294967296 := by unfold intCast32; omega

theorem intCast64_lt (n : Int) : intCast64 n < 18446744073709551616 := by
  unfold intCast64; omega

theorem mfu_C0 : markerFromU8 0xC0 = Marker.Null := rfl
theorem mfu_C2 : markerFromU8 0xC2 = Marker.False := rfl
theorem mfu_C3 : markerFromU8 0xC3 = Marker.True := rfl
theorem mfu_C4 : markerFromU8 0xC4 = Marker.Bin8 := rfl
theorem mfu_C5 : markerFromU8 0xC5 = Marker.Bin16 := rfl
theorem mfu_C6 : markerFromU8 0xC6 = Marker.Bin32 := rfl
theorem mfu_CA : markerFromU8 0xCA = Marker.F32 := rfl
theorem mfu_CB : markerFromU8 0xCB = Marker.F64 := rfl
theorem mfu_CC : markerFromU8 0xCC = Marker.U8 := rfl
theorem mfu_CD : markerFromU8 0xCD = Marker.U16 := rfl
theorem mfu_CE : markerFromU8 0xCE = Marker.U32 := rfl
theorem mfu_CF : markerFromU8 0xCF = Marker.U64 := rfl
theorem mfu_D0 : markerFromU8 0xD0 = Marker.I8 := rfl
theorem mfu_D1 : markerFromU8 0xD1 = Marker.I16 := rfl
theorem mfu_D2 : markerFromU8 0xD2 = Marker.I32 := rfl
theorem mfu_D3 : markerFromU8 0xD3 = Marker.I64 := rfl
theorem mfu_D9 : markerFromU8 0xD9 = Marker.Str8 := rfl
theorem mfu_DA : markerFromU8 0xDA = Marker.Str16 := rfl
theorem mfu_DB : markerFromU8 0xDB = Marker.Str32 := rfl
theorem mfu_DC : markerFromU8 0xDC = Marker.Array16 := rfl
theorem mfu_DD : markerFromU8 0xDD = Marker.Array32 := rfl
theorem mfu_DE : markerFromU8 0xDE = Marker.Map16 := rfl
theorem mfu_DF : markerFromU8 0xDF = Marker.Map32 := rfl


/-- `read_str` only builds string variants, which carry no children. -/
theorem read_str_wt {b : List Nat} {mk : Marker} {v : MsgPackValue} {rest : List Nat}
    (h : read_str b mk = .ok (v, rest)) : wellTypedV v = true := by
  unfold read_str at h
  split at h
  next heq => exact absurd h (by simp)
  next len b2 heq =>
    split at h
    next heq2 => exact absurd h (by simp)
    next buf b3 heq2 =>
      split at h
      · split at h <;> first
          | (simp only [Except.ok.injEq, Prod.mk.injEq] at h
             obtain ⟨hv, -⟩ := h
             rw [← hv]
             rfl)
          | exact absurd h (by simp)
      · exact absurd h (by simp)

/-- `read_bin` only builds binary variants, which carry no children. -/
theorem read_bin_wt {b : List Nat} {mk : Marker} {v : MsgPackValue} {rest : List Nat}
    (h : read_bin b mk = .ok (v, rest)) : wellTypedV v = true := by
  unfold read_bin at h
  split at h
  next heq => exact absurd h (by simp)
  next len b2 heq =>
    split at h
    next heq2 => exact absurd h (by simp)
    next buf b3 heq2 =>
      split at h <;> first
        | (simp only [Except.ok.injEq, Prod.mk.injEq] at h
           obtain ⟨hv, -⟩ := h
           rw [← hv]
           rfl)
        | exact absurd h (by simp)

/-- Every entry the decoder produces is built through `MsgPackEntry::new`,
so its `basic_type` tag is the derived classification, recursively. -/
theorem decode_wellTyped : ∀ f : Nat,
    (∀ b e rest, read_valueF f b = .ok (e, rest) → wellTypedE e = true) ∧
    (∀ b marker v rest, read_arrayF f b marker = .ok (v, rest) → wellTypedV v = true) ∧
    (∀ b marker v rest, read_mapF f b marker = .ok (v, rest) → wellTypedV v = true) ∧
    (∀ n b es rest, read_elemsF f n b = .ok (es, rest) → wellTypedListE es = true) ∧
    (∀ n b ps rest, read_pairsF f n b = .ok (ps, rest) → wellTypedListP ps = true) := by
  intro f
  induction f with
  | zero =>
    refine ⟨fun b e rest h => ?_, fun b mk v rest h => ?_, fun b mk v rest h => ?_,
      fun n b es rest h => ?_, fun n b ps rest h => ?_⟩ <;>
      simp [read_valueF, read_arrayF, read_mapF, read_elemsF, read_pairsF] at h
  | succ f ih =>
    obtain ⟨ihw, ihaw, ihmw, ihew, ihpw⟩ := ih
    refine ⟨?_, ?_, ?_, ?_, ?_⟩
    · intro b e rest h
      simp only [read_valueF] at h
      split at h
      next heqU => exact absurd h (by simp)
      next m b1 heqU =>
        split at h
        next hm =>
          simp only [Except.ok.injEq, Prod.mk.injEq] at h
          obtain ⟨he, -⟩ := h
          rw [← he]
          simp [MsgPackEntry.new, wellTypedE, wellTypedV]
        next hm =>
          simp only [Except.ok.injEq, Prod.mk.injEq] at h
          obtain ⟨he, -⟩ := h
          rw [← he]
          simp [MsgPackEntry.new, wellTypedE, wellTypedV]
        next hm =>
          simp only [Except.ok.injEq, Prod.mk.injEq] at h
          obtain ⟨he, -⟩ := h
          rw [← he]
          simp [MsgPackEntry.new, wellTypedE, wellTypedV]
        next val hm =>
          simp only [Except.ok.injEq, Prod.mk.injEq] at h
          obtain ⟨he, -⟩ := h
          rw [← he]
          simp [MsgPackEntry.new, wellTypedE, wellTypedV]
        next val hm =>
          simp only [Except.ok.injEq, Prod.mk.injEq] at h
          obtain ⟨he, -⟩ := h
          rw [← he]
          simp [MsgPackEntry.new, wellTypedE, wellTypedV]
        next hm =>
          split at h
          next heq2 => exact absurd h (by simp)
          next n b2 heq2 =>
            simp only [Except.ok.injEq, Prod.mk.injEq] at h
            obtain ⟨he, -⟩ := h
            rw [← he]
            simp [MsgPackEntry.new, wellTypedE, wellTypedV]
        next hm =>
          split at h
          next heq2 => exact absurd h (by simp)
          next n b2 heq2 =>
            simp only [Except.ok.injEq, Prod.mk.injEq] at h
            obtain ⟨he, -⟩ := h
            rw [← he]
            simp [MsgPackEntry.new, wellTypedE, wellTypedV]
        next hm =>
          split at h
          next heq2 => exact absurd h (by simp)
          next n b2 heq2 =>
            simp only [Except.ok.injEq, Prod.mk.injEq] at h
            obtain ⟨he, -⟩ := h
            rw [← he]
            simp [MsgPackEntry.new, wellTypedE, wellTypedV]
        next hm =>
          split at h
          next heq2 => exact absurd h (by simp)
          next n b2 heq2 =>
            simp only [Except.ok.injEq, Prod.mk.injEq] at h
            obtain ⟨he, -⟩ := h
            rw [← he]
            simp [MsgPackEntry.new, wellTypedE, wellTypedV]
        next hm =>
          split at h
          next heq2 => exact absurd h (by simp)
          next n b2 heq2 =>
            simp only [Except.ok.injEq, Prod.mk.injEq] at h
            obtain ⟨he, -⟩ := h
            rw [← he]
            simp [MsgPackEntry.new, wellTypedE, wellTypedV]
        next hm =>
          split at h
          next heq2 => exact absurd h (by simp)
          next n b2 heq2 =>
            simp only [Except.ok.injEq, Prod.mk.injEq] at h
            obtain ⟨he, -⟩ := h
            rw [← he]
            simp [MsgPackEntry.new, wellTypedE, wellTypedV]
        next hm =>
          split at h
          next heq2 => exact absurd h (by simp)
          next n b2 heq2 =>
            simp only [Except.ok.injEq, Prod.mk.injEq] at h
            obtain ⟨he, -⟩ := h
            rw [← he]
            simp [MsgPackEntry.new, wellTypedE, wellTypedV]
        next hm =>
          split at h
          next heq2 => exact absurd h (by simp)
          next n b2 heq2 =>
            simp only [Except.ok.injEq, Prod.mk.injEq] at h
            obtain ⟨he, -⟩ := h
            rw [← he]
            simp [MsgPackEntry.new, wellTypedE, wellTypedV]
        next hm =>
          split at h
          next heq2 => exact absurd h (by simp)
          next n b2 heq2 =>
            simp only [Except.ok.injEq, Prod.mk.injEq] at h
            obtain ⟨he, -⟩ := h
            rw [← he]
            simp [MsgPackEntry.new, wellTypedE, wellTypedV]
        next hm =>
          split at h
          next heq2 => exact absurd h (by simp)
          next n b2 heq2 =>
            simp only [Except.ok.injEq, Prod.mk.injEq] at h
            obtain ⟨he, -⟩ := h
            rw [← he]
            simp [MsgPackEntry.new, wellTypedE, wellTypedV]
        next val hm =>
          split at h
          next heq2 => exact absurd h (by simp)
          next value b2 heq2 =>
            simp only [Except.ok.injEq, Prod.mk.injEq] at h
            obtain ⟨he, -⟩ := h
            rw [← he]
            simp only [MsgPackEntry.new, wellTypedE, beq_self_eq_true, Bool.true_and]
            exact read_str_wt heq2
        next hm =>
          split at h
          next heq2 => exact absurd h (by simp)
          next value b2 heq2 =>
            simp only [Except.ok.injEq, Prod.mk.injEq] at h
            obtain ⟨he, -⟩ := h
            rw [← he]
            simp only [MsgPackEntry.new, wellTypedE, beq_self_eq_true, Bool.true_and]
            exact read_str_wt heq2
        next hm =>
          split at h
          next heq2 => exact absurd h (by simp)
          next value b2 heq2 =>
            simp only [Except.ok.injEq, Prod.mk.injEq] at h
            obtain ⟨he, -⟩ := h
            rw [← he]
            simp only [MsgPackEntry.new, wellTypedE, beq_self_eq_true, Bool.true_and]
            exact read_str_wt heq2
        next hm =>
          split at h
          next heq2 => exact absurd h (by simp)
          next value b2 heq2 =>
            simp only [Except.ok.injEq, Prod.mk.injEq] at h
            obtain ⟨he, -⟩ := h
            rw [← he]
            simp only [MsgPackEntry.new, wellTypedE, beq_self_eq_true, Bool.true_and]
            exact read_str_wt heq2
        next hm =>
          split at h
          next heq2 => exact absurd h (by simp)
          next value b2 heq2 =>
            simp only [Except.ok.injEq, Prod.mk.injEq] at h
            obtain ⟨he, -⟩ := h
            rw [← he]
            simp only [MsgPackEntry.new, wellTypedE, beq_self_eq_true, Bool.true_and]
            exact read_bin_wt heq2
        next hm =>
          split at h
          next heq2 => exact absurd h (by simp)
          next value b2 heq2 =>
            simp only [Except.ok.injEq, Prod.mk.injEq] at h
            obtain ⟨he, -⟩ := h
            rw [← he]
            simp only [MsgPackEntry.new, wellTypedE, beq_self_eq_true, Bool.true_and]
            exact read_bin_wt heq2
        next hm =>
          split at h
          next heq2 => exact absurd h (by simp)
          next value b2 heq2 =>
            simp only [Except.ok.injEq, Prod.mk.injEq] at h
            obtain ⟨he, -⟩ := h
            rw [← he]
            simp only [MsgPackEntry.new, wellTypedE, beq_self_eq_true, Bool.true_and]
            exact read_bin_wt heq2
        next val hm =>
          split at h
          next heq2 => exact absurd h (by simp)
          next value b2 heq2 =>
            simp only [Except.ok.injEq, Prod.mk.injEq] at h
            obtain ⟨he, -⟩ := h
            rw [← he]
            simp only [MsgPackEntry.new, wellTypedE, beq_self_eq_true, Bool.true_and]
            exact ihaw b1 (.FixArray val) value b2 heq2
        next hm =>
          split at h
          next heq2 => exact absurd h (by simp)
          next value b2 heq2 =>
            simp only [Except.ok.injEq, Prod.mk.injEq] at h
            obtain ⟨he, -⟩ := h
            rw [← he]
            simp only [MsgPackEntry.new, wellTypedE, beq_self_eq_true, Bool.true_and]
            exact ihaw b1 .Array16 value b2 heq2
        next hm =>
          split at h
          next heq2 => exact absurd h (by simp)
          next value b2 heq2 =>
            simp only [Except.ok.injEq, Prod.mk.injEq] at h
            obtain ⟨he, -⟩ := h
            rw [← he]
            simp only [MsgPackEntry.new, wellTypedE, beq_self_eq_true, Bool.true_and]
            exact ihaw b1 .Array32 value b2 heq2
        next val hm =>
          split at h
          next heq2 => exact absurd h (by simp)
          next value b2 heq2 =>
            simp only [Except.ok.injEq, Prod.mk.injEq] at h
            obtain ⟨he, -⟩ := h
            rw [← he]
            simp only [MsgPackEntry.new, wellTypedE, beq_self_eq_true, Bool.true_and]
            exact ihmw b1 (.FixMap val) value b2 heq2
        next hm =>
          split at h
          next heq2 => exact absurd h (by simp)
          next value b2 heq2 =>
            simp only [Except.ok.injEq, Prod.mk.injEq] at h
            obtain ⟨he, -⟩ := h
            rw [← he]
            simp only [MsgPackEntry.new, wellTypedE, beq_self_eq_true, Bool.true_and]
            exact ihmw b1 .Map16 value b2 heq2
        next hm =>
          split at h
          next heq2 => exact absurd h (by simp)
          next value b2 heq2 =>
            simp only [Except.ok.injEq, Prod.mk.injEq] at h
            obtain ⟨he, -⟩ := h
            rw [← he]
            simp only [MsgPackEntry.new, wellTypedE, beq_self_eq_true, Bool.true_and]
            exact ihmw b1 .Map32 value b2 heq2
        next hm => exact absurd h (by simp)
        next hm => exact absurd h (by simp)
        next hm => exact absurd h (by simp)
        next hm => exact absurd h (by simp)
        next hm => exact absurd h (by simp)
        next hm => exact absurd h (by simp)
        next hm => exact absurd h (by simp)
        next hm => exact absurd h (by simp)
        next hm => exact absurd h (by simp)
    · intro b marker v rest h
      cases marker
      case FixArray val =>
        simp only [read_arrayF] at h
        split at h
        next heqe => exact absurd h (by simp)
        next array b2 heqe =>
          simp only [Except.ok.injEq, Prod.mk.injEq] at h
          obtain ⟨hv, -⟩ := h
          rw [← hv]
          simp only [wellTypedV]
          exact ihew _ b array b2 heqe
      case Array16 =>
        simp only [read_arrayF] at h
        split at h
        next heq => exact absurd h (by simp)
        next len b1 heq =>
          split at h
          next heqe => exact absurd h (by simp)
          next array b2 heqe =>
            simp only [Except.ok.injEq, Prod.mk.injEq] at h
            obtain ⟨hv, -⟩ := h
            rw [← hv]
            simp only [wellTypedV]
            exact ihew len b1 array b2 heqe
      case Array32 =>
        simp only [read_arrayF] at h
        split at h
        next heq => exact absurd h (by simp)
        next len b1 heq =>
          split at h
          next heqe => exact absurd h (by simp)
          next array b2 heqe =>
            simp only [Except.ok.injEq, Prod.mk.injEq] at h
            obtain ⟨hv, -⟩ := h
            rw [← hv]
            simp only [wellTypedV]
            exact ihew len b1 array b2 heqe
      all_goals simp [read_arrayF] at h
    · intro b marker v rest h
      cases marker
      case FixMap val =>
        simp only [read_mapF] at h
        split at h
        next heqe => exact absurd h (by simp)
        next map b2 heqe =>
          simp only [Except.ok.injEq, Prod.mk.injEq] at h
          obtain ⟨hv, -⟩ := h
          rw [← hv]
          simp only [wellTypedV]
          exact ihpw _ b map b2 heqe
      case Map16 =>
        simp only [read_mapF] at h
        split at h
        next heq => exact absurd h (by simp)
        next len b1 heq =>
          split at h
          next heqe => exact absurd h (by simp)
          next map b2 heqe =>
            simp only [Except.ok.injEq, Prod.mk.injEq] at h
            obtain ⟨hv, -⟩ := h
            rw [← hv]
            simp only [wellTypedV]
            exact ihpw len b1 map b2 heqe
      case Map32 =>
        simp only [read_mapF] at h
        split at h
        next heq => exact absurd h (by simp)
        next len b1 heq =>
          split at h
          next heqe => exact absurd h (by simp)
          next map b2 heqe =>
            simp only [Except.ok.injEq, Prod.mk.injEq] at h
            obtain ⟨hv, -⟩ := h
            rw [← hv]
            simp only [wellTypedV]
            exact ihpw len b1 map b2 heqe
      all_goals simp [read_mapF] at h
    · intro n b es rest h
      cases n with
      | zero =>
        simp only [read_elemsF, Except.ok.injEq, Prod.mk.injEq] at h
        obtain ⟨hes, -⟩ := h
        rw [← hes]
        rfl
      | succ n =>
        simp only [read_elemsF] at h
        split at h
        next heq1 => exact absurd h (by simp)
        next e1 b1 heq1 =>
          split at h
          next heq2 => exact absurd h (by simp)
          next es1 b2 heq2 =>
            simp only [Except.ok.injEq, Prod.mk.injEq] at h
            obtain ⟨hes, -⟩ := h
            rw [← hes]
            simp [wellTypedListE, ihw b e1 b1 heq1, ihew n b1 es1 b2 heq2]
    · intro n b ps rest h
      cases n with
      | zero =>
        simp only [read_pairsF, Except.ok.injEq, Prod.mk.injEq] at h
        obtain ⟨hps, -⟩ := h
        rw [← hps]
        rfl
      | succ n =>
        simp only [read_pairsF] at h
        split at h
        next heq1 => exact absurd h (by simp)
        next k1 b1 heq1 =>
          split at h
          next heq2 => exact absurd h (by simp)
          next v1 b2 heq2 =>
            split at h
            next heq3 => exact absurd h (by simp)
            next ps1 b3 heq3 =>
              simp only [Except.ok.injEq, Prod.mk.injEq] at h
              obtain ⟨hps, -⟩ := h
              rw [← hps]
              simp [wellTypedListP, ihw b k1 b1 heq1, ihw b1 v1 b2 heq2,
                ihpw n b2 ps1 b3 heq3]


/-! ### Exact decoding: every decodable buffer is a canonical encoding -/

set_option maxRecDepth 8192 in
theorem mfu_inv_chk : ∀ m, m < 256 → mfuInvChk m = true := by decide

set_option maxRecDepth 8192 in
theorem xd_fixstr : ∀ m, m < 256 → 0x9F < m → m ≤ 0xBF →
    ((((m &&& 0x1F) &&& 0x1F) % 256) &&& 0x1F ||| 0xA0) = m := by decide

set_option maxRecDepth 8192 in
theorem xd_fixarray : ∀ m, m < 256 → 0x8F < m → m ≤ 0x9F →
    ((((m &&& 0x0F) &&& 0x0F) % 256) &&& 0x0F ||| 0x90) = m := by decide

set_option maxRecDepth 8192 in
theorem xd_fixmap : ∀ m, m < 256 → 0x7F < m → m ≤ 0x8F →
    ((((m &&& 0x0F) &&& 0x0F) % 256) &&& 0x0F ||| 0x80) = m := by decide

theorem beVal_lt {l : List Nat} (hb : ∀ x ∈ l, x < 256) : beVal l < 256 ^ l.length := by
  induction l using List.reverseRecOn with
  | nil => simp [beVal]
  | append_singleton l a ih =>
    rw [beVal_append_singleton]
    have ha : a < 256 := hb a (by simp)
    have ihl := ih (fun x hx => hb x (by simp [hx]))
    simp only [List.length_append, List.length_singleton]
    calc beVal l * 256 + a < (beVal l + 1) * 256 := by omega
    _ ≤ 256 ^ l.length * 256 := Nat.mul_le_mul_right _ ihl
    _ = 256 ^ (l.length + 1) := by ring

theorem read_str_exact_fix {b : List Nat} {val : Nat} {v : MsgPackValue} {rest : List Nat}
    (h : read_str b (.FixStr val) = .ok (v, rest)) :
    ∃ s, v = .FixStr s ∧ s.length = val &&& 0x1F ∧ b = s ++ rest := by
  simp only [read_str] at h
  split at h
  next heq => exact absurd h (by simp)
  next buf b2 heq =>
    obtain ⟨hb, hlen⟩ := readExact_ok heq
    split at h
    next hu =>
      simp only [Except.ok.injEq, Prod.mk.injEq] at h
      obtain ⟨hv, hrest⟩ := h
      exact ⟨buf, hv.symm, hlen, by rw [hb, hrest]⟩
    next hu => exact absurd h (by simp)

theorem read_str_exact_8 {b : List Nat} {v : MsgPackValue} {rest : List Nat}
    (h256 : ∀ x ∈ b, x < 256) (h : read_str b .Str8 = .ok (v, rest)) :
    ∃ s, v = .Str8 s ∧ b = ((s.length % 256) :: s) ++ rest := by
  simp only [read_str] at h
  split at h
  next heq => exact absurd h (by simp)
  next len b1 heq =>
    have hb := readU8_ok heq
    have hlen256 : len < 256 := h256 len (by rw [hb]; simp)
    split at h
    next heq2 => exact absurd h (by simp)
    next buf b2 heq2 =>
      obtain ⟨hb1, hblen⟩ := readExact_ok heq2
      split at h
      next hu =>
        simp only [Except.ok.injEq, Prod.mk.injEq] at h
        obtain ⟨hv, hrest⟩ := h
        refine ⟨buf, hv.symm, ?_⟩
        rw [hb, hb1, hrest, hblen, Nat.mod_eq_of_lt hlen256]
        rfl
      next hu => exact absurd h (by simp)

theorem read_str_exact_16 {b : List Nat} {v : MsgPackValue} {rest : List Nat}
    (h256 : ∀ x ∈ b, x < 256) (h : read_str b .Str16 = .ok (v, rest)) :
    ∃ s, v = .Str16 s ∧ s.length < 65536 ∧
      b = (beBytes 2 (s.length % 65536) ++ s) ++ rest := by
  simp only [read_str] at h
  split at h
  next heq => exact absurd h (by simp)
  next len b1 heq =>
    obtain ⟨cbe, hb, hclen, hcval⟩ := readBE_ok heq
    have hcb : ∀ x ∈ cbe, x < 256 := fun x hx => h256 x (by rw [hb]; simp [hx])
    have hlt : len < 65536 := by
      rw [← hcval]
      have hvv := beVal_lt hcb
      rw [hclen] at hvv
      norm_num at hvv
      exact hvv
    split at h
    next heq2 => exact absurd h (by simp)
    next buf b2 heq2 =>
      obtain ⟨hb1, hblen⟩ := readExact_ok heq2
      split at h
      next hu =>
        simp only [Except.ok.injEq, Prod.mk.injEq] at h
        obtain ⟨hv, hrest⟩ := h
        refine ⟨buf, hv.symm, by omega, ?_⟩
        rw [hb, hb1, hrest, hblen, Nat.mod_eq_of_lt hlt, ← hcval,
          beBytes_beVal hclen hcb]
        simp
      next hu => exact absurd h (by simp)

theorem read_str_exact_32 {b : List Nat} {v : MsgPackValue} {rest : List Nat}
    (h256 : ∀ x ∈ b, x < 256) (h : read_str b .Str32 = .ok (v, rest)) :
    ∃ s, v = .Str32 s ∧ s.length < 4294967296 ∧
      b = (beBytes 4 (s.length % 4294967296) ++ s) ++ rest := by
  simp only [read_str] at h
  split at h
  next heq => exact absurd h (by simp)
  next len b1 heq =>
    obtain ⟨cbe, hb, hclen, hcval⟩ := readBE_ok heq
    have hcb : ∀ x ∈ cbe, x < 256 := fun x hx => h256 x (by rw [hb]; simp [hx])
    have hlt : len < 4294967296 := by
      rw [← hcval]
      have hvv := beVal_lt hcb
      rw [hclen] at hvv
      norm_num at hvv
      exact hvv
    split at h
    next heq2 => exact absurd h (by simp)
    next buf b2 heq2 =>
      obtain ⟨hb1, hblen⟩ := readExact_ok heq2
      split at h
      next hu =>
        simp only [Except.ok.injEq, Prod.mk.injEq] at h
        obtain ⟨hv, hrest⟩ := h
        refine ⟨buf, hv.symm, by omega, ?_⟩
        rw [hb, hb1, hrest, hblen, Nat.mod_eq_of_lt hlt, ← hcval,
          beBytes_beVal hclen hcb]
        simp
      next hu => exact absurd h (by simp)

theorem read_bin_exact_8 {b : List Nat} {v : MsgPackValue} {rest : List Nat}
    (h256 : ∀ x ∈ b, x < 256) (h : read_bin b .Bin8 = .ok (v, rest)) :
    ∃ s, v = .Bin8 s ∧ b = ((s.length % 256) :: s) ++ rest := by
  simp only [read_bin] at h
  split at h
  next heq => exact absurd h (by simp)
  next len b1 heq =>
    have hb := readU8_ok heq
    have hlen256 : len < 256 := h256 len (by rw [hb]; simp)
    split at h
    next heq2 => exact absurd h (by simp)
    next buf b2 heq2 =>
      obtain ⟨hb1, hblen⟩ := readExact_ok heq2
      simp only [Except.ok.injEq, Prod.mk.injEq] at h
      obtain ⟨hv, hrest⟩ := h
      refine ⟨buf, hv.symm, ?_⟩
      rw [hb, hb1, hrest, hblen, Nat.mod_eq_of_lt hlen256]
      rfl

theorem read_bin_exact_16 {b : List Nat} {v : MsgPackValue} {rest : List Nat}
    (h256 : ∀ x ∈ b, x < 256) (h : read_bin b .Bin16 = .ok (v, rest)) :
    ∃ s, v = .Bin16 s ∧ s.length < 65536 ∧
      b = (beBytes 2 (s.length % 65536) ++ s) ++ rest := by
  simp only [read_bin] at h
  split at h
  next heq => exact absurd h (by simp)
  next len b1 heq =>
    obtain ⟨cbe, hb, hclen, hcval⟩ := readBE_ok heq
    have hcb : ∀ x ∈ cbe, x < 256 := fun x hx => h256 x (by rw [hb]; simp [hx])
    have hlt : len < 65536 := by
      rw [← hcval]
      have hvv := beVal_lt hcb
      rw [hclen] at hvv
      norm_num at hvv
      exact hvv
    split at h
    next heq2 => exact absurd h (by simp)
    next buf b2 heq2 =>
      obtain ⟨hb1, hblen⟩ := readExact_ok heq2
      simp only [Except.ok.injEq, Prod.mk.injEq] at h
      obtain ⟨hv, hrest⟩ := h
      refine ⟨buf, hv.symm, by omega, ?_⟩
      rw [hb, hb1, hrest, hblen, Nat.mod_eq_of_lt hlt, ← hcval,
        beBytes_beVal hclen hcb]
      simp

theorem read_bin_exact_32 {b : List Nat} {v : MsgPackValue} {rest : List Nat}
    (h256 : ∀ x ∈ b, x < 256) (h : read_bin b .Bin32 = .ok (v, rest)) :
    ∃ s, v = .Bin32 s ∧ s.length < 4294967296 ∧
      b = (beBytes 4 (s.length % 4294967296) ++ s) ++ rest := by
  simp only [read_bin] at h
  split at h
  next heq => exact absurd h (by simp)
  next len b1 heq =>
    obtain ⟨cbe, hb, hclen, hcval⟩ := readBE_ok heq
    have hcb : ∀ x ∈ cbe, x < 256 := fun x hx => h256 x (by rw [hb]; simp [hx])
    have hlt : len < 4294967296 := by
      rw [← hcval]
      have hvv := beVal_lt hcb
      rw [hclen] at hvv
      norm_num at hvv
      exact hvv
    split at h
    next heq2 => exact absurd h (by simp)
    next buf b2 heq2 =>
      obtain ⟨hb1, hblen⟩ := readExact_ok heq2
      simp only [Except.ok.injEq, Prod.mk.injEq] at h
      obtain ⟨hv, hrest⟩ := h
      refine ⟨buf, hv.symm, by omega, ?_⟩
      rw [hb, hb1, hrest, hblen, Nat.mod_eq_of_lt hlt, ← hcval,
        beBytes_beVal hclen hcb]
      simp

/-- Exact decoding: on a buffer of genuine bytes, a successful decode
consumes precisely the canonical encoding of the entry it returns (so the
decoder only accepts canonical encodings, and re-encoding reproduces the
consumed bytes).  Stated mutually for all five decoding functions; the
collection conjuncts also recover the wire length field from the result. -/
theorem decode_exact : ∀ f : Nat,
    (∀ b e rest, (∀ x ∈ b, x < 256) → read_valueF f b = .ok (e, rest) →
      b = encEntry e ++ rest) ∧
    (∀ b val v rest, (∀ x ∈ b, x < 256) →
      read_arrayF f b (.FixArray val) = .ok (v, rest) →
      ∃ xs, v = .FixArray xs ∧ xs.length = val &&& 0x0F ∧
        b = encList xs ++ rest) ∧
    (∀ b v rest, (∀ x ∈ b, x < 256) →
      read_arrayF f b .Array16 = .ok (v, rest) →
      ∃ xs, v = .Array16 xs ∧ xs.length < 65536 ∧
        b = beBytes 2 xs.length ++ (encList xs ++ rest)) ∧
    (∀ b v rest, (∀ x ∈ b, x < 256) →
      read_arrayF f b .Array32 = .ok (v, rest) →
      ∃ xs, v = .Array32 xs ∧ xs.length < 4294967296 ∧
        b = beBytes 4 xs.length ++ (encList xs ++ rest)) ∧
    (∀ b val v rest, (∀ x ∈ b, x < 256) →
      read_mapF f b (.FixMap val) = .ok (v, rest) →
      ∃ xs, v = .FixMap xs ∧ xs.length = val &&& 0x0F ∧
        b = encPairs xs ++ rest) ∧
    (∀ b v rest, (∀ x ∈ b, x < 256) →
      read_mapF f b .Map16 = .ok (v, rest) →
      ∃ xs, v = .Map16 xs ∧ xs.length < 65536 ∧
        b = beBytes 2 xs.length ++ (encPairs xs ++ rest)) ∧
    (∀ b v rest, (∀ x ∈ b, x < 256) →
      read_mapF f b .Map32 = .ok (v, rest) →
      ∃ xs, v = .Map32 xs ∧ xs.length < 4294967296 ∧
        b = beBytes 4 xs.length ++ (encPairs xs ++ rest)) ∧
    (∀ n b es rest, (∀ x ∈ b, x < 256) → read_elemsF f n b = .ok (es, rest) →
      es.length = n ∧ b = encList es ++ rest) ∧
    (∀ n b ps rest, (∀ x ∈ b, x < 256) → read_pairsF f n b = .ok (ps, rest) →
      ps.length = n ∧ b = encPairs ps ++ rest) := by
  intro f
  induction f with
  | zero =>
    refine ⟨fun b e rest h256 h => ?_, fun b val v rest h256 h => ?_,
      fun b v rest h256 h => ?_, fun b v rest h256 h => ?_,
      fun b val v rest h256 h => ?_, fun b v rest h256 h => ?_,
      fun b v rest h256 h => ?_, fun n b es rest h256 h => ?_,
      fun n b ps rest h256 h => ?_⟩ <;>
      simp [read_valueF, read_arrayF, read_mapF, read_elemsF, read_pairsF] at h
  | succ f ih =>
    obtain ⟨ihv, ihaf, iha16, iha32, ihmf, ihm16, ihm32, ihe, ihp⟩ := ih
    refine ⟨?_, ?_, ?_, ?_, ?_, ?_, ?_, ?_, ?_⟩
    · intro b e rest h256 h
      simp only [read_valueF] at h
      split at h
      next heqU => exact absurd h (by simp)
      next m b1 heqU =>
        have hb := readU8_ok heqU
        have hm256 : m < 256 := h256 m (by rw [hb]; simp)
        have hb256 : ∀ x ∈ b1, x < 256 := fun x hx => h256 x (by rw [hb]; simp [hx])
        split at h
        next hm =>
          have hinv := mfu_inv_chk m hm256
          unfold mfuInvChk at hinv
          simp only [hm, decide_eq_true_eq] at hinv
          simp only [Except.ok.injEq, Prod.mk.injEq] at h
          obtain ⟨he, hrest⟩ := h
          rw [hb, ← he, ← hrest, hinv]
          simp [MsgPackEntry.new, encEntry, encValue]
        next hm =>
          have hinv := mfu_inv_chk m hm256
          unfold mfuInvChk at hinv
          simp only [hm, decide_eq_true_eq] at hinv
          simp only [Except.ok.injEq, Prod.mk.injEq] at h
          obtain ⟨he, hrest⟩ := h
          rw [hb, ← he, ← hrest, hinv]
          simp [MsgPackEntry.new, encEntry, encValue]
        next hm =>
          have hinv := mfu_inv_chk m hm256
          unfold mfuInvChk at hinv
          simp only [hm, decide_eq_true_eq] at hinv
          simp only [Except.ok.injEq, Prod.mk.injEq] at h
          obtain ⟨he, hrest⟩ := h
          rw [hb, ← he, ← hrest, hinv]
          simp [MsgPackEntry.new, encEntry, encValue]
        next val hm =>
          have hinv := mfu_inv_chk m hm256
          unfold mfuInvChk at hinv
          simp only [hm, decide_eq_true_eq] at hinv
          obtain ⟨hle, hval⟩ := hinv
          simp only [Except.ok.injEq, Prod.mk.injEq] at h
          obtain ⟨he, hrest⟩ := h
          rw [hb, ← he, ← hrest, hval]
          simp [MsgPackEntry.new, encEntry, encValue,
            fixpos_mask (show m < 128 by omega)]
        next val hm =>
          have hinv := mfu_inv_chk m hm256
          unfold mfuInvChk at hinv
          simp only [hm, decide_eq_true_eq] at hinv
          obtain ⟨hgt, hval⟩ := hinv
          simp only [Except.ok.injEq, Prod.mk.injEq] at h
          obtain ⟨he, hrest⟩ := h
          have hc : intCast8 ((m : Int) - 256) = m := by unfold intCast8; omega
          rw [hb, ← he, ← hrest, hval]
          simp [MsgPackEntry.new, encEntry, encValue, hc,
            fixneg_mask m hm256 (by omega)]
        next hm =>
          split at h
          next heq2 => exact absurd h (by simp)
          next n b2 heq2 =>
            have hinv := mfu_inv_chk m hm256
            unfold mfuInvChk at hinv
            simp only [hm, decide_eq_true_eq] at hinv
            have hn := readU8_ok heq2
            simp only [Except.ok.injEq, Prod.mk.injEq] at h
            obtain ⟨he, hrest⟩ := h
            rw [hb, hn, ← he, ← hrest, hinv]
            simp [MsgPackEntry.new, encEntry, encValue]
        next hm =>
          split at h
          next heq2 => exact absurd h (by simp)
          next n b2 heq2 =>
            have hinv := mfu_inv_chk m hm256
            unfold mfuInvChk at hinv
            simp only [hm, decide_eq_true_eq] at hinv
            obtain ⟨cbe, hb1, hclen, hcval⟩ := readBE_ok heq2
            have hcb : ∀ x ∈ cbe, x < 256 := fun x hx =>
              hb256 x (by rw [hb1]; simp [hx])
            simp only [Except.ok.injEq, Prod.mk.injEq] at h
            obtain ⟨he, hrest⟩ := h
            rw [hb, hb1, ← he, ← hrest, hinv]
            simp only [MsgPackEntry.new, encEntry, encValue]
            rw [← hcval, beBytes_beVal hclen hcb]
            simp
        next hm =>
          split at h
          next heq2 => exact absurd h (by simp)
          next n b2 heq2 =>
            have hinv := mfu_inv_chk m hm256
            unfold mfuInvChk at hinv
            simp only [hm, decide_eq_true_eq] at hinv
            obtain ⟨cbe, hb1, hclen, hcval⟩ := readBE_ok heq2
            have hcb : ∀ x ∈ cbe, x < 256 := fun x hx =>
              hb256 x (by rw [hb1]; simp [hx])
            simp only [Except.ok.injEq, Prod.mk.injEq] at h
            obtain ⟨he, hrest⟩ := h
            rw [hb, hb1, ← he, ← hrest, hinv]
            simp only [MsgPackEntry.new, encEntry, encValue]
            rw [← hcval, beBytes_beVal hclen hcb]
            simp
        next hm =>
          split at h
          next heq2 => exact absurd h (by simp)
          next n b2 heq2 =>
            have hinv := mfu_inv_chk m hm256
            unfold mfuInvChk at hinv
            simp only [hm, decide_eq_true_eq] at hinv
            obtain ⟨cbe, hb1, hclen, hcval⟩ := readBE_ok heq2
            have hcb : ∀ x ∈ cbe, x < 256 := fun x hx =>
              hb256 x (by rw [hb1]; simp [hx])
            simp only [Except.ok.injEq, Prod.mk.injEq] at h
            obtain ⟨he, hrest⟩ := h
            rw [hb, hb1, ← he, ← hrest, hinv]
            simp only [MsgPackEntry.new, encEntry, encValue]
            rw [← hcval, beBytes_beVal hclen hcb]
            simp
        next hm =>
          split at h
          next heq2 => exact absurd h (by simp)
          next n b2 heq2 =>
            have hinv := mfu_inv_chk m hm256
            unfold mfuInvChk at hinv
            simp only [hm, decide_eq_true_eq] at hinv
            have hn := readU8_ok heq2
            have hn256 : n < 256 := hb256 n (by rw [hn]; simp)
            simp only [Except.ok.injEq, Prod.mk.injEq] at h
            obtain ⟨he, hrest⟩ := h
            rw [hb, hn, ← he, ← hrest, hinv]
            simp [MsgPackEntry.new, encEntry, encValue, intCast8_toSigned hn256]
        next hm =>
          split at h
          next heq2 => exact absurd h (by simp)
          next n b2 heq2 =>
            have hinv := mfu_inv_chk m hm256
            unfold mfuInvChk at hinv
            simp only [hm, decide_eq_true_eq] at hinv
            obtain ⟨cbe, hb1, hclen, hcval⟩ := readBE_ok heq2
            have hcb : ∀ x ∈ cbe, x < 256 := fun x hx =>
              hb256 x (by rw [hb1]; simp [hx])
            have hn : n < 65536 := by
              rw [← hcval]
              have hvv := beVal_lt hcb
              rw [hclen] at hvv
              norm_num at hvv
              exact hvv
            simp only [Except.ok.injEq, Prod.mk.injEq] at h
            obtain ⟨he, hrest⟩ := h
            rw [hb, hb1, ← he, ← hrest, hinv]
            simp only [MsgPackEntry.new, encEntry, encValue]
            rw [intCast16_toSigned hn, ← hcval, beBytes_beVal hclen hcb]
            simp
        next hm =>
          split at h
          next heq2 => exact absurd h (by simp)
          next n b2 heq2 =>
            have hinv := mfu_inv_chk m hm256
            unfold mfuInvChk at hinv
            simp only [hm, decide_eq_true_eq] at hinv
            obtain ⟨cbe, hb1, hclen, hcval⟩ := readBE_ok heq2
            have hcb : ∀ x ∈ cbe, x < 256 := fun x hx =>
              hb256 x (by rw [hb1]; simp [hx])
            have hn : n < 4294967296 := by
              rw [← hcval]
              have hvv := beVal_lt hcb
              rw [hclen] at hvv
              norm_num at hvv
              exact hvv
            simp only [Except.ok.injEq, Prod.mk.injEq] at h
            obtain ⟨he, hrest⟩ := h
            rw [hb, hb1, ← he, ← hrest, hinv]
            simp only [MsgPackEntry.new, encEntry, encValue]
            rw [intCast32_toSigned hn, ← hcval, beBytes_beVal hclen hcb]
            simp
        next hm =>
          split at h
          next heq2 => exact absurd h (by simp)
          next n b2 heq2 =>
            have hinv := mfu_inv_chk m hm256
            unfold mfuInvChk at hinv
            simp only [hm, decide_eq_true_eq] at hinv
            obtain ⟨cbe, hb1, hclen, hcval⟩ := readBE_ok heq2
            have hcb : ∀ x ∈ cbe, x < 256 := fun x hx =>
              hb256 x (by rw [hb1]; simp [hx])
            have hn : n < 18446744073709551616 := by
              rw [← hcval]
              have hvv := beVal_lt hcb
              rw [hclen] at hvv
              norm_num at hvv
              exact hvv
            simp only [Except.ok.injEq, Prod.mk.injEq] at h
            obtain ⟨he, hrest⟩ := h
            rw [hb, hb1, ← he, ← hrest, hinv]
            simp only [MsgPackEntry.new, encEntry, encValue]
            rw [intCast64_toSigned hn, ← hcval, beBytes_beVal hclen hcb]
            simp
        next hm =>
          split at h
          next heq2 => exact absurd h (by simp)
          next n b2 heq2 =>
            have hinv := mfu_inv_chk m hm256
            unfold mfuInvChk at hinv
            simp only [hm, decide_eq_true_eq] at hinv
            obtain ⟨cbe, hb1, hclen, hcval⟩ := readBE_ok heq2
            have hcb : ∀ x ∈ cbe, x < 256 := fun x hx =>
              hb256 x (by rw [hb1]; simp [hx])
            simp only [Except.ok.injEq, Prod.mk.injEq] at h
            obtain ⟨he, hrest⟩ := h
            rw [hb, hb1, ← he, ← hrest, hinv]
            simp only [MsgPackEntry.new, encEntry, encValue]
            rw [← hcval, beBytes_beVal hclen hcb]
            simp
        next hm =>
          split at h
          next heq2 => exact absurd h (by simp)
          next n b2 heq2 =>
            have hinv := mfu_inv_chk m hm256
            unfold mfuInvChk at hinv
            simp only [hm, decide_eq_true_eq] at hinv
            obtain ⟨cbe, hb1, hclen, hcval⟩ := readBE_ok heq2
            have hcb : ∀ x ∈ cbe, x < 256 := fun x hx =>
              hb256 x (by rw [hb1]; simp [hx])
            simp only [Except.ok.injEq, Prod.mk.injEq] at h
            obtain ⟨he, hrest⟩ := h
            rw [hb, hb1, ← he, ← hrest, hinv]
            simp only [MsgPackEntry.new, encEntry, encValue]
            rw [← hcval, beBytes_beVal hclen hcb]
            simp
        next val hm =>
          split at h
          next heq2 => exact absurd h (by simp)
          next value b2 heq2 =>
            have hinv := mfu_inv_chk m hm256
            unfold mfuInvChk at hinv
            simp only [hm, decide_eq_true_eq] at hinv
            obtain ⟨hlo, hhi, hval⟩ := hinv
            obtain ⟨s, hv, hslen, hb1⟩ := read_str_exact_fix heq2
            simp only [Except.ok.injEq, Prod.mk.injEq] at h
            obtain ⟨he, hrest⟩ := h
            rw [hb, hb1, ← he, ← hrest, hv]
            simp only [MsgPackEntry.new, encEntry, encValue]
            rw [hslen, hval, xd_fixstr m hm256 hlo hhi]
            simp
        next hm =>
          split at h
          next heq2 => exact absurd h (by simp)
          next value b2 heq2 =>
            have hinv := mfu_inv_chk m hm256
            unfold mfuInvChk at hinv
            simp only [hm, decide_eq_true_eq] at hinv
            obtain ⟨s, hv, hb1⟩ := read_str_exact_8 hb256 heq2
            simp only [Except.ok.injEq, Prod.mk.injEq] at h
            obtain ⟨he, hrest⟩ := h
            rw [hb, hb1, ← he, ← hrest, hv, hinv]
            simp [MsgPackEntry.new, encEntry, encValue]
        next hm =>
          split at h
          next heq2 => exact absurd h (by simp)
          next value b2 heq2 =>
            have hinv := mfu_inv_chk m hm256
            unfold mfuInvChk at hinv
            simp only [hm, decide_eq_true_eq] at hinv
            obtain ⟨s, hv, hlt, hb1⟩ := read_str_exact_16 hb256 heq2
            simp only [Except.ok.injEq, Prod.mk.injEq] at h
            obtain ⟨he, hrest⟩ := h
            rw [hb, hb1, ← he, ← hrest, hv, hinv]
            simp [MsgPackEntry.new, encEntry, encValue]
        next hm =>
          split at h
          next heq2 => exact absurd h (by simp)
          next value b2 heq2 =>
            have hinv := mfu_inv_chk m hm256
            unfold mfuInvChk at hinv
            simp only [hm, decide_eq_true_eq] at hinv
            obtain ⟨s, hv, hlt, hb1⟩ := read_str_exact_32 hb256 heq2
            simp only [Except.ok.injEq, Prod.mk.injEq] at h
            obtain ⟨he, hrest⟩ := h
            rw [hb, hb1, ← he, ← hrest, hv, hinv]
            simp [MsgPackEntry.new, encEntry, encValue]
        next hm =>
          split at h
          next heq2 => exact absurd h (by simp)
          next value b2 heq2 =>
            have hinv := mfu_inv_chk m hm256
            unfold mfuInvChk at hinv
            simp only [hm, decide_eq_true_eq] at hinv
            obtain ⟨s, hv, hb1⟩ := read_bin_exact_8 hb256 heq2
            simp only [Except.ok.injEq, Prod.mk.injEq] at h
            obtain ⟨he, hrest⟩ := h
            rw [hb, hb1, ← he, ← hrest, hv, hinv]
            simp [MsgPackEntry.new, encEntry, encValue]
        next hm =>
          split at h
          next heq2 => exact absurd h (by simp)
          next value b2 heq2 =>
            have hinv := mfu_inv_chk m hm256
            unfold mfuInvChk at hinv
            simp only [hm, decide_eq_true_eq] at hinv
            obtain ⟨s, hv, hlt, hb1⟩ := read_bin_exact_16 hb256 heq2
            simp only [Except.ok.injEq, Prod.mk.injEq] at h
            obtain ⟨he, hrest⟩ := h
            rw [hb, hb1, ← he, ← hrest, hv, hinv]
            simp [MsgPackEntry.new, encEntry, encValue]
        next hm =>
          split at h
          next heq2 => exact absurd h (by simp)
          next value b2 heq2 =>
            have hinv := mfu_inv_chk m hm256
            unfold mfuInvChk at hinv
            simp only [hm, decide_eq_true_eq] at hinv
            obtain ⟨s, hv, hlt, hb1⟩ := read_bin_exact_32 hb256 heq2
            simp only [Except.ok.injEq, Prod.mk.injEq] at h
            obtain ⟨he, hrest⟩ := h
            rw [hb, hb1, ← he, ← hrest, hv, hinv]
            simp [MsgPackEntry.new, encEntry, encValue]
        next val hm =>
          split at h
          next heq2 => exact absurd h (by simp)
          next value b2 heq2 =>
            have hinv := mfu_inv_chk m hm256
            unfold mfuInvChk at hinv
            simp only [hm, decide_eq_true_eq] at hinv
            obtain ⟨hlo, hhi, hval⟩ := hinv
            obtain ⟨xs, hv, hxlen, hb1⟩ := ihaf b1 val value b2 hb256 heq2
            simp only [Except.ok.injEq, Prod.mk.injEq] at h
            obtain ⟨he, hrest⟩ := h
            rw [hb, hb1, ← he, ← hrest, hv]
            simp only [MsgPackEntry.new, encEntry, encValue]
            rw [hxlen, hval, xd_fixarray m hm256 hlo hhi]
            simp
        next hm =>
          split at h
          next heq2 => exact absurd h (by simp)
          next value b2 heq2 =>
            have hinv := mfu_inv_chk m hm256
            unfold mfuInvChk at hinv
            simp only [hm, decide_eq_true_eq] at hinv
            obtain ⟨xs, hv, hlt, hb1⟩ := iha16 b1 value b2 hb256 heq2
            simp only [Except.ok.injEq, Prod.mk.injEq] at h
            obtain ⟨he, hrest⟩ := h
            rw [hb, hb1, ← he, ← hrest, hv, hinv]
            simp only [MsgPackEntry.new, encEntry, encValue]
            rw [Nat.mod_eq_of_lt hlt]
            simp
        next hm =>
          split at h
          next heq2 => exact absurd h (by simp)
          next value b2 heq2 =>
            have hinv := mfu_inv_chk m hm256
            unfold mfuInvChk at hinv
            simp only [hm, decide_eq_true_eq] at hinv
            obtain ⟨xs, hv, hlt, hb1⟩ := iha32 b1 value b2 hb256 heq2
            simp only [Except.ok.injEq, Prod.mk.injEq] at h
            obtain ⟨he, hrest⟩ := h
            rw [hb, hb1, ← he, ← hrest, hv, hinv]
            simp only [MsgPackEntry.new, encEntry, encValue]
            rw [Nat.mod_eq_of_lt hlt]
            simp
        next val hm =>
          split at h
          next heq2 => exact absurd h (by simp)
          next value b2 heq2 =>
            have hinv := mfu_inv_chk m hm256
            unfold mfuInvChk at hinv
            simp only [hm, decide_eq_true_eq] at hinv
            obtain ⟨hlo, hhi, hval⟩ := hinv
            obtain ⟨xs, hv, hxlen, hb1⟩ := ihmf b1 val value b2 hb256 heq2
            simp only [Except.ok.injEq, Prod.mk.injEq] at h
            obtain ⟨he, hrest⟩ := h
            rw [hb, hb1, ← he, ← hrest, hv]
            simp only [MsgPackEntry.new, encEntry, encValue]
            rw [hxlen, hval, xd_fixmap m hm256 hlo hhi]
            simp
        next hm =>
          split at h
          next heq2 => exact absurd h (by simp)
          next value b2 heq2 =>
            have hinv := mfu_inv_chk m hm256
            unfold mfuInvChk at hinv
            simp only [hm, decide_eq_true_eq] at hinv
            obtain ⟨xs, hv, hlt, hb1⟩ := ihm16 b1 value b2 hb256 heq2
            simp only [Except.ok.injEq, Prod.mk.injEq] at h
            obtain ⟨he, hrest⟩ := h
            rw [hb, hb1, ← he, ← hrest, hv, hinv]
            simp only [MsgPackEntry.new, encEntry, encValue]
            rw [Nat.mod_eq_of_lt hlt]
            simp
        next hm =>
          split at h
          next heq2 => exact absurd h (by simp)
          next value b2 heq2 =>
            have hinv := mfu_inv_chk m hm256
            unfold mfuInvChk at hinv
            simp only [hm, decide_eq_true_eq] at hinv
            obtain ⟨xs, hv, hlt, hb1⟩ := ihm32 b1 value b2 hb256 heq2
            simp only [Except.ok.injEq, Prod.mk.injEq] at h
            obtain ⟨he, hrest⟩ := h
            rw [hb, hb1, ← he, ← hrest, hv, hinv]
            simp only [MsgPackEntry.new, encEntry, encValue]
            rw [Nat.mod_eq_of_lt hlt]
            simp
        next hm => exact absurd h (by simp)
        next hm => exact absurd h (by simp)
        next hm => exact absurd h (by simp)
        next hm => exact absurd h (by simp)
        next hm => exact absurd h (by simp)
        next hm => exact absurd h (by simp)
        next hm => exact absurd h (by simp)
        next hm => exact absurd h (by simp)
        next hm => exact absurd h (by simp)
    · intro b val v rest h256 h
      simp only [read_arrayF] at h
      split at h
      next heqe => exact absurd h (by simp)
      next array b2 heqe =>
        simp only [Except.ok.injEq, Prod.mk.injEq] at h
        obtain ⟨hv, hrest⟩ := h
        obtain ⟨hlen, hbe⟩ := ihe (val &&& 0x0F) b array b2 h256 heqe
        refine ⟨array, hv.symm, hlen, ?_⟩
        rw [hbe, hrest]
    · intro b v rest h256 h
      simp only [read_arrayF, read_mapF] at h
      split at h
      next heq => exact absurd h (by simp)
      next len b1 heq =>
        split at h
        next heqe => exact absurd h (by simp)
        next array b2 heqe =>
          simp only [Except.ok.injEq, Prod.mk.injEq] at h
          obtain ⟨hv, hrest⟩ := h
          obtain ⟨cbe, hb, hclen, hcval⟩ := readBE_ok heq
          have hcb : ∀ x ∈ cbe, x < 256 := fun x hx =>
            h256 x (by rw [hb]; simp [hx])
          have hb1256 : ∀ x ∈ b1, x < 256 := fun x hx =>
            h256 x (by rw [hb]; simp [hx])
          obtain ⟨hlen, hbe⟩ := ihe len b1 array b2 hb1256 heqe
          have hlt : array.length < 65536 := by
            rw [hlen, ← hcval]
            have hvv := beVal_lt hcb
            rw [hclen] at hvv
            norm_num at hvv
            exact hvv
          refine ⟨array, hv.symm, hlt, ?_⟩
          rw [hb, hbe, hrest, hlen, ← hcval, beBytes_beVal hclen hcb]
    · intro b v rest h256 h
      simp only [read_arrayF, read_mapF] at h
      split at h
      next heq => exact absurd h (by simp)
      next len b1 heq =>
        split at h
        next heqe => exact absurd h (by simp)
        next array b2 heqe =>
          simp only [Except.ok.injEq, Prod.mk.injEq] at h
          obtain ⟨hv, hrest⟩ := h
          obtain ⟨cbe, hb, hclen, hcval⟩ := readBE_ok heq
          have hcb : ∀ x ∈ cbe, x < 256 := fun x hx =>
            h256 x (by rw [hb]; simp [hx])
          have hb1256 : ∀ x ∈ b1, x < 256 := fun x hx =>
            h256 x (by rw [hb]; simp [hx])
          obtain ⟨hlen, hbe⟩ := ihe len b1 array b2 hb1256 heqe
          have hlt : array.length < 4294967296 := by
            rw [hlen, ← hcval]
            have hvv := beVal_lt hcb
            rw [hclen] at hvv
            norm_num at hvv
            exact hvv
          refine ⟨array, hv.symm, hlt, ?_⟩
          rw [hb, hbe, hrest, hlen, ← hcval, beBytes_beVal hclen hcb]
    · intro b val v rest h256 h
      simp only [read_mapF] at h
      split at h
      next heqe => exact absurd h (by simp)
      next map b2 heqe =>
        simp only [Except.ok.injEq, Prod.mk.injEq] at h
        obtain ⟨hv, hrest⟩ := h
        obtain ⟨hlen, hbe⟩ := ihp (val &&& 0x0F) b map b2 h256 heqe
        refine ⟨map, hv.symm, hlen, ?_⟩
        rw [hbe, hrest]
    · intro b v rest h256 h
      simp only [read_arrayF, read_mapF] at h
      split at h
      next heq => exact absurd h (by simp)
      next len b1 heq =>
        split at h
        next heqe => exact absurd h (by simp)
        next array b2 heqe =>
          simp only [Except.ok.injEq, Prod.mk.injEq] at h
          obtain ⟨hv, hrest⟩ := h
          obtain ⟨cbe, hb, hclen, hcval⟩ := readBE_ok heq
          have hcb : ∀ x ∈ cbe, x < 256 := fun x hx =>
            h256 x (by rw [hb]; simp [hx])
          have hb1256 : ∀ x ∈ b1, x < 256 := fun x hx =>
            h256 x (by rw [hb]; simp [hx])
          obtain ⟨hlen, hbe⟩ := ihp len b1 array b2 hb1256 heqe
          have hlt : array.length < 65536 := by
            rw [hlen, ← hcval]
            have hvv := beVal_lt hcb
            rw [hclen] at hvv
            norm_num at hvv
            exact hvv
          refine ⟨array, hv.symm, hlt, ?_⟩
          rw [hb, hbe, hrest, hlen, ← hcval, beBytes_beVal hclen hcb]
    · intro b v rest h256 h
      simp only [read_arrayF, read_mapF] at h
      split at h
      next heq => exact absurd h (by simp)
      next len b1 heq =>
        split at h
        next heqe => exact absurd h (by simp)
        next array b2 heqe =>
          simp only [Except.ok.injEq, Prod.mk.injEq] at h
          obtain ⟨hv, hrest⟩ := h
          obtain ⟨cbe, hb, hclen, hcval⟩ := readBE_ok heq
          have hcb : ∀ x ∈ cbe, x < 256 := fun x hx =>
            h256 x (by rw [hb]; simp [hx])
          have hb1256 : ∀ x ∈ b1, x < 256 := fun x hx =>
            h256 x (by rw [hb]; simp [hx])
          obtain ⟨hlen, hbe⟩ := ihp len b1 array b2 hb1256 heqe
          have hlt : array.length < 4294967296 := by
            rw [hlen, ← hcval]
            have hvv := beVal_lt hcb
            rw [hclen] at hvv
            norm_num at hvv
            exact hvv
          refine ⟨array, hv.symm, hlt, ?_⟩
          rw [hb, hbe, hrest, hlen, ← hcval, beBytes_beVal hclen hcb]
    · intro n b es rest h256 h
      cases n with
      | zero =>
        simp only [read_elemsF, Except.ok.injEq, Prod.mk.injEq] at h
        obtain ⟨hes, hrest⟩ := h
        rw [← hes, ← hrest]
        exact ⟨rfl, by simp [encList]⟩
      | succ n =>
        simp only [read_elemsF] at h
        split at h
        next heq1 => exact absurd h (by simp)
        next e1 b1 heq1 =>
          split at h
          next heq2 => exact absurd h (by simp)
          next es1 b2 heq2 =>
            simp only [Except.ok.injEq, Prod.mk.injEq] at h
            obtain ⟨hes, hrest⟩ := h
            have hb := ihv b e1 b1 h256 heq1
            have hb1256 : ∀ x ∈ b1, x < 256 := fun x hx =>
              h256 x (by rw [hb]; simp [hx])
            obtain ⟨hlen, hb1⟩ := ihe n b1 es1 b2 hb1256 heq2
            rw [← hes, ← hrest]
            refine ⟨by simp [hlen], ?_⟩
            rw [hb, hb1]
            simp [encList]
    · intro n b ps rest h256 h
      cases n with
      | zero =>
        simp only [read_pairsF, Except.ok.injEq, Prod.mk.injEq] at h
        obtain ⟨hps, hrest⟩ := h
        rw [← hps, ← hrest]
        exact ⟨rfl, by simp [encPairs]⟩
      | succ n =>
        simp only [read_pairsF] at h
        split at h
        next heq1 => exact absurd h (by simp)
        next k1 b1 heq1 =>
          split at h
          next heq2 => exact absurd h (by simp)
          next v1 b2 heq2 =>
            split at h
            next heq3 => exact absurd h (by simp)
            next ps1 b3 heq3 =>
              simp only [Except.ok.injEq, Prod.mk.injEq] at h
              obtain ⟨hps, hrest⟩ := h
              have hbk := ihv b k1 b1 h256 heq1
              have hb1256 : ∀ x ∈ b1, x < 256 := fun x hx =>
                h256 x (by rw [hbk]; simp [hx])
              have hbv := ihv b1 v1 b2 hb1256 heq2
              have hb2256 : ∀ x ∈ b2, x < 256 := fun x hx =>
                hb1256 x (by rw [hbv]; simp [hx])
              obtain ⟨hlen, hb2⟩ := ihp n b2 ps1 b3 hb2256 heq3
              rw [← hps, ← hrest]
              refine ⟨by simp [hlen], ?_⟩
              rw [hbk, hbv, hb2]
              simp [encPairs]

/-! ### Round trip: decoding an encoding -/

/-- Round-trip master lemma, by induction on fuel: decoding the encoding
of any valid entry (with any suffix appended) succeeds and returns exactly
that entry, leaving the suffix unconsumed.  Stated simultaneously for the
five reading functions; the fuel bounds mirror the call structure. -/
theorem encode_decode : ∀ f : Nat,
    (∀ e rest, validEntry e = true → 3 * (encEntry e).length + 1 ≤ f →
      read_valueF f (encEntry e ++ rest) = .ok (e, rest)) ∧
    (∀ xs rest, (xs : List MsgPackEntry).length < 16 → validListE xs = true →
      3 * (encList xs).length + 3 ≤ f →
      read_arrayF f (encList xs ++ rest) (.FixArray xs.length) = .ok (.FixArray xs, rest)) ∧
    (∀ xs rest, (xs : List MsgPackEntry).length < 65536 → validListE xs = true →
      3 * (2 + (encList xs).length) + 3 ≤ f →
      read_arrayF f (beBytes 2 xs.length ++ (encList xs ++ rest)) .Array16 = .ok (.Array16 xs, rest)) ∧
    (∀ xs rest, (xs : List MsgPackEntry).length < 4294967296 → validListE xs = true →
      3 * (4 + (encList xs).length) + 3 ≤ f →
      read_arrayF f (beBytes 4 xs.length ++ (encList xs ++ rest)) .Array32 = .ok (.Array32 xs, rest)) ∧
    (∀ ps rest, (ps : List (MsgPackEntry × MsgPackEntry)).length < 16 → validListP ps = true →
      3 * (encPairs ps).length + 3 ≤ f →
      read_mapF f (encPairs ps ++ rest) (.FixMap ps.length) = .ok (.FixMap ps, rest)) ∧
    (∀ ps rest, (ps : List (MsgPackEntry × MsgPackEntry)).length < 65536 → validListP ps = true →
      3 * (2 + (encPairs ps).length) + 3 ≤ f →
      read_mapF f (beBytes 2 ps.length ++ (encPairs ps ++ rest)) .Map16 = .ok (.Map16 ps, rest)) ∧
    (∀ ps rest, (ps : List (MsgPackEntry × MsgPackEntry)).length < 4294967296 → validListP ps = true →
      3 * (4 + (encPairs ps).length) + 3 ≤ f →
      read_mapF f (beBytes 4 ps.length ++ (encPairs ps ++ rest)) .Map32 = .ok (.Map32 ps, rest)) ∧
    (∀ xs rest, validListE xs = true → 3 * (encList xs).length + 2 ≤ f →
      read_elemsF f xs.length (encList xs ++ rest) = .ok (xs, rest)) ∧
    (∀ ps rest, validListP ps = true → 3 * (encPairs ps).length + 2 ≤ f →
      read_pairsF f ps.length (encPairs ps ++ rest) = .ok (ps, rest)) := by
  intro f
  induction f with
  | zero =>
    exact ⟨fun e r hv hf => by omega, fun a r h1 h2 hf => by omega,
      fun a r h1 h2 hf => by omega, fun a r h1 h2 hf => by omega,
      fun a r h1 h2 hf => by omega, fun a r h1 h2 hf => by omega,
      fun a r h1 h2 hf => by omega, fun a r h1 hf => by omega,
      fun a r h1 hf => by omega⟩
  | succ f ih =>
    obtain ⟨ihv, ihaf, iha16, iha32, ihmf, ihm16, ihm32, ihel, ihpr⟩ := ih
    refine ⟨?_, ?_, ?_, ?_, ?_, ?_, ?_, ?_, ?_⟩
    · -- read_valueF on an encoded entry
      intro e rest hval hfuel
      obtain ⟨m, t, v⟩ := e
      simp only [validEntry, Bool.and_eq_true, beq_iff_eq] at hval
      obtain ⟨hm, ht, hv⟩ := hval
      subst hm
      subst ht
      simp only [encEntry] at hfuel ⊢
      cases v with
      | Null =>
        simp [encValue, canonicalMarker, value2type, read_valueF, readU8, mfu_C0,
          MsgPackEntry.new]
      | Bool b =>
        cases b <;>
          simp [encValue, canonicalMarker, value2type, read_valueF, readU8, mfu_C2, mfu_C3,
            MsgPackEntry.new]
      | FixPos n =>
        simp only [validValue, decide_eq_true_eq] at hv
        simp only [encValue, canonicalMarker, fixpos_mask hv, List.cons_append]
        simp [read_valueF, readU8, markerFromU8_fixpos hv, MsgPackEntry.new, value2type]
      | FixNeg n =>
        simp only [validValue, decide_eq_true_eq] at hv
        obtain ⟨h1, h2⟩ := hv
        have ht : intCast8 n = (n + 256).toNat := intCast8_neg h1 h2
        have hb1 : 224 ≤ (n + 256).toNat := by omega
        have hb2 : (n + 256).toNat < 256 := by omega
        have hmask := fixneg_mask _ hb2 hb1
        have hmk := markerFromU8_fixneg _ hb2 hb1
        simp only [encValue, canonicalMarker, ht, hmask, List.cons_append]
        simp [read_valueF, readU8, hmk, MsgPackEntry.new, value2type]
        omega
      | U8 n =>
        simp [encValue, canonicalMarker, value2type, read_valueF, readU8, mfu_CC,
          MsgPackEntry.new]
      | U16 n =>
        simp only [validValue, decide_eq_true_eq] at hv
        simp only [encValue, canonicalMarker, List.cons_append]
        simp [read_valueF, readU8, mfu_CD, readBE_replay (beBytes_length 2 n),
          beVal_beBytes2 hv, MsgPackEntry.new, value2type]
      | U32 n =>
        simp only [validValue, decide_eq_true_eq] at hv
        simp only [encValue, canonicalMarker, List.cons_append]
        simp [read_valueF, readU8, mfu_CE, readBE_replay (beBytes_length 4 n),
          beVal_beBytes4 hv, MsgPackEntry.new, value2type]
      | U64 n =>
        simp only [validValue, decide_eq_true_eq] at hv
        simp only [encValue, canonicalMarker, List.cons_append]
        simp [read_valueF, readU8, mfu_CF, readBE_replay (beBytes_length 8 n),
          beVal_beBytes8 hv, MsgPackEntry.new, value2type]
      | I8 n =>
        simp only [validValue, decide_eq_true_eq] at hv
        obtain ⟨h1, h2⟩ := hv
        simp only [encValue, canonicalMarker, List.cons_append]
        simp [read_valueF, readU8, mfu_D0, toSigned_intCast8 h1 h2, MsgPackEntry.new,
          value2type]
      | I16 n =>
        simp only [validValue, decide_eq_true_eq] at hv
        obtain ⟨h1, h2⟩ := hv
        simp only [encValue, canonicalMarker, List.cons_append]
        simp [read_valueF, readU8, mfu_D1, readBE_replay (beBytes_length 2 (intCast16 n)),
          beVal_beBytes2 (intCast16_lt n), toSigned_intCast16 h1 h2, MsgPackEntry.new,
          value2type]
      | I32 n =>
        simp only [validValue, decide_eq_true_eq] at hv
        obtain ⟨h1, h2⟩ := hv
        simp only [encValue, canonicalMarker, List.cons_append]
        simp [read_valueF, readU8, mfu_D2, readBE_replay (beBytes_length 4 (intCast32 n)),
          beVal_beBytes4 (intCast32_lt n), toSigned_intCast32 h1 h2, MsgPackEntry.new,
          value2type]
      | I64 n =>
        simp only [validValue, decide_eq_true_eq] at hv
        obtain ⟨h1, h2⟩ := hv
        simp only [encValue, canonicalMarker, List.cons_append]
        simp [read_valueF, readU8, mfu_D3, readBE_replay (beBytes_length 8 (intCast64 n)),
          beVal_beBytes8 (intCast64_lt n), toSigned_intCast64 h1 h2, MsgPackEntry.new,
          value2type]
      | F32 bits =>
        simp only [validValue, decide_eq_true_eq] at hv
        simp only [encValue, canonicalMarker, List.cons_append]
        simp [read_valueF, readU8, mfu_CA, readBE_replay (beBytes_length 4 bits),
          beVal_beBytes4 hv, MsgPackEntry.new, value2type]
      | F64 bits =>
        simp only [validValue, decide_eq_true_eq] at hv
        simp only [encValue, canonicalMarker, List.cons_append]
        simp [read_valueF, readU8, mfu_CB, readBE_replay (beBytes_length 8 bits),
          beVal_beBytes8 hv, MsgPackEntry.new, value2type]
      | FixStr s =>
        simp only [validValue, Bool.and_eq_true, decide_eq_true_eq] at hv
        obtain ⟨h1, h2⟩ := hv
        obtain ⟨hm1, hm2, hm3⟩ := fixstr_marker s.length h1
        simp only [encValue, canonicalMarker, hm1, List.cons_append]
        simp [read_valueF, readU8, hm2, read_str, hm3,
          readExact_replay (rfl : s.length = s.length), h2, MsgPackEntry.new, value2type]
      | Str8 s =>
        simp only [validValue, Bool.and_eq_true, decide_eq_true_eq] at hv
        obtain ⟨h1, h2⟩ := hv
        simp only [encValue, canonicalMarker, List.cons_append]
        simp [read_valueF, readU8, mfu_D9, read_str, Nat.mod_eq_of_lt h1,
          readExact_replay (rfl : s.length = s.length), h2, MsgPackEntry.new, value2type]
      | Str16 s =>
        simp only [validValue, Bool.and_eq_true, decide_eq_true_eq] at hv
        obtain ⟨h1, h2⟩ := hv
        simp only [encValue, canonicalMarker, Nat.mod_eq_of_lt h1, List.cons_append,
          List.append_assoc]
        simp [read_valueF, readU8, mfu_DA, read_str, readBE_replay (beBytes_length 2 s.length),
          beVal_beBytes2 h1, readExact_replay (rfl : s.length = s.length), h2,
          MsgPackEntry.new, value2type]
      | Str32 s =>
        simp only [validValue, Bool.and_eq_true, decide_eq_true_eq] at hv
        obtain ⟨h1, h2⟩ := hv
        simp only [encValue, canonicalMarker, Nat.mod_eq_of_lt h1, List.cons_append,
          List.append_assoc]
        simp [read_valueF, readU8, mfu_DB, read_str, readBE_replay (beBytes_length 4 s.length),
          beVal_beBytes4 h1, readExact_replay (rfl : s.length = s.length), h2,
          MsgPackEntry.new, value2type]
      | Bin8 bin =>
        simp only [validValue, Bool.and_eq_true, decide_eq_true_eq] at hv
        obtain ⟨h1, h2⟩ := hv
        simp only [encValue, canonicalMarker, List.cons_append]
        simp [read_valueF, readU8, mfu_C4, read_bin, Nat.mod_eq_of_lt h1,
          readExact_replay (rfl : bin.length = bin.length), MsgPackEntry.new, value2type]
      | Bin16 bin =>
        simp only [validValue, Bool.and_eq_true, decide_eq_true_eq] at hv
        obtain ⟨h1, h2⟩ := hv
        simp only [encValue, canonicalMarker, Nat.mod_eq_of_lt h1, List.cons_append,
          List.append_assoc]
        simp [read_valueF, readU8, mfu_C5, read_bin, readBE_replay (beBytes_length 2 bin.length),
          beVal_beBytes2 h1, readExact_replay (rfl : bin.length = bin.length),
          MsgPackEntry.new, value2type]
      | Bin32 bin =>
        simp only [validValue, Bool.and_eq_true, decide_eq_true_eq] at hv
        obtain ⟨h1, h2⟩ := hv
        simp only [encValue, canonicalMarker, Nat.mod_eq_of_lt h1, List.cons_append,
          List.append_assoc]
        simp [read_valueF, readU8, mfu_C6, read_bin, readBE_replay (beBytes_length 4 bin.length),
          beVal_beBytes4 h1, readExact_replay (rfl : bin.length = bin.length),
          MsgPackEntry.new, value2type]
      | FixArray xs =>
        simp only [validValue, Bool.and_eq_true, decide_eq_true_eq] at hv
        obtain ⟨h1, h2⟩ := hv
        obtain ⟨hm1, hm2, hm3⟩ := fixarray_marker xs.length h1
        simp only [encValue, List.length_cons] at hfuel
        simp only [encValue, canonicalMarker, hm1, List.cons_append]
        simp [read_valueF, readU8, hm2, ihaf xs rest h1 h2 (by omega), MsgPackEntry.new,
          value2type]
      | Array16 xs =>
        simp only [validValue, Bool.and_eq_true, decide_eq_true_eq] at hv
        obtain ⟨h1, h2⟩ := hv
        simp only [encValue, List.length_cons, List.length_append,
          beBytes_length] at hfuel
        simp only [encValue, canonicalMarker, Nat.mod_eq_of_lt h1, List.cons_append]
        simp [read_valueF, readU8, mfu_DC, iha16 xs rest h1 h2 (by omega), MsgPackEntry.new,
          value2type]
      | Array32 xs =>
        simp only [validValue, Bool.and_eq_true, decide_eq_true_eq] at hv
        obtain ⟨h1, h2⟩ := hv
        simp only [encValue, List.length_cons, List.length_append,
          beBytes_length] at hfuel
        simp only [encValue, canonicalMarker, Nat.mod_eq_of_lt h1, List.cons_append]
        simp [read_valueF, readU8, mfu_DD, iha32 xs rest h1 h2 (by omega), MsgPackEntry.new,
          value2type]
      | FixMap ps =>
        simp only [validValue, Bool.and_eq_true, decide_eq_true_eq] at hv
        obtain ⟨h1, h2⟩ := hv
        obtain ⟨hm1, hm2, hm3⟩ := fixmap_marker ps.length h1
        simp only [encValue, List.length_cons] at hfuel
        simp only [encValue, canonicalMarker, hm1, List.cons_append]
        simp [read_valueF, readU8, hm2, ihmf ps rest h1 h2 (by omega), MsgPackEntry.new,
          value2type]
      | Map16 ps =>
        simp only [validValue, Bool.and_eq_true, decide_eq_true_eq] at hv
        obtain ⟨h1, h2⟩ := hv
        simp only [encValue, List.length_cons, List.length_append,
          beBytes_length] at hfuel
        simp only [encValue, canonicalMarker, Nat.mod_eq_of_lt h1, List.cons_append]
        simp [read_valueF, readU8, mfu_DE, ihm16 ps rest h1 h2 (by omega), MsgPackEntry.new,
          value2type]
      | Map32 ps =>
        simp only [validValue, Bool.and_eq_true, decide_eq_true_eq] at hv
        obtain ⟨h1, h2⟩ := hv
        simp only [encValue, List.length_cons, List.length_append,
          beBytes_length] at hfuel
        simp only [encValue, canonicalMarker, Nat.mod_eq_of_lt h1, List.cons_append]
        simp [read_valueF, readU8, mfu_DF, ihm32 ps rest h1 h2 (by omega), MsgPackEntry.new,
          value2type]
    · -- read_arrayF, FixArray
      intro xs rest h1 h2 hfuel
      obtain ⟨hm1, hm2, hm3⟩ := fixarray_marker xs.length h1
      simp only [read_arrayF]
      simp [hm3, ihel xs rest h2 (by omega)]
    · -- read_arrayF, Array16
      intro xs rest h1 h2 hfuel
      simp only [read_arrayF, List.append_assoc]
      simp [readBE_replay (beBytes_length 2 xs.length), beVal_beBytes2 h1,
        ihel xs rest h2 (by omega)]
    · -- read_arrayF, Array32
      intro xs rest h1 h2 hfuel
      simp only [read_arrayF, List.append_assoc]
      simp [readBE_replay (beBytes_length 4 xs.length), beVal_beBytes4 h1,
        ihel xs rest h2 (by omega)]
    · -- read_mapF, FixMap
      intro ps rest h1 h2 hfuel
      obtain ⟨hm1, hm2, hm3⟩ := fixmap_marker ps.length h1
      simp only [read_mapF]
      simp [hm3, ihpr ps rest h2 (by omega)]
    · -- read_mapF, Map16
      intro ps rest h1 h2 hfuel
      simp only [read_mapF, List.append_assoc]
      simp [readBE_replay (beBytes_length 2 ps.length), beVal_beBytes2 h1,
        ihpr ps rest h2 (by omega)]
    · -- read_mapF, Map32
      intro ps rest h1 h2 hfuel
      simp only [read_mapF, List.append_assoc]
      simp [readBE_replay (beBytes_length 4 ps.length), beVal_beBytes4 h1,
        ihpr ps rest h2 (by omega)]
    · -- read_elemsF on an encoded child list
      intro xs rest hval hfuel
      cases xs with
      | nil => simp [read_elemsF, encList]
      | cons e es =>
        simp only [validListE, Bool.and_eq_true] at hval
        obtain ⟨hve, hves⟩ := hval
        have hene : 0 < (encEntry e).length := by
          cases e with
          | mk m t v =>
            simp only [encEntry]
            exact List.length_pos.mpr (encValue_ne_nil v)
        simp only [encList, List.length_append] at hfuel
        simp only [encList, List.length_cons, read_elemsF, List.append_assoc]
        simp [ihv e (encList es ++ rest) hve (by omega), ihel es rest hves (by omega)]
    · -- read_pairsF on an encoded pair list
      intro ps rest hval hfuel
      cases ps with
      | nil => simp [read_pairsF, encPairs]
      | cons p ps =>
        obtain ⟨k, v⟩ := p
        simp only [validListP, Bool.and_eq_true] at hval
        obtain ⟨hvk, hvv, hvps⟩ := hval
        have hkne : 0 < (encEntry k).length := by
          cases k with
          | mk m t v2 =>
            simp only [encEntry]
            exact List.length_pos.mpr (encValue_ne_nil v2)
        have hvne : 0 < (encEntry v).length := by
          cases v with
          | mk m t v2 =>
            simp only [encEntry]
            exact List.length_pos.mpr (encValue_ne_nil v2)
        simp only [encPairs, List.length_append] at hfuel
        simp only [encPairs, List.length_cons, read_pairsF, List.append_assoc]
        simp [ihv k (encEntry v ++ (encPairs ps ++ rest)) hvk (by omega),
          ihv v (encPairs ps ++ rest) hvv (by omega), ihpr ps rest hvps (by omega)]


/-! ### Shared corollaries used by the claim theorems -/

/-- The encoder reads only the `data` field of an entry. -/
theorem encEntry_eq (e : MsgPackEntry) : encEntry e = encValue e.data := by
  cases e
  rfl

/-- One decoding step on an input whose first byte is an extension-family
marker runs into `unimplemented!()` (modelled as `diverged`). -/
theorem read_valueF_ext (f : Nat) (m : Nat) (rest : List Nat)
    (h : m = 0xC7 ∨ m = 0xC8 ∨ m = 0xC9 ∨ m = 0xD4 ∨ m = 0xD5 ∨
         m = 0xD6 ∨ m = 0xD7 ∨ m = 0xD8) :
    read_valueF (f + 1) (m :: rest) = .error (.diverged "not implemented") := by
  rcases h with h | h | h | h | h | h | h | h <;> subst h <;> rfl

/-! ### The claims -/

/-- C1 (counterexample): the round trip does not hold for every entry tree
whose payloads are merely within their family ranges.  The entry
`.mk 0 .Null (.Bool true)` is payload-range valid, but decoding its
encoding rebuilds `raw_marker = 0xC3` and `basic_type = .Bool`, so
`unpack (pack e) ≠ .ok e`. -/
theorem c1_roundtrip_cex :
    payloadValidE (.mk 0 .Null (.Bool true)) = true ∧
    unpack (pack (.mk 0 .Null (.Bool true))) ≠ .ok (.mk 0 .Null (.Bool true)) := by
  refine ⟨rfl, fun h => ?_⟩
  have hc : unpack (pack (.mk 0 .Null (.Bool true))) =
      .ok (.mk 0xC3 .Bool (.Bool true)) := rfl
  rw [hc] at h
  simp at h

/-- C1 (amended): for every entry tree that is valid in the stronger sense —
payloads within their family ranges AND, at every node, `raw_marker` equal to
the marker byte the encoder emits for the node and `basic_type` equal to the
derived classification — decoding the encoding yields exactly the tree back:
`unpack (pack e) = .ok e`. -/
theorem c1_roundtrip_amended (e : MsgPackEntry) (h : validEntry e = true) :
    unpack (pack e) = .ok e := by
  have hpe : pack e = encEntry e := by rw [pack_eq, encEntry_eq]
  have hrt := (encode_decode (3 * (encEntry e).length + 1)).1 e [] h (by omega)
  rw [List.append_nil] at hrt
  unfold unpack read_value
  rw [hpe, hrt]
  rfl

/-- C1 witness: the amended round trip at a concrete one-element array. -/
theorem c1_roundtrip_amended_witness :
    validEntry (.mk 0x91 .Array (.FixArray [.mk 0xC0 .Null .Null])) = true ∧
    unpack (pack (.mk 0x91 .Array (.FixArray [.mk 0xC0 .Null .Null]))) =
      .ok (.mk 0x91 .Array (.FixArray [.mk 0xC0 .Null .Null])) :=
  ⟨rfl, c1_roundtrip_amended _ rfl⟩

/-- C2: for every byte buffer `b` (elements genuine bytes) that decodes
completely to a single entry `e` with no remainder, `unpack` succeeds with
`e` and re-encoding reproduces the buffer byte for byte: `pack e = b`.
In particular this holds for every canonical MessagePack encoding. -/
theorem c2_reencode (b : List Nat) (e : MsgPackEntry)
    (hb : ∀ x ∈ b, x < 256) (h : read_value b = .ok (e, [])) :
    unpack b = .ok e ∧ pack e = b := by
  constructor
  · unfold unpack
    rw [h]
    rfl
  · simp only [read_value] at h
    have hx := (decode_exact (3 * b.length + 1)).1 b e [] hb h
    rw [List.append_nil] at hx
    rw [pack_eq, ← encEntry_eq]
    exact hx.symm

/-- C2 witness: the byte-exact re-encoding at the concrete buffer
`[0xCC, 0x07]` (a `U8 7`). -/
theorem c2_reencode_witness :
    (∀ x ∈ [0xCC, 7], x < 256) ∧
    read_value [0xCC, 7] = .ok (.mk 0xCC .Number (.U8 7), []) ∧
    (unpack [0xCC, 7] = .ok (.mk 0xCC .Number (.U8 7)) ∧
      pack (.mk 0xCC .Number (.U8 7)) = [0xCC, 7]) :=
  ⟨by decide, rfl, c2_reencode [0xCC, 7] _ (by decide) rfl⟩

/-- C3 (counterexample): on input `[0xD4]` (a FixExt1 marker) `unpack` does
not return an unsupported-format error to the caller: the extension arm runs
`unimplemented!()`, i.e. it panics (diverges), which is not an `Err`
return. -/
theorem c3_ext_cex :
    unpack [0xD4] = .error (.diverged "not implemented") ∧
    isErrorReturn (unpack [0xD4]) = false :=
  ⟨rfl, rfl⟩

/-- C3 (amended): for every input whose first byte is one of the eight
extension-family markers (0xC7–0xC9, 0xD4–0xD8), `unpack` panics with
`unimplemented!()` ("not implemented") instead of returning an error: the
outcome is the divergence marker, not an error return. -/
theorem c3_ext_amended (m : Nat) (rest : List Nat)
    (h : m = 0xC7 ∨ m = 0xC8 ∨ m = 0xC9 ∨ m = 0xD4 ∨ m = 0xD5 ∨
         m = 0xD6 ∨ m = 0xD7 ∨ m = 0xD8) :
    unpack (m :: rest) = .error (.diverged "not implemented") ∧
    isErrorReturn (unpack (m :: rest)) = false := by
  have hu : unpack (m :: rest) = .error (.diverged "not implemented") := by
    unfold unpack read_value
    have hl : 3 * (m :: rest).length + 1 = (3 * rest.length + 3) + 1 := by
      simp only [List.length_cons]
      omega
    rw [hl, read_valueF_ext (3 * rest.length + 3) m rest h]
    rfl
  exact ⟨hu, by rw [hu]; rfl⟩

/-- C3 witness: the amended statement at the concrete input `[0xD5]`. -/
theorem c3_ext_amended_witness :
    (0xD5 = 0xC7 ∨ 0xD5 = 0xC8 ∨ 0xD5 = 0xC9 ∨ 0xD5 = 0xD4 ∨ 0xD5 = 0xD5 ∨
      0xD5 = 0xD6 ∨ 0xD5 = 0xD7 ∨ 0xD5 = 0xD8) ∧
    (unpack [0xD5] = .error (.diverged "not implemented") ∧
      isErrorReturn (unpack [0xD5]) = false) :=
  ⟨by decide, c3_ext_amended 0xD5 [] (by decide)⟩

/-- C4: truncation errors.  Whenever a buffer decodes to an entry, consuming
the prefix `c` of the input, every strict prefix of `c` (the input cut off
before the marker, a length field or the payload completes) makes `unpack`
fail with the propagated IO error (`.error .io`). -/
theorem c4_truncation (b : List Nat) (e : MsgPackEntry) (rest : List Nat)
    (h : read_value b = .ok (e, rest)) :
    ∃ c, c ≠ [] ∧ b = c ++ rest ∧
      ∀ k, k < c.length → unpack (c.take k) = .error .io := by
  simp only [read_value] at h
  obtain ⟨c, hne, hbc, -, htrunc⟩ := (decode_combo (3 * b.length + 1)).1 b e rest h
  refine ⟨c, hne, hbc, fun k hk => ?_⟩
  have hcb : c.length ≤ b.length := by rw [hbc]; simp
  have hlen : (c.take k).length = k := by
    simp only [List.length_take]
    omega
  have hne2 : read_valueF (3 * k + 1) (c.take k) ≠ .error .outOfFuel :=
    (decode_total (3 * k + 1)).1 (c.take k)
      (by simp only [List.length_take]; omega)
  have hmono := (decode_mono (3 * k + 1)).1 (3 * b.length + 1 - (3 * k + 1))
    (c.take k) hne2
  have hd : 3 * k + 1 + (3 * b.length + 1 - (3 * k + 1)) = 3 * b.length + 1 := by
    omega
  rw [hd] at hmono
  unfold unpack read_value
  rw [hlen, ← hmono, htrunc k hk]
  rfl

/-- C4 witness: applied to the concrete buffer `[0xCD, 1, 2]` (a U16),
together with the spec example `unpack [0xCC] = Io error`. -/
theorem c4_truncation_witness :
    read_value [0xCD, 1, 2] = .ok (.mk 0xCD .Number (.U16 258), []) ∧
    (∃ c, c ≠ [] ∧ [0xCD, 1, 2] = c ++ ([] : List Nat) ∧
      ∀ k, k < c.length → unpack (c.take k) = .error .io) ∧
    unpack [0xCC] = .error .io :=
  ⟨rfl, c4_truncation [0xCD, 1, 2] _ [] rfl, rfl⟩

/-- C5: `MsgPackEntry.new` always derives `basic_type` as the deterministic
classification `value2type` of the value, and every entry `unpack` produces
satisfies this coherence at every node. -/
theorem c5_basic_type :
    (∀ m v, (MsgPackEntry.new m v).basic_type = value2type v) ∧
    (∀ b e, unpack b = .ok e → wellTypedE e = true) := by
  refine ⟨fun m v => rfl, fun b e h => ?_⟩
  simp only [unpack, read_value] at h
  cases hr : read_valueF (3 * b.length + 1) b with
  | error err =>
    rw [hr] at h
    exact absurd h (by simp [Except.map])
  | ok p =>
    obtain ⟨e1, rest⟩ := p
    rw [hr] at h
    simp only [Except.map, Except.ok.injEq] at h
    subst h
    exact (decode_wellTyped (3 * b.length + 1)).1 b e1 rest hr

/-- C5 witness: the constructor coherence at `(0, Null)` and the decoder
coherence on the concrete input `[0xC3]`. -/
theorem c5_basic_type_witness :
    (MsgPackEntry.new 0 .Null).basic_type = value2type .Null ∧
    (unpack [0xC3] = .ok (.mk 0xC3 .Bool (.Bool true)) ∧
      wellTypedE (.mk 0xC3 .Bool (.Bool true)) = true) :=
  ⟨c5_basic_type.1 0 .Null, rfl, c5_basic_type.2 [0xC3] _ rfl⟩

/-- C6 (counterexample): the emitted length field does not always equal the
children count.  A `FixArray` of 16 `Null` entries is written with marker
byte `0x90`, whose low four bits (the FixArray length field) are `0`, not
`16` — the `as u8 & 0x0F` truncation loses the count, although all 16
children are still written. -/
theorem c6_length_cex :
    (List.replicate 16 (MsgPackEntry.mk 0xC0 .Null .Null)).length = 16 ∧
    write_value [] (.FixArray (List.replicate 16 (.mk 0xC0 .Null .Null))) =
      .ok (0x90 :: List.replicate 16 0xC0) ∧
    0x90 &&& 0x0F ≠ 16 := by
  exact ⟨by decide, rfl, by decide⟩

/-- C6 (amended): whenever the children count fits the width of the chosen
variant (`< 16` for FixArray/FixMap, `< 2^16` for Array16/Map16, `< 2^32`
for Array32/Map32), the length field `write_value` emits — the low four bits
of the fix marker, or the 2/4-byte big-endian count — is exactly the number
of child entries (or pairs), all of which are then written from the child
vector. -/
theorem c6_length_amended :
    (∀ (w : List Nat) (xs : List MsgPackEntry), xs.length < 16 →
      write_value w (.FixArray xs) = .ok (w ++ ((0x90 + xs.length) :: encList xs)) ∧
      (0x90 + xs.length) &&& 0x0F = xs.length) ∧
    (∀ (w : List Nat) (xs : List MsgPackEntry), xs.length < 65536 →
      write_value w (.Array16 xs) = .ok (w ++ (0xDC :: (beBytes 2 xs.length ++ encList xs))) ∧
      beVal (beBytes 2 xs.length) = xs.length) ∧
    (∀ (w : List Nat) (xs : List MsgPackEntry), xs.length < 4294967296 →
      write_value w (.Array32 xs) = .ok (w ++ (0xDD :: (beBytes 4 xs.length ++ encList xs))) ∧
      beVal (beBytes 4 xs.length) = xs.length) ∧
    (∀ (w : List Nat) (ps : List (MsgPackEntry × MsgPackEntry)), ps.length < 16 →
      write_value w (.FixMap ps) = .ok (w ++ ((0x80 + ps.length) :: encPairs ps)) ∧
      (0x80 + ps.length) &&& 0x0F = ps.length) ∧
    (∀ (w : List Nat) (ps : List (MsgPackEntry × MsgPackEntry)), ps.length < 65536 →
      write_value w (.Map16 ps) = .ok (w ++ (0xDE :: (beBytes 2 ps.length ++ encPairs ps))) ∧
      beVal (beBytes 2 ps.length) = ps.length) ∧
    (∀ (w : List Nat) (ps : List (MsgPackEntry × MsgPackEntry)), ps.length < 4294967296 →
      write_value w (.Map32 ps) = .ok (w ++ (0xDF :: (beBytes 4 ps.length ++ encPairs ps))) ∧
      beVal (beBytes 4 ps.length) = ps.length) := by
  have hfa : ∀ L, L < 16 → (0x90 + L) &&& 0x0F = L := by decide
  have hfm : ∀ L, L < 16 → (0x80 + L) &&& 0x0F = L := by decide
  refine ⟨fun w xs h => ⟨?_, hfa _ h⟩, fun w xs h => ⟨?_, beVal_beBytes2 h⟩,
    fun w xs h => ⟨?_, beVal_beBytes4 h⟩, fun w ps h => ⟨?_, hfm _ h⟩,
    fun w ps h => ⟨?_, beVal_beBytes2 h⟩, fun w ps h => ⟨?_, beVal_beBytes4 h⟩⟩
  · rw [write_value_eq]
    simp only [encValue]
    rw [(fixarray_marker xs.length h).1]
  · rw [write_value_eq]
    simp only [encValue]
    rw [Nat.mod_eq_of_lt h]
  · rw [write_value_eq]
    simp only [encValue]
    rw [Nat.mod_eq_of_lt h]
  · rw [write_value_eq]
    simp only [encValue]
    rw [(fixmap_marker ps.length h).1]
  · rw [write_value_eq]
    simp only [encValue]
    rw [Nat.mod_eq_of_lt h]
  · rw [write_value_eq]
    simp only [encValue]
    rw [Nat.mod_eq_of_lt h]

/-- C6 witness: the amended length fidelity at a concrete one-element
FixArray. -/
theorem c6_length_amended_witness :
    ([MsgPackEntry.mk 0xC0 .Null .Null].length < 16) ∧
    (write_value [] (.FixArray [.mk 0xC0 .Null .Null]) =
      .ok ([] ++ ((0x90 + [MsgPackEntry.mk 0xC0 .Null .Null].length) ::
        encList [.mk 0xC0 .Null .Null])) ∧
    (0x90 + [MsgPackEntry.mk 0xC0 .Null .Null].length) &&& 0x0F =
      [MsgPackEntry.mk 0xC0 .Null .Null].length) :=
  ⟨by decide, c6_length_amended.1 [] [.mk 0xC0 .Null .Null] (by decide)⟩

/-- C7: trailing bytes are ignored.  If the buffer `p` is one complete value
(decoded with empty remainder), then for any appended suffix `unpack`
still succeeds on `p ++ suffix` with the same entry. -/
theorem c7_trailing_ignored (p suffix : List Nat) (e : MsgPackEntry)
    (h : read_value p = .ok (e, [])) :
    unpack (p ++ suffix) = .ok e := by
  simp only [read_value] at h
  obtain ⟨c, hne, hpc, hreplay, -⟩ := (decode_combo (3 * p.length + 1)).1 p e [] h
  rw [List.append_nil] at hpc
  subst hpc
  have hrep := hreplay suffix
  have hne2 : read_valueF (3 * p.length + 1) (p ++ suffix) ≠ .error .outOfFuel := by
    rw [hrep]
    simp
  have hmono := (decode_mono (3 * p.length + 1)).1 (3 * suffix.length)
    (p ++ suffix) hne2
  unfold unpack read_value
  have hlen : 3 * (p ++ suffix).length + 1 = 3 * p.length + 1 + 3 * suffix.length := by
    simp only [List.length_append]
    omega
  rw [hlen, hmono, hrep]
  rfl

/-- C7 witness: the concrete value `[0xC2]` (Bool false) followed by the
trailing byte `0xFF`. -/
theorem c7_trailing_ignored_witness :
    read_value [0xC2] = .ok (.mk 0xC2 .Bool (.Bool false), []) ∧
    unpack ([0xC2] ++ [0xFF]) = .ok (.mk 0xC2 .Bool (.Bool false)) :=
  ⟨rfl, c7_trailing_ignored [0xC2] [0xFF] _ rfl⟩

/-- C8 (counterexample): the reserved-marker branch IS reachable from the
decoder's input: the byte `0xC1` maps to `Marker.Reserved`, and decoding
`[0xC1]` runs straight into the `unreachable!()` branch (modelled as the
divergence outcome). -/
theorem c8_reserved_cex :
    markerFromU8 0xC1 = .Reserved ∧
    unpack [0xC1] = .error (.diverged "internal error: entered unreachable code") :=
  ⟨rfl, rfl⟩

/-- C8 (amended): the marker table maps exactly the byte `0xC1` to the
reserved marker (every other byte is some defined family), and any input
beginning with `0xC1` drives the decoder into the `unreachable!()` branch:
a panic, not a success and not a defined error return. -/
theorem c8_reserved_amended (m : Nat) (rest : List Nat) (hm : m < 256) :
    (markerFromU8 m = .Reserved ↔ m = 0xC1) ∧
    unpack (0xC1 :: rest) =
      .error (.diverged "internal error: entered unreachable code") := by
  constructor
  · constructor
    · intro hr
      have hinv := mfu_inv_chk m hm
      unfold mfuInvChk at hinv
      simp only [hr, decide_eq_true_eq] at hinv
      exact hinv
    · intro hr
      subst hr
      rfl
  · unfold unpack read_value
    have hl : 3 * ((0xC1 : Nat) :: rest).length + 1 = (3 * rest.length + 3) + 1 := by
      simp only [List.length_cons]
      omega
    rw [hl]
    rfl

/-- C8 witness: the amended statement at `m = 0xC1` with one trailing
byte. -/
theorem c8_reserved_amended_witness :
    (0xC1 < 256) ∧
    ((markerFromU8 0xC1 = .Reserved ↔ (0xC1 : Nat) = 0xC1) ∧
      unpack [0xC1, 0] =
        .error (.diverged "internal error: entered unreachable code")) :=
  ⟨by decide, c8_reserved_amended 0xC1 [0] (by decide)⟩

/-- C9: `pack` always succeeds: `write_value` into the in-memory sink has
no failure path, so it returns `.ok` on every entry and `pack` simply
unwraps that buffer — the unwrap can never panic. -/
theorem c9_pack_total (e : MsgPackEntry) :
    write_value [] e.data = .ok (pack e) := by
  rw [write_value_eq, pack_eq]
  simp

/-- C10: the encoder never reads the stored `raw_marker` (or `basic_type`):
two entries with equal `data` fields encode to identical byte sequences. -/
theorem c10_marker_independent (e1 e2 : MsgPackEntry) (h : e1.data = e2.data) :
    pack e1 = pack e2 := by
  unfold pack
  rw [h]

/-- C10 witness: entries with raw markers `0xC3` and `0` (and different
`basic_type`) but the same payload encode identically. -/
theorem c10_marker_independent_witness :
    (MsgPackEntry.mk 0xC3 .Bool (.Bool true)).data =
      (MsgPackEntry.mk 0 .Null (.Bool true)).data ∧
    pack (.mk 0xC3 .Bool (.Bool true)) = pack (.mk 0 .Null (.Bool true)) :=
  ⟨rfl, c10_marker_independent _ _ rfl⟩

end RMPP
